import Mathlib

/-!
# AbletonCLI `migrate`: a shallow embedding of `cmd/migrate.go`

The development follows the source file top to bottom:

* byte strings and the Go library calls the code relies on
  (`strings.Contains`, `strings.ReplaceAll`, `strings.HasSuffix`,
  `bufio.Scanner` with `bufio.ScanLines`);
* a file system as a map from paths to files, with every
  fallible operating-system call driven by an explicit fault record;
* `copyFile`, `decompressGzipFile`, `compressGzipFile`, `processFile`,
  the per-candidate body of `migrateRun`, the run over all candidates;
* the same run over a tree in which candidates may be symbolic links;
* `cleanUpTempFiles` over a directory tree.

Go strings are byte sequences; a byte is a natural number below 256.
-/

namespace AbletonCLI

/-! ## Byte strings -/

/-- A Go string: a sequence of bytes (values below 256). -/
abbrev Bytes := List Nat

/-- The bytes of an ASCII literal. -/
def ascii (s : String) : Bytes := s.toList.map Char.toNat

/-- The line feed byte. -/
def LF : Nat := 10

/-- The carriage return byte. -/
def CR : Nat := 13

/-- Go `strings.HasPrefix(s, pre)`. -/
def HasPrefix (s pre : Bytes) : Bool := pre.isPrefixOf s

/-- Go `strings.HasSuffix(s, suf)`. -/
def HasSuffix (s suf : Bytes) : Bool := suf.isSuffixOf s

/-- Go `strings.Index(s, substr)`: the offset of the first occurrence of
`substr` in `s`; `none` stands for the result `-1`. -/
def Index : Bytes → Bytes → Option Nat
  | [], substr => if substr = [] then some 0 else none
  | c :: cs, substr =>
    if HasPrefix (c :: cs) substr then some 0
    else (Index cs substr).map (· + 1)

/-- Go `strings.Contains(s, substr)`, which is `Index(s, substr) >= 0`. -/
def Contains (s substr : Bytes) : Bool := (Index s substr).isSome

/-! ### UTF-8 rune width (only used by `ReplaceAll` with an empty `old`) -/

/-- Is `b` inside the closed range `lo..hi`. -/
def inRange (lo hi b : Nat) : Bool := decide (lo ≤ b) && decide (b ≤ hi)

/-- The accepted range of the second byte for a leading byte `c`
(table `acceptRanges` of Go `unicode/utf8`), with the encoded size;
`none` for a leading byte that is ASCII or invalid (width 1). -/
def leadInfo (c : Nat) : Option (Nat × Nat × Nat) :=
  if inRange 0xC2 0xDF c then some (2, 0x80, 0xBF)
  else if c = 0xE0 then some (3, 0xA0, 0xBF)
  else if inRange 0xE1 0xEC c then some (3, 0x80, 0xBF)
  else if c = 0xED then some (3, 0x80, 0x9F)
  else if inRange 0xEE 0xEF c then some (3, 0x80, 0xBF)
  else if c = 0xF0 then some (4, 0x90, 0xBF)
  else if inRange 0xF1 0xF3 c then some (4, 0x80, 0xBF)
  else if c = 0xF4 then some (4, 0x80, 0x8F)
  else none

/-- The width returned by Go `utf8.DecodeRuneInString(s)`: 0 on the empty
string, 1 for ASCII and for every invalid or truncated encoding, otherwise
the length of the encoded rune. -/
def runeWidth : Bytes → Nat
  | [] => 0
  | c :: rest =>
    match leadInfo c with
    | none => 1
    | some (sz, lo, hi) =>
      if rest.length + 1 < sz then 1
      else match rest with
        | [] => 1
        | s1 :: rest1 =>
          if !(inRange lo hi s1) then 1
          else if sz ≤ 2 then 2
          else match rest1 with
            | [] => 1
            | s2 :: rest2 =>
              if !(inRange 0x80 0xBF s2) then 1
              else if sz ≤ 3 then 3
              else match rest2 with
                | [] => 1
                | s3 :: _ => if !(inRange 0x80 0xBF s3) then 1 else 4

/-! ### `strings.ReplaceAll` -/

/-- The scan of `strings.Replace(s, old, new, -1)` for a non-empty `old`:
left to right, each occurrence of `old` found at the current position is
replaced by `new` and skipped whole (`skip` counts the bytes of the
occurrence still to pass over), every other byte is copied. -/
def replaceScan (old new : Bytes) : Nat → Bytes → Bytes
  | _, [] => []
  | k + 1, _ :: cs => replaceScan old new k cs
  | 0, c :: cs =>
    if HasPrefix (c :: cs) old then new ++ replaceScan old new (old.length - 1) cs
    else c :: replaceScan old new 0 cs

/-- The scan of `strings.Replace(s, "", new, -1)` after the first insertion:
`new` is inserted after every UTF-8 sequence (`left` counts the bytes of the
current sequence still to copy, 0 at a sequence start). -/
def insertScan (new : Bytes) : Nat → Bytes → Bytes
  | _, [] => []
  | left, c :: cs =>
    let w := if left = 0 then runeWidth (c :: cs) else left
    if w ≤ 1 then c :: (new ++ insertScan new 0 cs)
    else c :: insertScan new (w - 1) cs

/-- Go `strings.ReplaceAll(s, old, new)`: every non-overlapping instance of
`old`, taken leftmost first, replaced by `new`; an empty `old` matches at the
beginning of the string and after each UTF-8 sequence. -/
def ReplaceAll (s old new : Bytes) : Bytes :=
  if old = new then s
  else if old = [] then new ++ insertScan new 0 s
  else replaceScan old new 0 s

/-! ## `bufio.Scanner` with `bufio.ScanLines` -/

/-- Go `dropCR`: drop one terminal carriage return. -/
def dropCR (data : Bytes) : Bytes :=
  if data.getLast? = some CR then data.dropLast else data

/-- The token limit set by `scanner.Buffer(buf, 10*1024*1024)`. -/
def maxTokenSize : Nat := 10 * 1024 * 1024

/-- The tokens a `bufio.Scanner` with split function `ScanLines` and token
limit `max` yields on `data`, and whether it stopped on `ErrTooLong`.
`cur` is the part of the current line already buffered. A line is cut at its
line feed and loses one trailing carriage return; a final line without line
feed is a token when it is non-empty; the scanner gives up when `max` bytes
are buffered without a line feed among them. -/
def scanFrom (max : Nat) : Bytes → Bytes → List Bytes × Bool
  | cur, [] => (if cur = [] then [] else [dropCR cur], false)
  | cur, c :: cs =>
    if c = LF then
      let r := scanFrom max [] cs
      (dropCR cur :: r.1, r.2)
    else if max ≤ cur.length + 1 then ([], true)
    else scanFrom max (cur ++ [c]) cs

/-- The lines `scanner.Scan()`/`scanner.Text()` deliver for a file holding
`data`, and whether `scanner.Err()` is non-nil afterwards. A read error after
`n` bytes (`readFail = some n`) lets the scanner deliver what is buffered and
then report the error. -/
def scanLines (max : Nat) (readFail : Option Nat) (data : Bytes) : List Bytes × Bool :=
  match readFail with
  | none => scanFrom max [] data
  | some n => ((scanFrom max [] (data.take n)).1, true)

/-! ## The file system -/

/-- A path, as the Go string handed to the `os` calls. -/
abbrev Path := Bytes

/-- A regular file: its bytes and its permission bits. -/
structure File where
  data : Bytes
  mode : Nat
deriving DecidableEq, Repr

/-- The regular files of the tree, by path; `none` where no file exists.
Symbolic links are added to such a tree by `LinkState` below. -/
abbrev FS := Path → Option File

/-- The file at `p` becomes `f`. -/
def FS.set (fs : FS) (p : Path) (f : File) : FS :=
  fun q => if q = p then some f else fs q

/-- No file at `p` any more (`os.Remove` that succeeds, or the source side of
a rename). -/
def FS.del (fs : FS) (p : Path) : FS :=
  fun q => if q = p then none else fs q

/-- Successful `os.Create(p)`: an existing file is truncated and keeps its
mode, a new one is created empty with `createMode` (0666 less the umask). -/
def osCreate (createMode : Nat) (fs : FS) (p : Path) : FS :=
  match fs p with
  | some f => fs.set p { data := [], mode := f.mode }
  | none => fs.set p { data := [], mode := createMode }

/-- The mode of `p` once `os.Create(p)` has succeeded. -/
def createdMode (createMode : Nat) (fs : FS) (p : Path) : Nat :=
  match fs p with
  | some f => f.mode
  | none => createMode

/-- The bytes written through an open handle on `p` replace its content. -/
def osWrite (fs : FS) (p : Path) (data : Bytes) : FS :=
  match fs p with
  | some f => fs.set p { data := data, mode := f.mode }
  | none => fs

/-- Successful `os.Chmod(p, mode)`. -/
def osChmod (fs : FS) (p : Path) (mode : Nat) : FS :=
  match fs p with
  | some f => fs.set p { data := f.data, mode := mode }
  | none => fs

/-- Successful `os.Rename(old, new)`: atomically, `new` names the file that
`old` named and `old` names nothing. -/
def osRename (fs : FS) (old new : Path) : FS :=
  match fs old with
  | some f => (fs.del old).set new f
  | none => fs

/-- The call `os.Remove(p)` whose error the code ignores: when it fails the
tree is as before. -/
def osRemove (fail : Bool) (fs : FS) (p : Path) : FS :=
  if fail then fs else fs.del p

/-! ## Faults: the outcome of every fallible call -/

/-- What goes wrong in one of `copyFile`, `decompressGzipFile`,
`compressGzipFile`: each flag makes the corresponding call return an error.
`copyFail = some b` makes `io.Copy` fail, leaving the bytes `b` in the
destination. -/
structure StageFaults where
  openFail : Bool
  createFail : Bool
  copyFail : Option Bytes
  statFail : Bool
  chmodFail : Bool
deriving DecidableEq, Repr

/-- What goes wrong inside `processFile`. `tempRnd` is the random suffix
`os.CreateTemp` appends to the pattern; `readFail = some n` is a read error
after `n` bytes of the source; `writeFail = some i` makes the `i`-th
`WriteString` call (counted from 0) return an error; `residue` is what the
temporary file holds when the function gives up before its flush is done. -/
structure ProcFaults where
  openFail : Bool
  createTempFail : Bool
  tempRnd : Bytes
  readFail : Option Nat
  writeFail : Option Nat
  residue : Bytes
  flushFail : Bool
  closeFail : Bool
  statFail : Bool
  chmodFail : Bool
  renameFail : Bool
  removeFail : Bool
deriving DecidableEq, Repr

/-- Everything that can go wrong while one candidate is processed.
`gzCloseFail = some b`: the deferred `gzipWriter.Close()` of
`compressGzipFile` fails (its error is dropped) and the destination holds
`b` instead of the whole stream. -/
structure Faults where
  copy : StageFaults
  decompress : StageFaults
  proc : ProcFaults
  compress : StageFaults
  gzCloseFail : Option Bytes
  renameFail : Bool
  removeGzFail : Bool
  removeXmlFail : Bool
deriving DecidableEq, Repr

/-- No call fails. -/
def StageFaults.none : StageFaults :=
  { openFail := false, createFail := false, copyFail := Option.none,
    statFail := false, chmodFail := false }

/-- No call of `processFile` fails; `rnd` is the suffix of the temporary. -/
def ProcFaults.none (rnd : Bytes) : ProcFaults :=
  { openFail := false, createTempFail := false, tempRnd := rnd,
    readFail := Option.none, writeFail := Option.none, residue := [],
    flushFail := false, closeFail := false, statFail := false,
    chmodFail := false, renameFail := false, removeFail := false }

/-- No call fails while the candidate is processed. -/
def Faults.none (rnd : Bytes) : Faults :=
  { copy := StageFaults.none, decompress := StageFaults.none,
    proc := ProcFaults.none rnd, compress := StageFaults.none,
    gzCloseFail := Option.none, renameFail := false,
    removeGzFail := false, removeXmlFail := false }

/-! ## The gzip codec (`compress/gzip`, a parameter of the model) -/

/-- What reading a gzip stream gives: `badHeader` when `gzip.NewReader`
rejects it, `corrupt b` when the stream breaks after delivering `b`, `ok b`
for a whole payload `b`. -/
inductive Gunzip where
  | badHeader
  | corrupt (delivered : Bytes)
  | ok (payload : Bytes)
deriving DecidableEq, Repr

/-- The gzip encoder and decoder. -/
structure Codec where
  compress : Bytes → Bytes
  decompress : Bytes → Gunzip

/-! ## Run counters and configuration -/

/-- The package-level counters of `migrate.go`. -/
structure Counters where
  totalFiles : Nat
  filesWithMatches : Nat
  filesWithoutMatches : Nat
  filesModified : Nat
  linesModified : Nat
deriving DecidableEq, Repr

/-- The flags of one invocation, with the codec and the creation mode. -/
structure Config where
  dryRun : Bool
  replaceVal : Bytes
  withVal : Bytes
  codec : Codec
  createMode : Nat

/-- The tree and the counters. -/
structure State where
  fs : FS
  cnt : Counters

/-! ## The codec stages -/

/-- Go `copyFile(src, dst)`; the Boolean is `err == nil`. The callers pass
distinct `src` and `dst`. -/
def copyFile (ft : StageFaults) (createMode : Nat) (fs : FS) (src dst : Path) : FS × Bool :=
  match fs src with
  | none => (fs, false)
  | some sf =>
    if ft.openFail then (fs, false)
    else if ft.createFail then (fs, false)
    else
      let fs1 := osCreate createMode fs dst
      match ft.copyFail with
      | some b => (osWrite fs1 dst b, false)
      | none =>
        let fs2 := osWrite fs1 dst sf.data
        if ft.statFail then (fs2, true)
        else if ft.chmodFail then (fs2, false)
        else (osChmod fs2 dst sf.mode, true)

/-- Go `decompressGzipFile(src, dst)`; the Boolean is `err == nil`. -/
def decompressGzipFile (cd : Codec) (ft : StageFaults) (createMode : Nat) (fs : FS)
    (src dst : Path) : FS × Bool :=
  match fs src with
  | none => (fs, false)
  | some sf =>
    if ft.openFail then (fs, false)
    else match cd.decompress sf.data with
      | .badHeader => (fs, false)
      | .corrupt delivered =>
        if ft.createFail then (fs, false)
        else
          let fs1 := osCreate createMode fs dst
          match ft.copyFail with
          | some b => (osWrite fs1 dst b, false)
          | none => (osWrite fs1 dst delivered, false)
      | .ok payload =>
        if ft.createFail then (fs, false)
        else
          let fs1 := osCreate createMode fs dst
          match ft.copyFail with
          | some b => (osWrite fs1 dst b, false)
          | none =>
            let fs2 := osWrite fs1 dst payload
            if ft.statFail then (fs2, true)
            else if ft.chmodFail then (fs2, false)
            else (osChmod fs2 dst sf.mode, true)

/-- What the destination of `compressGzipFile` holds once the deferred
`gzipWriter.Close()` has run: the whole stream, or `b` when the close failed. -/
def gzOutput (cd : Codec) (gzCloseFail : Option Bytes) (data : Bytes) : Bytes :=
  match gzCloseFail with
  | some b => b
  | none => cd.compress data

/-- Go `compressGzipFile(src, dst)`; the Boolean is `err == nil`. The stream
is complete only once the deferred `gzipWriter.Close()` has run; its error
is not looked at. -/
def compressGzipFile (cd : Codec) (ft : StageFaults) (gzCloseFail : Option Bytes)
    (createMode : Nat) (fs : FS) (src dst : Path) : FS × Bool :=
  match fs src with
  | none => (fs, false)
  | some sf =>
    if ft.openFail then (fs, false)
    else if ft.createFail then (fs, false)
    else
      let fs1 := osCreate createMode fs dst
      match ft.copyFail with
      | some b => (osWrite fs1 dst b, false)
      | none =>
        let fs2 := osWrite fs1 dst (gzOutput cd gzCloseFail sf.data)
        if ft.statFail then (fs2, true)
        else if ft.chmodFail then (fs2, false)
        else (osChmod fs2 dst sf.mode, true)

/-! ## `processFile` -/

/-- The variables of the scanning loop of `processFile`: the bytes handed to
the buffered writer, the number of `WriteString` calls made, `foundMatches`,
and the package counter `linesModified`. -/
structure Loop where
  out : Bytes
  writes : Nat
  found : Bool
  lines : Nat
deriving DecidableEq, Repr

/-- The loop `for scanner.Scan() { ... }` of `processFile` over the lines the
scanner delivers; the Boolean is false when a `WriteString` failed and the
function returned from inside the loop. -/
def processLines (dryRun : Bool) (replaceVal withVal : Bytes) (writeFail : Option Nat) :
    List Bytes → Loop → Loop × Bool
  | [], st => (st, true)
  | line :: rest, st =>
    if Contains line replaceVal then
      if !dryRun then
        if writeFail = some st.writes then ({ st with found := true }, false)
        else
          processLines dryRun replaceVal withVal writeFail rest
            { out := st.out ++ (ReplaceAll line replaceVal withVal ++ [LF]),
              writes := st.writes + 1, found := true, lines := st.lines + 1 }
      else processLines dryRun replaceVal withVal writeFail rest { st with found := true }
    else
      if !dryRun then
        if writeFail = some st.writes then (st, false)
        else
          processLines dryRun replaceVal withVal writeFail rest
            { st with out := st.out ++ (line ++ [LF]), writes := st.writes + 1 }
      else processLines dryRun replaceVal withVal writeFail rest st

/-- The counter update that ends `processFile`. -/
def countFile (found : Bool) (c : Counters) : Counters :=
  if found then { c with filesWithMatches := c.filesWithMatches + 1 }
  else { c with filesWithoutMatches := c.filesWithoutMatches + 1 }

/-- The pattern handed to `os.CreateTemp` after the base name. -/
def tmpInfix : Bytes := ascii ".tmp-"

/-- The name `os.CreateTemp(filepath.Dir(src), filepath.Base(src)+".tmp-")`
gives its file: `src`, the infix and the random suffix. This is the name for
a clean `src`, as `WalkDir` builds them, whose base name holds no `*`;
`os.CreateTemp` puts the suffix in the place of the last `*` of a pattern
that holds one. -/
def tempFileNameOf (src rnd : Bytes) : Path := src ++ tmpInfix ++ rnd

/-- Go `processFile(src, replaceVal, withVal)` with the package variable
`dryRun` as a parameter. The result is `none` for a non-nil error and
`some foundMatches` otherwise. `os.CreateTemp` fails when the name it tries
exists. -/
def processFile (dryRun : Bool) (ft : ProcFaults) (st : State)
    (src replaceVal withVal : Bytes) : State × Option Bool :=
  match st.fs src with
  | none => (st, none)
  | some sf =>
    if ft.openFail then (st, none)
    else
      let tempFileName := tempFileNameOf src ft.tempRnd
      if !dryRun && (ft.createTempFail || (st.fs tempFileName).isSome) then (st, none)
      else
        let fs1 := if dryRun then st.fs else st.fs.set tempFileName { data := [], mode := 0o600 }
        let scanned := scanLines maxTokenSize ft.readFail sf.data
        let lp := processLines dryRun replaceVal withVal ft.writeFail scanned.1
          { out := [], writes := 0, found := false, lines := st.cnt.linesModified }
        let cnt1 := { st.cnt with linesModified := lp.1.lines }
        -- the deferred `os.Remove(tempFileName)` of every return without rename
        let abandon (fs : FS) : FS :=
          if dryRun then st.fs else osRemove ft.removeFail fs tempFileName
        if !lp.2 then ({ fs := abandon (osWrite fs1 tempFileName ft.residue), cnt := cnt1 }, none)
        else if scanned.2 then
          ({ fs := abandon (osWrite fs1 tempFileName ft.residue), cnt := cnt1 }, none)
        else if dryRun then ({ fs := fs1, cnt := countFile lp.1.found cnt1 }, some lp.1.found)
        else if ft.flushFail then
          ({ fs := abandon (osWrite fs1 tempFileName ft.residue), cnt := cnt1 }, none)
        else
          let fs2 := osWrite fs1 tempFileName lp.1.out
          if ft.closeFail then ({ fs := abandon fs2, cnt := cnt1 }, none)
          else if !ft.statFail && ft.chmodFail then ({ fs := abandon fs2, cnt := cnt1 }, none)
          else
            let fs3 := if ft.statFail then fs2 else osChmod fs2 tempFileName sf.mode
            if lp.1.found then
              if ft.renameFail then ({ fs := abandon fs3, cnt := cnt1 }, none)
              else
                ({ fs := osRename fs3 tempFileName src, cnt := countFile true cnt1 }, some true)
            else ({ fs := abandon fs3, cnt := countFile false cnt1 }, some false)

/-! ## `migrateRun` -/

/-- The byte `/`, the path separator. -/
def pathSeparator : Nat := 47

/-- The byte `.`. -/
def dot : Nat := 46

/-- The loop of Go `filepath.Ext` from the end of the path (`rev` is the path
reversed, `acc` what has been passed): the suffix from the last dot of the
last path element, empty when that element has no dot. -/
def extScan : Bytes → Bytes → Bytes
  | [], _ => []
  | c :: rev, acc =>
    if c = pathSeparator then []
    else if c = dot then c :: acc
    else extScan rev (c :: acc)

/-- Go `filepath.Ext(path)`. -/
def Ext (path : Bytes) : Bytes := extScan path.reverse []

/-- Go `strings.EqualFold(s, t)`: the byte loop for ASCII, in which two
bytes agree when equal or when they are the two cases of a letter; as soon as
a byte of either string is not ASCII the rest is compared by `unicodeFold`,
the rune loop over the tables of package `unicode`, a parameter here. -/
def EqualFold (unicodeFold : Bytes → Bytes → Bool) : Bytes → Bytes → Bool
  | [], [] => true
  | [], _ :: _ => false
  | _ :: _, [] => false
  | sr :: s, tr :: t =>
    if 0x80 ≤ sr ∨ 0x80 ≤ tr then unicodeFold (sr :: s) (tr :: t)
    else if tr = sr then EqualFold unicodeFold s t
    else if 65 ≤ min sr tr ∧ min sr tr ≤ 90 ∧ max sr tr = min sr tr + 32 then
      EqualFold unicodeFold s t
    else false

/-- The constant `fileExtension := ".als"`. -/
def fileExtension : Bytes := ascii ".als"

/-- The test of the walk callbacks on a non-directory:
`strings.EqualFold(filepath.Ext(d.Name()), fileExtension)`; the extension of
a path is that of its last element. -/
def isProjectFile (unicodeFold : Bytes → Bytes → Bool) (path : Path) : Bool :=
  EqualFold unicodeFold (Ext path) fileExtension

/-- The suffix of the compressed temporary. -/
def tmpGzSuffix : Bytes := ascii ".tmp.gz"

/-- The suffix of the decompressed temporary. -/
def tmpXmlSuffix : Bytes := ascii ".tmp.xml"

/-- The path `tempGz := path + ".tmp.gz"`. -/
def tempGzOf (path : Path) : Path := path ++ tmpGzSuffix

/-- The path `tempXml := path + ".tmp.xml"`. -/
def tempXmlOf (path : Path) : Path := path ++ tmpXmlSuffix

/-- How the callback of the second `WalkDir` left a candidate. -/
inductive Outcome where
  | copyError
  | decompressError
  | processError
  | unchanged (hadMatches : Bool)
  | compressError
  | renameError
  | updated
deriving DecidableEq, Repr

/-- The callback body for one candidate, up to its `return`, without the
deferred removals. -/
def migrateBody (cfg : Config) (ft : Faults) (st : State) (path : Path) : State × Outcome :=
  let tempGz := tempGzOf path
  let tempXml := tempXmlOf path
  match copyFile ft.copy cfg.createMode st.fs path tempGz with
  | (fs1, false) => ({ fs := fs1, cnt := st.cnt }, .copyError)
  | (fs1, true) =>
    match decompressGzipFile cfg.codec ft.decompress cfg.createMode fs1 tempGz tempXml with
    | (fs2, false) => ({ fs := fs2, cnt := st.cnt }, .decompressError)
    | (fs2, true) =>
      match processFile cfg.dryRun ft.proc { fs := fs2, cnt := st.cnt } tempXml
          cfg.replaceVal cfg.withVal with
      | (st3, none) => (st3, .processError)
      | (st3, some hadMatches) =>
        if !cfg.dryRun && hadMatches then
          match compressGzipFile cfg.codec ft.compress ft.gzCloseFail cfg.createMode
              st3.fs tempXml tempGz with
          | (fs4, false) => ({ fs := fs4, cnt := st3.cnt }, .compressError)
          | (fs4, true) =>
            if ft.renameFail then ({ fs := fs4, cnt := st3.cnt }, .renameError)
            else
              ({ fs := osRename fs4 tempGz path,
                 cnt := { st3.cnt with filesModified := st3.cnt.filesModified + 1 } }, .updated)
        else (st3, .unchanged hadMatches)

/-- The callback of the second `WalkDir` for one candidate `path`: the body,
then the deferred `os.Remove(tempGz)` and `os.Remove(tempXml)`. -/
def migrateFile (cfg : Config) (ft : Faults) (st : State) (path : Path) : State × Outcome :=
  let r := migrateBody cfg ft st path
  ({ fs := osRemove ft.removeXmlFail (osRemove ft.removeGzFail r.1.fs (tempGzOf path))
            (tempXmlOf path),
     cnt := r.1.cnt }, r.2)

/-- The second `WalkDir` over the candidates it visits, in order, each with
the faults met while it is processed. -/
def migrateAll (cfg : Config) : List (Path × Faults) → State → State
  | [], st => st
  | (path, ft) :: rest, st => migrateAll cfg rest (migrateFile cfg ft st path).1

/-- The counters as `migrateRun` resets them, with `totalFiles` from the
first walk. -/
def Counters.reset (totalFiles : Nat) : Counters :=
  { totalFiles := totalFiles, filesWithMatches := 0, filesWithoutMatches := 0,
    filesModified := 0, linesModified := 0 }

/-- Go `migrateRun` on a tree `fs` in which the walk finds `cands`. -/
def migrateRun (cfg : Config) (cands : List (Path × Faults)) (fs : FS) : State :=
  migrateAll cfg cands { fs := fs, cnt := Counters.reset cands.length }

/-! ## Symbolic links among the candidates

`filepath.WalkDir` does not follow symbolic links and the test of the walk
asks only `!d.IsDir()`, so a symbolic link whose name has the extension
`.als` is a candidate. Of the calls the callback makes on the candidate
path, `os.Open` and `os.Stat` (inside `copyFile`) follow the link and
`os.Rename` puts the new file in the place of the link; every other call is
made on a temporary that the run creates itself, a regular file. -/

/-- A tree with symbolic links, and the counters: `links p = some t` says
that `p` is a symbolic link to the path `t`, and under every other path `fs`
tells what is there. The target of a link is given as the path it names from
the directory of the run. -/
structure LinkState where
  fs : FS
  links : Path → Option Path
  cnt : Counters

/-- The number of symbolic links that one path resolution follows before it
gives up (`ELOOP`). -/
def maxSymlinks : Nat := 40

/-- The path reached from `p` by following symbolic links, at most `n` of
them; `none` when a link is still met after that. -/
def followLinks (links : Path → Option Path) : Nat → Path → Option Path
  | 0, p =>
    match links p with
    | none => some p
    | some _ => none
  | n + 1, p =>
    match links p with
    | none => some p
    | some t => followLinks links n t

/-- What `copyFile(path, tempGz)` gets to read and to stat under `path`: the
file that the links lead to. When they lead to `tempGz` itself, that file
has been emptied by `os.Create(tempGz)` before `io.Copy` reads it. -/
def LinkState.opened (st : LinkState) (path : Path) : Option File :=
  match followLinks st.links maxSymlinks path with
  | none => none
  | some q =>
    match st.fs q with
    | none => none
    | some f =>
      if q = tempGzOf path then some { data := [], mode := f.mode } else some f

/-- The regular files as the callback for `path` meets them: under `path`
what `os.Open` finds there, under every other path what is there. -/
def LinkState.seen (st : LinkState) (path : Path) : FS :=
  fun q => if q = path then st.opened path else st.fs q

/-- The callback of the second `WalkDir` for a candidate `path` of a tree
with symbolic links. It is `migrateFile`, reading through a link under
`path`; the final `os.Rename`, when it is reached, replaces the link by the
new file, and otherwise what is under `path` stays. -/
def Links.migrateFile (cfg : Config) (ft : Faults) (st : LinkState) (path : Path) :
    LinkState × Outcome :=
  let r := AbletonCLI.migrateFile cfg ft { fs := st.seen path, cnt := st.cnt } path
  if r.2 = .updated then
    ({ fs := r.1.fs, links := fun q => if q = path then none else st.links q,
       cnt := r.1.cnt }, r.2)
  else
    ({ fs := fun q => if q = path then st.fs path else r.1.fs q, links := st.links,
       cnt := r.1.cnt }, r.2)

/-- The second `WalkDir` over the candidates of a tree with symbolic links. -/
def Links.migrateAll (cfg : Config) : List (Path × Faults) → LinkState → LinkState
  | [], st => st
  | (path, ft) :: rest, st => Links.migrateAll cfg rest (Links.migrateFile cfg ft st path).1

/-- Go `migrateRun` on a tree with the regular files `fs` and the symbolic
links `links`, in which the walk finds `cands`. -/
def Links.migrateRun (cfg : Config) (cands : List (Path × Faults)) (fs : FS)
    (links : Path → Option Path) : LinkState :=
  Links.migrateAll cfg cands { fs := fs, links := links, cnt := Counters.reset cands.length }

/-! ## `cleanUpTempFiles` -/

mutual
/-- A directory entry: a non-directory (with whether `os.Remove` on it
succeeds) or a directory (with whether it can be listed). -/
inductive Node where
  | file (name : Bytes) (content : File) (removable : Bool)
  | dir (name : Bytes) (readable : Bool) (entries : Forest)
/-- The entries of a directory. -/
inductive Forest where
  | nil
  | cons (n : Node) (rest : Forest)
end

/-- The entries `rest` with, in front, what is left of an entry. -/
def Forest.consOpt (n : Option Node) (rest : Forest) : Forest :=
  match n with
  | some n1 => .cons n1 rest
  | none => rest

/-- The suffixes in `patterns := []string{".tmp.gz", ".tmp.xml"}`. -/
def patterns : List Bytes := [tmpGzSuffix, tmpXmlSuffix]

/-- Does the callback of `cleanUpTempFiles` call `os.Remove` on a
non-directory of this name: the loop over `patterns` with its early return,
then the test for `".tmp-"`. -/
def removalAttempted (name : Bytes) : Bool :=
  if patterns.any (fun suf => HasSuffix name suf) then true
  else Contains name tmpInfix

mutual
/-- The walk of `cleanUpTempFiles` below and including one entry; `found` is
the variable `foundAny`. The result is what is left of the entry. -/
def sweepNode : Node → Bool → Option Node × Bool
  | .file name content removable, found =>
    if removalAttempted name then
      (if removable then none else some (.file name content removable), true)
    else (some (.file name content removable), found)
  | .dir name readable entries, found =>
    if readable then
      let r := sweepForest entries found
      (some (.dir name readable r.1), r.2)
    else (some (.dir name readable entries), found)
/-- The walk over the entries of a directory. -/
def sweepForest : Forest → Bool → Forest × Bool
  | .nil, found => (.nil, found)
  | .cons n rest, found =>
    let r1 := sweepNode n found
    let r2 := sweepForest rest r1.2
    (Forest.consOpt r1.1 r2.1, r2.2)
end

/-- Go `cleanUpTempFiles(baseDir)` on the tree rooted at `baseDir`: what is
left of it, and `foundAny`. -/
def cleanUpTempFiles (baseDir : Node) : Option Node × Bool := sweepNode baseDir false

/-! ## Auxiliary definitions used in statements -/

/-- What `processFile` writes for one line. -/
def lineOut (replaceVal withVal line : Bytes) : Bytes :=
  (if Contains line replaceVal then ReplaceAll line replaceVal withVal else line) ++ [LF]

/-- The lines `processFile` gets from its scanner, with the error flag. -/
def procScan (ft : ProcFaults) (sf : File) : List Bytes × Bool :=
  scanLines maxTokenSize ft.readFail sf.data

/-- The loop of `processFile` on the scanned lines, from its initial state. -/
def procLoop (dry : Bool) (ft : ProcFaults) (st : State) (sf : File) (s r : Bytes) :
    Loop × Bool :=
  processLines dry s r ft.writeFail (procScan ft sf).1
    { out := [], writes := 0, found := false, lines := st.cnt.linesModified }

/-- The counters after the loop. -/
def procCnt (dry : Bool) (ft : ProcFaults) (st : State) (sf : File) (s r : Bytes) : Counters :=
  { st.cnt with linesModified := (procLoop dry ft st sf s r).1.lines }

/-- The tree after `copyFile(path, tempGz)`, and whether it succeeded. -/
def afterCopy (cfg : Config) (ft : Faults) (st : State) (path : Path) : FS × Bool :=
  copyFile ft.copy cfg.createMode st.fs path (tempGzOf path)

/-- The tree after `decompressGzipFile(tempGz, tempXml)`, and whether it
succeeded. -/
def afterDecompress (cfg : Config) (ft : Faults) (st : State) (path : Path) : FS × Bool :=
  decompressGzipFile cfg.codec ft.decompress cfg.createMode (afterCopy cfg ft st path).1
    (tempGzOf path) (tempXmlOf path)

/-- The state after `processFile(tempXml, replaceVal, withVal)`, and its
result. -/
def afterProcess (cfg : Config) (ft : Faults) (st : State) (path : Path) :
    State × Option Bool :=
  processFile cfg.dryRun ft.proc { fs := (afterDecompress cfg ft st path).1, cnt := st.cnt }
    (tempXmlOf path) cfg.replaceVal cfg.withVal

/-- The tree after `compressGzipFile(tempXml, tempGz)`, and whether it
succeeded. -/
def afterCompress (cfg : Config) (ft : Faults) (st : State) (path : Path) : FS × Bool :=
  compressGzipFile cfg.codec ft.compress ft.gzCloseFail cfg.createMode
    (afterProcess cfg ft st path).1.fs (tempXmlOf path) (tempGzOf path)

/-- The counters a candidate adds to, by outcome: `none` when the file is not
counted, `some m` when it is counted as a match (`m`) or not. -/
def counted : Outcome → Option Bool
  | .copyError => none
  | .decompressError => none
  | .processError => none
  | .unchanged m => some m
  | .compressError => some true
  | .renameError => some true
  | .updated => some true

/-- The calls that `processFile` makes in normal mode only all succeed:
creating the temporary, every `WriteString`, the flush, the close, the chmod
and the rename. -/
def ProcFaults.writeQuiet (ft : ProcFaults) : Prop :=
  ft.createTempFail = false ∧ ft.writeFail = Option.none ∧ ft.flushFail = false ∧
    ft.closeFail = false ∧ ft.chmodFail = false ∧ ft.renameFail = false

instance (ft : ProcFaults) : Decidable ft.writeQuiet := by
  unfold ProcFaults.writeQuiet
  infer_instance

/-- The configuration with the flag `--dry-run` set to `b`. -/
def Config.dry (cfg : Config) (b : Bool) : Config := { cfg with dryRun := b }

/-- The name of the temporary that `processFile` creates for a candidate. -/
def procTempOf (c : Path × Faults) : Path :=
  tempFileNameOf (tempXmlOf c.1) c.2.proc.tempRnd

/-- The candidates of a run do not collide: their paths are distinct, none
is a temporary of a candidate, and the temporary that `processFile` creates
for one is not a temporary of another. -/
def Separated (cands : List (Path × Faults)) : Prop :=
  (cands.map Prod.fst).Nodup ∧
  (∀ c ∈ cands, ∀ d ∈ cands,
    d.1 ≠ tempGzOf c.1 ∧ d.1 ≠ tempXmlOf c.1 ∧ d.1 ≠ procTempOf c) ∧
  (∀ c ∈ cands, ∀ d ∈ cands, c.1 ≠ d.1 →
    procTempOf d ≠ tempGzOf c.1 ∧ procTempOf d ≠ tempXmlOf c.1 ∧ procTempOf d ≠ procTempOf c)

/-- No symbolic link in the tree. -/
def noLinks : Path → Option Path := fun _ => none

/-- The paths looked at while the symbolic links from `p` are followed: `p`
itself, then the targets in turn. -/
def linkPath (links : Path → Option Path) : Nat → Path → List Path
  | 0, p => [p]
  | n + 1, p =>
    match links p with
    | none => [p]
    | some t => p :: linkPath links n t

/-- No candidate is a symbolic link that leads, directly or through further
links, to a candidate visited before it or to a temporary of one: for `d`
before `c` in the order of the walk, none of the paths looked at from `c` is
`d` or one of the three temporaries of `d`. -/
def LinksApart (links : Path → Option Path) (cands : List (Path × Faults)) : Prop :=
  cands.Pairwise (fun d c => ∀ q ∈ linkPath links maxSymlinks c.1,
    q ≠ d.1 ∧ q ≠ tempGzOf d.1 ∧ q ≠ tempXmlOf d.1 ∧ q ≠ procTempOf d)

/-- The search text `s` and the replacement `r` do not overlap: neither
occurs in the other, no non-empty suffix of `r` is a prefix of `s`, and no
non-empty prefix of `r` is a suffix of `s`. -/
def overlapFree (s r : Bytes) : Bool :=
  !Contains r s && !Contains s r &&
    r.tails.all (fun u => u.isEmpty || !HasPrefix s u) &&
    r.inits.all (fun v => v.isEmpty || !HasSuffix s v)

/-- A line as it stands in a file: its text, and whether a carriage return
stands between the text and the line feed (or the end of the file). -/
structure RawLine where
  text : Bytes
  crlf : Bool
deriving DecidableEq, Repr

/-- The bytes of a line, without its line feed. -/
def RawLine.bytes (l : RawLine) : Bytes := l.text ++ (if l.crlf then [CR] else [])

/-- A line the scanner can deliver: no line feed inside, the text does not
itself end in the carriage return that the flag accounts for, and the bytes
stay below the token limit. -/
def RawLine.wf (max : Nat) (l : RawLine) : Prop :=
  LF ∉ l.text ∧ (l.crlf = false → l.text.getLast? ≠ some CR) ∧ l.bytes.length < max

instance (max : Nat) (l : RawLine) : Decidable (l.wf max) := by
  unfold RawLine.wf
  infer_instance

/-- A file made of terminated lines and, possibly, a last line without line
feed. -/
def fileBytes (ls : List RawLine) (last : Option RawLine) : Bytes :=
  ls.flatMap (fun l => l.bytes ++ [LF]) ++ (match last with
    | some l => l.bytes
    | none => [])

/-- The texts of the lines of a file, in order. -/
def fileTexts (ls : List RawLine) (last : Option RawLine) : List Bytes :=
  ls.map RawLine.text ++ (match last with
    | some l => [l.text]
    | none => [])

/-- A temporary name, in the words of the comment on `cleanUpTempFiles`:
the name ends with `.tmp.gz`, ends with `.tmp.xml`, or contains `.tmp-`. -/
def isTempName (name : Bytes) : Bool :=
  HasSuffix name tmpGzSuffix || HasSuffix name tmpXmlSuffix || Contains name tmpInfix

mutual
/-- The entry without the non-directories below it (or itself) that bear a
temporary name. -/
def pruneNode : Node → Option Node
  | .file name content removable =>
    if isTempName name then none else some (.file name content removable)
  | .dir name readable entries => some (.dir name readable (pruneForest entries))
/-- The entries without the non-directories that bear a temporary name. -/
def pruneForest : Forest → Forest
  | .nil => .nil
  | .cons n rest => Forest.consOpt (pruneNode n) (pruneForest rest)
end

mutual
/-- Every `os.Remove` at or below the entry succeeds. -/
def Node.removalsSucceed : Node → Bool
  | .file _ _ removable => removable
  | .dir _ _ entries => entries.removalsSucceed
/-- Every `os.Remove` at or below the entries succeeds. -/
def Forest.removalsSucceed : Forest → Bool
  | .nil => true
  | .cons n rest => n.removalsSucceed && rest.removalsSucceed
end

mutual
/-- Every directory below can be listed and every removal succeeds. -/
def Node.cooperative : Node → Bool
  | .file _ _ removable => removable
  | .dir _ readable entries => readable && entries.cooperative
/-- Every entry is cooperative. -/
def Forest.cooperative : Forest → Bool
  | .nil => true
  | .cons n rest => n.cooperative && rest.cooperative
end

/-- An entry of a tree as a walk meets it: the names from the root down to
it, and its content (`none` for a directory). -/
abbrev Entry := List Bytes × Option File

mutual
/-- The entries at and below a node that lies in the directory `dir`. -/
def Node.listing (dir : List Bytes) : Node → List Entry
  | .file name content _ => [(dir ++ [name], some content)]
  | .dir name _ entries => (dir ++ [name], none) :: entries.listing (dir ++ [name])
/-- The entries at and below the nodes of a directory `dir`. -/
def Forest.listing (dir : List Bytes) : Forest → List Entry
  | .nil => []
  | .cons n rest => n.listing dir ++ rest.listing dir
end

/-- The entries of what is left of a node. -/
def listingOf (dir : List Bytes) : Option Node → List Entry
  | some n => n.listing dir
  | none => []

/-- An entry that `cleanUpTempFiles` is to keep: a directory, or a
non-directory whose name is not a temporary name. -/
def Entry.kept (e : Entry) : Bool :=
  e.2.isNone || !isTempName (e.1.getLast?.getD [])

/-! ## Fixtures for the examples -/

/-- A toy codec: a two-byte header in front of the payload. -/
def demoCodec : Codec :=
  { compress := fun b => 31 :: 139 :: b,
    decompress := fun b =>
      match b with
      | 31 :: 139 :: rest => .ok rest
      | _ => .badHeader }

/-- A configuration over the toy codec, new files created with mode 0644. -/
def demoConfig (dry : Bool) (s r : Bytes) : Config :=
  { dryRun := dry, replaceVal := s, withVal := r, codec := demoCodec, createMode := 0o644 }

/-- A tree holding one file. -/
def oneFile (path data : Bytes) (mode : Nat) : FS :=
  fun p => if p = path then some { data := data, mode := mode } else none

/-- A tree holding the archive `A.als` with the given payload. -/
def demoTree (payload : Bytes) (mode : Nat) : FS :=
  oneFile (ascii "A.als") (demoCodec.compress payload) mode

/-- A tree holding the archives `A.als` and `B.als`. -/
def twoArchives (payloadA payloadB : Bytes) : FS :=
  fun p =>
    if p = ascii "A.als" then some { data := demoCodec.compress payloadA, mode := 0o600 }
    else if p = ascii "B.als" then some { data := demoCodec.compress payloadB, mode := 0o644 }
    else none

/-- A directory with leftovers of an interrupted run next to project files. -/
def demoDir : Node :=
  .dir (ascii ".") true
    (.cons (.file (ascii "A.als") { data := [1], mode := 0o644 } true)
    (.cons (.file (ascii "A.als.tmp.gz") { data := [2], mode := 0o644 } true)
    (.cons (.dir (ascii "sub") true
      (.cons (.file (ascii "B.als.tmp.xml") { data := [3], mode := 0o644 } true)
      (.cons (.file (ascii "B.als.tmp.xml.tmp-42") { data := [4], mode := 0o600 } true)
      (.cons (.file (ascii "notes.tmp.txt") { data := [5], mode := 0o644 } true) .nil))))
    .nil)))

/-- The three removals made for a candidate succeed. -/
def Faults.removalsWork (ft : Faults) : Prop :=
  ft.removeGzFail = false ∧ ft.removeXmlFail = false ∧ ft.proc.removeFail = false

instance (ft : Faults) : Decidable ft.removalsWork := by
  unfold Faults.removalsWork
  infer_instance

instance (cands : List (Path × Faults)) : Decidable (Separated cands) := by
  unfold Separated
  infer_instance

instance (links : Path → Option Path) (cands : List (Path × Faults)) :
    Decidable (LinksApart links cands) := by
  unfold LinksApart
  infer_instance

/-- The symbolic link `S.als`, with the given target, as the only one. -/
def linkS (target : Path) : Path → Option Path :=
  fun p => if p = ascii "S.als" then some target else none

/-- The candidates `A.als` and `S.als` in the order of the walk, the first
processed with the faults `ft`, the second without any. -/
def linkCandidates (ft : Faults) : List (Path × Faults) :=
  [(ascii "A.als", ft), (ascii "S.als", Faults.none (ascii "22"))]

/-- A tree holding the archive `A.als` and, outside the walked names, the
archive `X.bin`. -/
def archiveAndTarget (payloadA payloadX : Bytes) : FS :=
  fun p =>
    if p = ascii "A.als" then some { data := demoCodec.compress payloadA, mode := 0o644 }
    else if p = ascii "X.bin" then some { data := demoCodec.compress payloadX, mode := 0o644 }
    else none

/-- Two candidates, `A.als` and `B.als`, processed without faults. -/
def twoCandidates : List (Path × Faults) :=
  [(ascii "A.als", Faults.none (ascii "11")), (ascii "B.als", Faults.none (ascii "22"))]

/-! ## Lemmas: paths and the file system primitives -/

theorem tmpGzSuffix_ne_nil : tmpGzSuffix ≠ [] := by decide

theorem tmpXmlSuffix_ne_nil : tmpXmlSuffix ≠ [] := by decide

theorem tmpInfix_ne_nil : tmpInfix ≠ [] := by decide

theorem ne_append_of_ne_nil (p s : Bytes) (h : s ≠ []) : p ≠ p ++ s := by
  intro e
  have := congrArg List.length e
  simp at this
  exact h this

theorem path_ne_tempGz (p : Path) : p ≠ tempGzOf p :=
  ne_append_of_ne_nil p _ tmpGzSuffix_ne_nil

theorem path_ne_tempXml (p : Path) : p ≠ tempXmlOf p :=
  ne_append_of_ne_nil p _ tmpXmlSuffix_ne_nil

theorem tempGz_ne_tempXml (p : Path) : tempGzOf p ≠ tempXmlOf p := by
  intro e
  have h := List.append_cancel_left e
  revert h
  decide

theorem ne_tempFileName (src rnd : Bytes) : src ≠ tempFileNameOf src rnd := by
  unfold tempFileNameOf
  rw [List.append_assoc]
  apply ne_append_of_ne_nil
  simp [tmpInfix_ne_nil]

theorem path_ne_tempFileName (p rnd : Bytes) : p ≠ tempFileNameOf (tempXmlOf p) rnd := by
  unfold tempFileNameOf tempXmlOf
  rw [List.append_assoc, List.append_assoc]
  apply ne_append_of_ne_nil
  simp [tmpXmlSuffix_ne_nil]

theorem tempGz_ne_tempFileName (p rnd : Bytes) :
    tempGzOf p ≠ tempFileNameOf (tempXmlOf p) rnd := by
  unfold tempFileNameOf tempXmlOf tempGzOf
  intro e
  rw [List.append_assoc, List.append_assoc] at e
  have h := List.append_cancel_left e
  have h5 := congrArg (fun l => l.get? 5) h
  revert h5
  simp [tmpGzSuffix, tmpXmlSuffix, tmpInfix, ascii]

@[simp] theorem FS.set_same (fs : FS) (p : Path) (f : File) : fs.set p f p = some f := by
  simp [FS.set]

theorem FS.set_other (fs : FS) (p q : Path) (f : File) (h : q ≠ p) : fs.set p f q = fs q := by
  simp [FS.set, h]

@[simp] theorem FS.del_same (fs : FS) (p : Path) : fs.del p p = none := by
  simp [FS.del]

theorem FS.del_other (fs : FS) (p q : Path) (h : q ≠ p) : fs.del p q = fs q := by
  simp [FS.del, h]

theorem osCreate_other (m : Nat) (fs : FS) (p q : Path) (h : q ≠ p) :
    osCreate m fs p q = fs q := by
  unfold osCreate
  cases hp : fs p <;> simp [FS.set, h]

theorem osCreate_same (m : Nat) (fs : FS) (p : Path) :
    osCreate m fs p p = some { data := [], mode := createdMode m fs p } := by
  unfold osCreate createdMode
  cases hp : fs p <;> simp [FS.set]

theorem osWrite_other (fs : FS) (p q : Path) (d : Bytes) (h : q ≠ p) :
    osWrite fs p d q = fs q := by
  unfold osWrite
  cases hp : fs p <;> simp [FS.set, h]

theorem osWrite_same (fs : FS) (p : Path) (d : Bytes) :
    osWrite fs p d p = (fs p).map (fun f => { data := d, mode := f.mode }) := by
  unfold osWrite
  cases hp : fs p <;> simp [FS.set, hp]

theorem osChmod_other (fs : FS) (p q : Path) (m : Nat) (h : q ≠ p) :
    osChmod fs p m q = fs q := by
  unfold osChmod
  cases hp : fs p <;> simp [FS.set, h]

theorem osChmod_same (fs : FS) (p : Path) (m : Nat) :
    osChmod fs p m p = (fs p).map (fun f => { data := f.data, mode := m }) := by
  unfold osChmod
  cases hp : fs p <;> simp [FS.set, hp]

theorem osRename_other (fs : FS) (a b q : Path) (ha : q ≠ a) (hb : q ≠ b) :
    osRename fs a b q = fs q := by
  unfold osRename
  cases hp : fs a <;> simp [FS.set, FS.del, ha, hb]

theorem osRename_new (fs : FS) (a b : Path) (f : File) (h : fs a = some f) :
    osRename fs a b b = some f := by
  simp [osRename, h]

theorem osRename_old (fs : FS) (a b : Path) (f : File) (h : fs a = some f) (hab : a ≠ b) :
    osRename fs a b a = none := by
  simp [osRename, h, FS.set, FS.del, hab]

theorem osRemove_other (fail : Bool) (fs : FS) (p q : Path) (h : q ≠ p) :
    osRemove fail fs p q = fs q := by
  unfold osRemove
  cases fail <;> simp [FS.del, h]

theorem osRemove_same (fs : FS) (p : Path) : osRemove false fs p p = none := by
  simp [osRemove]

/-- A removal never brings a file into being. -/
theorem osRemove_none (fail : Bool) (fs : FS) (p q : Path) (h : fs q = none) :
    osRemove fail fs p q = none := by
  unfold osRemove FS.del
  cases fail <;> simp [h]

/-! ## Lemmas: byte strings -/

theorem HasPrefix_iff (s pre : Bytes) : HasPrefix s pre = true ↔ pre <+: s := by
  unfold HasPrefix
  exact List.isPrefixOf_iff_prefix

theorem HasSuffix_iff (s suf : Bytes) : HasSuffix s suf = true ↔ suf <:+ s := by
  unfold HasSuffix
  exact List.isSuffixOf_iff_suffix

/-- `strings.Contains` is the infix relation on byte strings. -/
theorem Contains_iff (s substr : Bytes) : Contains s substr = true ↔ substr <:+: s := by
  unfold Contains
  induction s with
  | nil =>
    unfold Index
    by_cases h : substr = []
    · simp [h]
    · simp [h]
  | cons c cs ih =>
    unfold Index
    rw [List.infix_cons_iff]
    by_cases hp : HasPrefix (c :: cs) substr = true
    · simp [hp, (HasPrefix_iff _ _).mp hp]
    · have hp' : ¬ substr <+: c :: cs := fun h => hp ((HasPrefix_iff _ _).mpr h)
      simp only [hp, Bool.false_eq_true, if_false, Option.isSome_map', hp', false_or]
      exact ih

theorem Contains_false_iff (s substr : Bytes) : Contains s substr = false ↔ ¬ substr <:+: s := by
  rw [← Contains_iff]
  cases Contains s substr <;> simp

/-- A prefix of `xs ++ ys` lies in `xs` or goes through all of `xs`. -/
theorem prefix_append_cases {t xs ys : Bytes} (h : t <+: xs ++ ys) :
    t <+: xs ∨ ∃ v, t = xs ++ v ∧ v <+: ys := by
  rcases List.prefix_or_prefix_of_prefix h (List.prefix_append xs ys) with h1 | h1
  · exact Or.inl h1
  · obtain ⟨v, hv⟩ := h1
    refine Or.inr ⟨v, hv.symm, ?_⟩
    rw [← hv] at h
    exact (List.prefix_append_right_inj xs).mp h

/-- An occurrence of `t` in `xs ++ ys` lies in `xs`, lies in `ys`, or
straddles the seam. -/
theorem infix_append_cases {t xs ys : Bytes} (h : t <:+: xs ++ ys) :
    t <:+: xs ∨ t <:+: ys ∨
      ∃ u v, u ≠ [] ∧ v ≠ [] ∧ t = u ++ v ∧ u <:+ xs ∧ v <+: ys := by
  induction xs with
  | nil => exact Or.inr (Or.inl h)
  | cons a xs ih =>
    rw [List.cons_append, List.infix_cons_iff] at h
    rcases h with h | h
    · rw [← List.cons_append] at h
      rcases prefix_append_cases h with h1 | ⟨v, hv, hvy⟩
      · exact Or.inl h1.isInfix
      · by_cases hv0 : v = []
        · left
          rw [hv, hv0, List.append_nil]
        · exact Or.inr (Or.inr ⟨a :: xs, v, by simp, hv0, hv, List.suffix_refl _, hvy⟩)
    · rcases ih h with h1 | h1 | ⟨u, v, hu, hv, e, hs, hp⟩
      · left
        exact List.infix_cons_iff.mpr (Or.inr h1)
      · exact Or.inr (Or.inl h1)
      · exact Or.inr (Or.inr ⟨u, v, hu, hv, e, List.suffix_cons_iff.mpr (Or.inr hs), hp⟩)

/-! ### `strings.ReplaceAll` -/

theorem replaceScan_skip (old new : Bytes) (k : Nat) (l : Bytes) :
    replaceScan old new k l = replaceScan old new 0 (l.drop k) := by
  induction l generalizing k with
  | nil => cases k <;> simp [replaceScan]
  | cons c cs ih =>
    cases k with
    | zero => simp
    | succ k => simp only [replaceScan, List.drop_succ_cons]; exact ih k

theorem replaceScan_zero_cons (old new : Bytes) (c : Nat) (cs : Bytes) :
    replaceScan old new 0 (c :: cs) =
      if HasPrefix (c :: cs) old then new ++ replaceScan old new (old.length - 1) cs
      else c :: replaceScan old new 0 cs := by
  rw [replaceScan]

/-- At an occurrence of `old` the scan emits `new` and goes on behind it. -/
theorem replaceScan_match (old new rest : Bytes) (h : old ≠ []) :
    replaceScan old new 0 (old ++ rest) = new ++ replaceScan old new 0 rest := by
  cases old with
  | nil => exact absurd rfl h
  | cons c cs =>
    have hp : HasPrefix (c :: (cs ++ rest)) (c :: cs) = true :=
      (HasPrefix_iff _ _).mpr ⟨rest, rfl⟩
    rw [List.cons_append, replaceScan_zero_cons, if_pos hp, replaceScan_skip]
    simp

/-- Where `old` does not start, the scan copies one byte. -/
theorem replaceScan_copy (old new : Bytes) (c : Nat) (cs : Bytes)
    (h : ¬ old <+: c :: cs) :
    replaceScan old new 0 (c :: cs) = c :: replaceScan old new 0 cs := by
  have hp : ¬ HasPrefix (c :: cs) old = true := fun e => h ((HasPrefix_iff _ _).mp e)
  rw [replaceScan_zero_cons, if_neg hp]

theorem not_infix_dropLast (old : Bytes) (h : old ≠ []) : ¬ old <:+: old.dropLast := by
  intro hi
  have h1 := hi.length_le
  have h2 : 0 < old.length := List.length_pos.mpr h
  simp at h1
  omega

/-- The scan replaces the leftmost occurrence and goes on behind it: either
`old` does not occur and the string is returned as it is, or the string is
`g ++ old ++ rest` where `old` occurs in `g ++ old` at the end only, and the
result is `g ++ new` followed by the scan of `rest`. -/
theorem replaceScan_decomp (old new : Bytes) (h : old ≠ []) (l : Bytes) :
    (¬ old <:+: l ∧ replaceScan old new 0 l = l) ∨
    ∃ g rest, l = g ++ old ++ rest ∧ ¬ old <:+: g ++ old.dropLast ∧
      replaceScan old new 0 l = g ++ new ++ replaceScan old new 0 rest := by
  induction l with
  | nil =>
    left
    refine ⟨?_, by simp [replaceScan]⟩
    simpa using h
  | cons c cs ih =>
    by_cases hp : old <+: c :: cs
    · right
      obtain ⟨rest, hr⟩ := hp
      refine ⟨[], rest, by simpa using hr.symm, ?_, ?_⟩
      · simpa using not_infix_dropLast old h
      · rw [← hr, replaceScan_match old new rest h]; simp
    · rw [replaceScan_copy old new c cs hp]
      rcases ih with ⟨hn, he⟩ | ⟨g, rest, hl, hg, he⟩
      · left
        refine ⟨?_, by rw [he]⟩
        rw [List.infix_cons_iff]
        exact fun e => e.elim hp hn
      · right
        refine ⟨c :: g, rest, by rw [hl]; simp, ?_, by rw [he]; simp⟩
        rw [List.cons_append, List.infix_cons_iff]
        intro e
        rcases e with e | e
        · apply hp
          have : c :: (g ++ old.dropLast) <+: c :: cs := by
            rw [hl]
            obtain ⟨x, hx⟩ := List.dropLast_prefix old
            refine ⟨x ++ rest, ?_⟩
            simp only [List.cons_append, List.append_assoc, List.cons.injEq, true_and]
            rw [← List.append_assoc old.dropLast, hx]
          exact e.trans this
        · exact hg e

theorem overlapFree_spec (s r : Bytes) (h : overlapFree s r = true) :
    ¬ s <:+: r ∧ ¬ r <:+: s ∧ (∀ u, u ≠ [] → u <:+ r → ¬ u <+: s) ∧
      (∀ v, v ≠ [] → v <+: r → ¬ v <:+ s) := by
  unfold overlapFree at h
  simp only [Bool.and_eq_true, Bool.not_eq_true', List.all_eq_true, Bool.or_eq_true,
    List.isEmpty_iff] at h
  obtain ⟨⟨⟨h1, h2⟩, h3⟩, h4⟩ := h
  refine ⟨(Contains_false_iff _ _).mp h1, (Contains_false_iff _ _).mp h2, ?_, ?_⟩
  · intro u hu hs hp
    rcases h3 u ((List.mem_tails _ _).mpr hs) with e | e
    · exact hu e
    · rw [(HasPrefix_iff _ _).mpr hp] at e; cases e
  · intro v hv hp hs
    rcases h4 v ((List.mem_inits _ _).mpr hp) with e | e
    · exact hv e
    · rw [(HasSuffix_iff _ _).mpr hs] at e; cases e

theorem overlapFree_ne_nil (s r : Bytes) (h : overlapFree s r = true) : s ≠ [] ∧ r ≠ [] := by
  obtain ⟨h1, h2, _, _⟩ := overlapFree_spec s r h
  constructor
  · intro e; apply h1; rw [e]; exact List.nil_infix
  · intro e; apply h2; rw [e]; exact List.nil_infix

/-- When search text and replacement do not overlap, the search text does
not occur in what the scan returns. -/
theorem replaceScan_free (s r : Bytes) (h : overlapFree s r = true) :
    ∀ (n : Nat) (l : Bytes), l.length ≤ n → ¬ s <:+: replaceScan s r 0 l := by
  obtain ⟨h1, h2, h3, h4⟩ := overlapFree_spec s r h
  obtain ⟨hs, hr⟩ := overlapFree_ne_nil s r h
  intro n
  induction n with
  | zero =>
    intro l hl
    have : l = [] := List.length_eq_zero.mp (Nat.le_zero.mp hl)
    subst this
    simpa [replaceScan] using hs
  | succ n ih =>
    intro l hl
    rcases replaceScan_decomp s r hs l with ⟨hn, he⟩ | ⟨g, rest, hl', hg, he⟩
    · rw [he]; exact hn
    · rw [he, List.append_assoc]
      have hlen : rest.length ≤ n := by
        have := congrArg List.length hl'
        have hpos : 0 < s.length := List.length_pos.mpr hs
        simp at this
        omega
      have hrest := ih rest hlen
      have hg' : ¬ s <:+: g := fun e => hg (e.trans (List.infix_append' [] g s.dropLast))
      intro hi
      rcases infix_append_cases hi with e | e | ⟨u, v, hu, hv, e, hsu, hpv⟩
      · exact hg' e
      · rcases infix_append_cases e with e | e | ⟨u, v, hu, hv, e, hsu, hpv⟩
        · exact h1 e
        · exact hrest e
        · exact h3 u hu hsu ⟨v, e.symm⟩
      · rcases prefix_append_cases hpv with hp | ⟨w, hw, _⟩
        · exact h4 v hv hp ⟨u, e.symm⟩
        · apply h2
          rw [e, hw]
          exact ⟨u, w, by simp⟩

/-- When search text and replacement do not overlap, `ReplaceAll` leaves no
occurrence of the search text. -/
theorem ReplaceAll_free (s r : Bytes) (h : overlapFree s r = true) (l : Bytes) :
    Contains (ReplaceAll l s r) s = false := by
  rw [Contains_false_iff]
  obtain ⟨hs, _⟩ := overlapFree_ne_nil s r h
  obtain ⟨h1, _, _, _⟩ := overlapFree_spec s r h
  have hne : s ≠ r := by
    intro e; apply h1; rw [← e]
  unfold ReplaceAll
  rw [if_neg hne, if_neg hs]
  exact replaceScan_free s r h l.length l (Nat.le_refl _)

/-! ### The scanner -/

theorem dropCR_initial (x : Bytes) : dropCR x <+: x := by
  unfold dropCR
  split
  · exact List.dropLast_prefix x
  · exact List.prefix_refl x

theorem dropCR_append_CR (x : Bytes) : dropCR (x ++ [CR]) = x := by
  unfold dropCR
  simp

theorem dropCR_of_ne (x : Bytes) (h : x.getLast? ≠ some CR) : dropCR x = x := by
  unfold dropCR
  rw [if_neg h]

theorem scanFrom_nil (max : Nat) (cur : Bytes) :
    scanFrom max cur [] = (if cur = [] then [] else [dropCR cur], false) := by
  rw [scanFrom]

theorem scanFrom_cons (max : Nat) (cur : Bytes) (c : Nat) (cs : Bytes) :
    scanFrom max cur (c :: cs) =
      if c = LF then (dropCR cur :: (scanFrom max [] cs).1, (scanFrom max [] cs).2)
      else if max ≤ cur.length + 1 then ([], true)
      else scanFrom max (cur ++ [c]) cs := by
  rw [scanFrom]

/-- Every token of the scanner is free of line feeds and occurs in the
input. -/
theorem scanFrom_token (max : Nat) (data cur : Bytes) (hcur : LF ∉ cur) (t : Bytes)
    (ht : t ∈ (scanFrom max cur data).1) : LF ∉ t ∧ t <:+: cur ++ data := by
  induction data generalizing cur with
  | nil =>
    rw [scanFrom_nil] at ht
    by_cases hc : cur = []
    · simp [hc] at ht
    · simp only [hc, if_false, List.mem_singleton] at ht
      rw [ht, List.append_nil]
      exact ⟨fun h => hcur ((dropCR_initial cur).subset h), (dropCR_initial cur).isInfix⟩
  | cons c cs ih =>
    rw [scanFrom_cons] at ht
    by_cases h1 : c = LF
    · rw [if_pos h1] at ht
      rcases List.mem_cons.mp ht with e | e
      · rw [e]
        refine ⟨fun h => hcur ((dropCR_initial cur).subset h), ?_⟩
        exact ((dropCR_initial cur).trans (List.prefix_append _ _)).isInfix
      · obtain ⟨i1, i2⟩ := ih [] (by simp) e
        refine ⟨i1, ?_⟩
        rw [List.nil_append] at i2
        exact i2.trans ⟨cur ++ [c], [], by simp⟩
    · rw [if_neg h1] at ht
      by_cases h2 : max ≤ cur.length + 1
      · rw [if_pos h2] at ht; cases ht
      · rw [if_neg h2] at ht
        have hc' : LF ∉ cur ++ [c] := by
          simp only [List.mem_append, List.mem_singleton, not_or]
          exact ⟨hcur, fun e => h1 e.symm⟩
        obtain ⟨i1, i2⟩ := ih (cur ++ [c]) hc' ht
        refine ⟨i1, ?_⟩
        simpa using i2

/-- Every line the scanner delivers is free of line feeds and occurs in the
file, also after a read error. -/
theorem scanLines_token (max : Nat) (rf : Option Nat) (data t : Bytes)
    (ht : t ∈ (scanLines max rf data).1) : LF ∉ t ∧ t <:+: data := by
  unfold scanLines at ht
  cases rf with
  | none =>
    have := scanFrom_token max data [] (by simp) t ht
    simpa using this
  | some n =>
    obtain ⟨i1, i2⟩ := scanFrom_token max (data.take n) [] (by simp) t ht
    refine ⟨i1, ?_⟩
    rw [List.nil_append] at i2
    exact i2.trans (List.take_prefix n data).isInfix

/-- A string free of line feeds that occurs in a sequence of LF-terminated
pieces is empty or occurs inside one piece. -/
theorem infix_lines {α : Type} (f : α → Bytes) (xs : List α) (t : Bytes) (hLF : LF ∉ t)
    (ht : t <:+: xs.flatMap (fun x => f x ++ [LF])) :
    t = [] ∨ ∃ x ∈ xs, t <:+: f x := by
  induction xs with
  | nil =>
    left
    simpa using ht
  | cons x xs ih =>
    rw [List.flatMap_cons] at ht
    rcases infix_append_cases ht with e | e | ⟨u, v, hu, hv, e, hsu, hpv⟩
    · rcases infix_append_cases e with e1 | e1 | ⟨u, v, hu, hv, e1, hsu, hpv⟩
      · exact Or.inr ⟨x, by simp, e1⟩
      · rw [List.infix_cons_iff] at e1
        rcases e1 with e1 | e1
        · rw [List.prefix_cons_iff] at e1
          rcases e1 with e1 | ⟨t', e1, _⟩
          · exact Or.inl e1
          · exact absurd (by rw [e1]; simp) hLF
        · left; simpa using e1
      · rw [List.prefix_cons_iff] at hpv
        rcases hpv with e2 | ⟨t', e2, _⟩
        · exact absurd e2 hv
        · exact absurd (by rw [e1, e2]; simp) hLF
    · rcases ih e with e1 | ⟨y, hy, e1⟩
      · exact Or.inl e1
      · exact Or.inr ⟨y, by simp [hy], e1⟩
    · exfalso
      apply hLF
      rw [e]
      have : LF ∈ u := by
        rcases List.suffix_concat_iff.mp hsu with e0 | ⟨t', e0, _⟩
        · exact absurd e0 hu
        · rw [e0]; simp
      exact List.mem_append_left _ this

theorem scanFrom_line (max : Nat) (raw cur rest : Bytes) (hLF : LF ∉ raw)
    (hlen : (cur ++ raw).length < max) :
    scanFrom max cur (raw ++ LF :: rest) =
      (dropCR (cur ++ raw) :: (scanFrom max [] rest).1, (scanFrom max [] rest).2) := by
  induction raw generalizing cur with
  | nil => rw [List.nil_append, scanFrom_cons, if_pos rfl, List.append_nil]
  | cons c raw ih =>
    have hc : c ≠ LF := fun e => hLF (by rw [e]; simp)
    have hr : LF ∉ raw := fun e => hLF (List.mem_cons_of_mem _ e)
    have hm : ¬ max ≤ cur.length + 1 := by
      simp at hlen; omega
    rw [List.cons_append, scanFrom_cons, if_neg hc, if_neg hm]
    have := ih (cur ++ [c]) hr (by simpa using hlen)
    simpa using this

theorem scanFrom_last (max : Nat) (raw cur : Bytes) (hLF : LF ∉ raw)
    (hlen : (cur ++ raw).length < max) :
    scanFrom max cur raw = (if cur ++ raw = [] then [] else [dropCR (cur ++ raw)], false) := by
  induction raw generalizing cur with
  | nil => rw [scanFrom_nil, List.append_nil]
  | cons c raw ih =>
    have hc : c ≠ LF := fun e => hLF (by rw [e]; simp)
    have hr : LF ∉ raw := fun e => hLF (List.mem_cons_of_mem _ e)
    have hm : ¬ max ≤ cur.length + 1 := by
      simp at hlen; omega
    rw [scanFrom_cons, if_neg hc, if_neg hm]
    have := ih (cur ++ [c]) hr (by simpa using hlen)
    simpa using this

theorem RawLine.dropCR_bytes (max : Nat) (l : RawLine) (h : l.wf max) :
    dropCR l.bytes = l.text := by
  obtain ⟨_, h2, _⟩ := h
  unfold RawLine.bytes
  cases hc : l.crlf with
  | true => simp [dropCR_append_CR]
  | false => simp [dropCR_of_ne _ (h2 hc)]

theorem RawLine.LF_not_mem_bytes (max : Nat) (l : RawLine) (h : l.wf max) : LF ∉ l.bytes := by
  obtain ⟨h1, _, _⟩ := h
  unfold RawLine.bytes
  have h1' : (10 : Nat) ∉ l.text := h1
  cases l.crlf <;> simp [h1', LF, CR]

/-- The scanner delivers the texts of the lines of a file, whatever their
terminators, and no error. -/
theorem scanFrom_fileBytes (max : Nat) (ls : List RawLine) (last : Option RawLine)
    (hls : ∀ l ∈ ls, l.wf max) (hlast : ∀ l, last = some l → l.wf max ∧ l.bytes ≠ []) :
    scanFrom max [] (fileBytes ls last) = (fileTexts ls last, false) := by
  induction ls with
  | nil =>
    cases last with
    | none => simp [fileBytes, fileTexts, scanFrom_nil]
    | some l =>
      obtain ⟨hw, hne⟩ := hlast l rfl
      have := scanFrom_last max l.bytes [] (RawLine.LF_not_mem_bytes max l hw)
        (by simpa using hw.2.2)
      simp only [fileBytes, fileTexts, List.flatMap_nil, List.nil_append, List.map_nil]
      rw [this]
      simp [hne, RawLine.dropCR_bytes max l hw]
  | cons l ls ih =>
    have hw := hls l (List.mem_cons_self _ _)
    have ih' := ih (fun x hx => hls x (List.mem_cons_of_mem _ hx))
    have e : fileBytes (l :: ls) last = l.bytes ++ LF :: fileBytes ls last := by
      simp [fileBytes]
    rw [e, scanFrom_line max l.bytes [] _ (RawLine.LF_not_mem_bytes max l hw)
      (by simpa using hw.2.2), ih']
    simp [fileTexts, RawLine.dropCR_bytes max l hw]

/-- The scan is the loop of Go `strings.Replace`: find the next occurrence
with `Index`, copy what stands before it, write `new`, go on behind the
occurrence; when there is none, copy the rest. -/
theorem replaceScan_eq_index (old new : Bytes) (h : old ≠ []) (l : Bytes) :
    replaceScan old new 0 l =
      match Index l old with
      | none => l
      | some j => l.take j ++ new ++ replaceScan old new 0 (l.drop (j + old.length)) := by
  induction l with
  | nil =>
    unfold Index
    rw [if_neg h]
    simp [replaceScan]
  | cons c cs ih =>
    rw [replaceScan_zero_cons]
    unfold Index
    by_cases hp : HasPrefix (c :: cs) old = true
    · rw [if_pos hp, if_pos hp, replaceScan_skip]
      have hl : 0 < old.length := List.length_pos.mpr h
      have e : List.drop (0 + old.length) (c :: cs) = List.drop (old.length - 1) cs := by
        obtain ⟨n, hn⟩ : ∃ n, old.length = n + 1 := ⟨old.length - 1, by omega⟩
        rw [hn]
        simp
      simp only [List.take_zero, List.nil_append]
      rw [e]
    · rw [if_neg hp, if_neg hp, ih]
      cases hi : Index cs old with
      | none => simp
      | some j =>
        simp only [Option.map_some', List.take_succ_cons, List.cons_append]
        have e : List.drop (j + 1 + old.length) (c :: cs) = List.drop (j + old.length) cs := by
          have : j + 1 + old.length = (j + old.length) + 1 := by omega
          rw [this, List.drop_succ_cons]
        rw [e]

/-! ## Lemmas: the scanning loop of `processFile` -/

theorem processLines_dry (s r : Bytes) (wf : Option Nat) (lines : List Bytes) (st : Loop) :
    processLines true s r wf lines st =
      ({ st with found := st.found || lines.any (fun l => Contains l s) }, true) := by
  induction lines generalizing st with
  | nil => simp [processLines]
  | cons l rest ih =>
    unfold processLines
    by_cases h : Contains l s = true
    · simp [h, ih]
    · simp [h, ih]

theorem processLines_write (s r : Bytes) (lines : List Bytes) (st : Loop) :
    processLines false s r none lines st =
      ({ out := st.out ++ lines.flatMap (lineOut s r),
         writes := st.writes + lines.length,
         found := st.found || lines.any (fun l => Contains l s),
         lines := st.lines + lines.countP (fun l => Contains l s) }, true) := by
  induction lines generalizing st with
  | nil => simp [processLines]
  | cons l rest ih =>
    unfold processLines
    by_cases h : Contains l s = true
    · simp [h, ih, lineOut, List.flatMap_cons, Nat.add_assoc, Nat.add_comm 1]
    · simp [h, ih, lineOut, List.flatMap_cons, Nat.add_assoc, Nat.add_comm 1]

/-- The flag `foundMatches` is set only by a line that contains the search
text, whatever the mode and wherever the loop stops. -/
theorem processLines_found (dry : Bool) (s r : Bytes) (wf : Option Nat) (lines : List Bytes)
    (st : Loop) (h : (processLines dry s r wf lines st).1.found = true) :
    st.found = true ∨ ∃ l ∈ lines, Contains l s = true := by
  induction lines generalizing st with
  | nil => left; simpa [processLines] using h
  | cons l rest ih =>
    unfold processLines at h
    by_cases hc : Contains l s = true
    · right; exact ⟨l, by simp, hc⟩
    · simp only [hc] at h
      cases dry
      · by_cases hw : wf = some st.writes
        · simp [hw] at h
          left; exact h
        · simp [hw] at h
          rcases ih _ h with h1 | ⟨l1, hl1, hc1⟩
          · left; simpa using h1
          · right; exact ⟨l1, by simp [hl1], hc1⟩
      · simp at h
        rcases ih _ h with h1 | ⟨l1, hl1, hc1⟩
        · left; exact h1
        · right; exact ⟨l1, by simp [hl1], hc1⟩

/-- When the loop runs to its end, `foundMatches` tells whether some line
contains the search text. -/
theorem processLines_done_found (dry : Bool) (s r : Bytes) (wf : Option Nat)
    (lines : List Bytes) (st : Loop) (h : (processLines dry s r wf lines st).2 = true) :
    (processLines dry s r wf lines st).1.found
      = (st.found || lines.any (fun l => Contains l s)) := by
  induction lines generalizing st with
  | nil => simp [processLines]
  | cons l rest ih =>
    unfold processLines at h ⊢
    by_cases hc : Contains l s = true
    · cases dry
      · by_cases hw : wf = some st.writes
        · simp [hc, hw] at h
        · simp only [hc, hw] at h ⊢
          simp at h ⊢
          rw [ih _ h]
          simp [hc]
      · simp only [hc] at h ⊢
        simp at h ⊢
        rw [ih _ h]
        simp [hc]
    · cases dry
      · by_cases hw : wf = some st.writes
        · simp [hc, hw] at h
        · simp only [hc, hw] at h ⊢
          simp at h ⊢
          rw [ih _ h]
          simp [hc]
      · simp only [hc] at h ⊢
        simp at h ⊢
        rw [ih _ h]
        simp [hc]

/-! ## Lemmas: `processFile` -/

/-- The four ways `processFile` ends in normal mode: an early error before
the temporary exists; an error after which the temporary is removed; no match,
the temporary removed; a match, the temporary renamed over the source. -/
theorem processFile_cases (ft : ProcFaults) (st : State) (src s r : Bytes) (sf : File)
    (hs : st.fs src = some sf) :
    processFile false ft st src s r = (st, none) ∨
    (st.fs (tempFileNameOf src ft.tempRnd) = none ∧
      ∃ fsx : FS, (∀ q, q ≠ tempFileNameOf src ft.tempRnd → fsx q = st.fs q) ∧
        processFile false ft st src s r =
          ({ fs := osRemove ft.removeFail fsx (tempFileNameOf src ft.tempRnd),
             cnt := procCnt false ft st sf s r }, none)) ∨
    (st.fs (tempFileNameOf src ft.tempRnd) = none ∧
      (procLoop false ft st sf s r).2 = true ∧ (procScan ft sf).2 = false ∧
      (procLoop false ft st sf s r).1.found = false ∧
      ∃ fsx : FS, (∀ q, q ≠ tempFileNameOf src ft.tempRnd → fsx q = st.fs q) ∧
        processFile false ft st src s r =
          ({ fs := osRemove ft.removeFail fsx (tempFileNameOf src ft.tempRnd),
             cnt := countFile false (procCnt false ft st sf s r) }, some false)) ∨
    (st.fs (tempFileNameOf src ft.tempRnd) = none ∧
      (procLoop false ft st sf s r).2 = true ∧ (procScan ft sf).2 = false ∧
      (procLoop false ft st sf s r).1.found = true ∧
      ∃ fsx : FS, (∀ q, q ≠ tempFileNameOf src ft.tempRnd → fsx q = st.fs q) ∧
        fsx (tempFileNameOf src ft.tempRnd) =
          some { data := (procLoop false ft st sf s r).1.out,
                 mode := if ft.statFail then 0o600 else sf.mode } ∧
        processFile false ft st src s r =
          ({ fs := osRename fsx (tempFileNameOf src ft.tempRnd) src,
             cnt := countFile true (procCnt false ft st sf s r) }, some true)) := by
  unfold procCnt procLoop procScan
  unfold processFile
  rw [hs]
  dsimp only
  generalize scanLines maxTokenSize ft.readFail sf.data = sc
  generalize processLines false s r ft.writeFail sc.1 _ = lp
  generalize tempFileNameOf src ft.tempRnd = tmp
  simp only [Bool.not_false, Bool.true_and, Bool.false_eq_true, if_false]
  have hW1 : ∀ d q, q ≠ tmp →
      osWrite (st.fs.set tmp { data := [], mode := 384 }) tmp d q = st.fs q := by
    intro d q hq
    rw [osWrite_other _ _ _ _ hq, FS.set_other _ _ _ _ hq]
  have hW2 : ∀ d m q, q ≠ tmp →
      osChmod (osWrite (st.fs.set tmp { data := [], mode := 384 }) tmp d) tmp m q = st.fs q := by
    intro d m q hq
    rw [osChmod_other _ _ _ _ hq, hW1 d q hq]
  by_cases c1 : ft.openFail = true
  · rw [if_pos c1]; exact Or.inl rfl
  rw [if_neg c1]
  by_cases c2 : (ft.createTempFail || (st.fs tmp).isSome) = true
  · rw [if_pos c2]; exact Or.inl rfl
  rw [if_neg c2]
  have hfresh : st.fs tmp = none := by
    cases h : st.fs tmp with
    | none => rfl
    | some f => simp [h] at c2
  by_cases c3 : (!lp.2) = true
  · rw [if_pos c3]; exact Or.inr (Or.inl ⟨hfresh, _, hW1 _, rfl⟩)
  rw [if_neg c3]
  have hlp : lp.2 = true := by simpa using c3
  by_cases c4 : sc.2 = true
  · rw [if_pos c4]; exact Or.inr (Or.inl ⟨hfresh, _, hW1 _, rfl⟩)
  rw [if_neg c4]
  have hsc : sc.2 = false := by simpa using c4
  by_cases c5 : ft.flushFail = true
  · rw [if_pos c5]; exact Or.inr (Or.inl ⟨hfresh, _, hW1 _, rfl⟩)
  rw [if_neg c5]
  by_cases c6 : ft.closeFail = true
  · rw [if_pos c6]; exact Or.inr (Or.inl ⟨hfresh, _, hW1 _, rfl⟩)
  rw [if_neg c6]
  by_cases c7 : (!ft.statFail && ft.chmodFail) = true
  · rw [if_pos c7]; exact Or.inr (Or.inl ⟨hfresh, _, hW1 _, rfl⟩)
  rw [if_neg c7]
  have hW3 : ∀ q, q ≠ tmp →
      (if ft.statFail = true then
          osWrite (st.fs.set tmp { data := [], mode := 384 }) tmp lp.1.out
        else osChmod (osWrite (st.fs.set tmp { data := [], mode := 384 }) tmp lp.1.out)
          tmp sf.mode) q = st.fs q := by
    intro q hq
    by_cases c : ft.statFail = true
    · rw [if_pos c]; exact hW1 _ q hq
    · rw [if_neg c]; exact hW2 _ _ q hq
  by_cases c8 : lp.1.found = true
  · rw [if_pos c8]
    by_cases c9 : ft.renameFail = true
    · rw [if_pos c9]; exact Or.inr (Or.inl ⟨hfresh, _, hW3, rfl⟩)
    · rw [if_neg c9]
      refine Or.inr (Or.inr (Or.inr ⟨hfresh, hlp, hsc, c8, _, hW3, ?_, rfl⟩))
      by_cases c : ft.statFail = true
      · simp [c, osWrite_same]
      · simp [c, osWrite_same, osChmod_same]
  · rw [if_neg c8]
    have hf : lp.1.found = false := by simpa using c8
    exact Or.inr (Or.inr (Or.inl ⟨hfresh, hlp, hsc, hf, _, hW3, rfl⟩))

theorem procLoop_dry (ft : ProcFaults) (st : State) (sf : File) (s r : Bytes) :
    procLoop true ft st sf s r =
      ({ out := [], writes := 0,
         found := (procScan ft sf).1.any (fun l => Contains l s),
         lines := st.cnt.linesModified }, true) := by
  unfold procLoop
  rw [processLines_dry]
  simp

/-- In dry-run mode `processFile` changes no file; it fails when the source
cannot be opened or the scanner reports an error, and otherwise counts the
file and returns whether some line contains the search text. -/
theorem processFile_dry (ft : ProcFaults) (st : State) (src s r : Bytes) :
    processFile true ft st src s r =
      match st.fs src with
      | none => (st, none)
      | some sf =>
        if ft.openFail = true ∨ (procScan ft sf).2 = true then (st, none)
        else
          ({ fs := st.fs,
             cnt := countFile ((procScan ft sf).1.any (fun l => Contains l s)) st.cnt },
           some ((procScan ft sf).1.any (fun l => Contains l s))) := by
  unfold processFile
  cases hs : st.fs src with
  | none => rfl
  | some sf =>
    dsimp only
    have hl := procLoop_dry ft st sf s r
    unfold procLoop procScan at hl
    rw [hl]
    unfold procScan
    generalize scanLines maxTokenSize ft.readFail sf.data = sc
    simp only [Bool.not_true, Bool.false_and, Bool.false_eq_true, if_false, if_true]
    by_cases c1 : ft.openFail = true
    · simp [c1]
    · by_cases c4 : sc.2 = true
      · simp [c1, c4]
      · simp [c1, c4]

theorem processFile_dry_fs (ft : ProcFaults) (st : State) (src s r : Bytes) :
    (processFile true ft st src s r).1.fs = st.fs := by
  rw [processFile_dry]
  cases st.fs src with
  | none => rfl
  | some sf => dsimp only; split_ifs <;> rfl

theorem processFile_missing (dry : Bool) (ft : ProcFaults) (st : State) (src s r : Bytes)
    (hs : st.fs src = none) : processFile dry ft st src s r = (st, none) := by
  unfold processFile
  rw [hs]

/-- `processFile` touches its source and its own temporary file only. -/
theorem processFile_other (dry : Bool) (ft : ProcFaults) (st : State) (src s r : Bytes)
    (q : Path) (h1 : q ≠ src) (h2 : q ≠ tempFileNameOf src ft.tempRnd) :
    (processFile dry ft st src s r).1.fs q = st.fs q := by
  cases dry with
  | true => rw [processFile_dry_fs]
  | false =>
    cases hs : st.fs src with
    | none => rw [processFile_missing _ _ _ _ _ _ hs]
    | some sf =>
      rcases processFile_cases ft st src s r sf hs with h | ⟨_, fsx, hW, h⟩ |
        ⟨_, _, _, _, fsx, hW, h⟩ | ⟨_, _, _, _, fsx, hW, _, h⟩
      · rw [h]
      · rw [h]; simp only; rw [osRemove_other _ _ _ _ h2, hW q h2]
      · rw [h]; simp only; rw [osRemove_other _ _ _ _ h2, hW q h2]
      · rw [h]; simp only; rw [osRename_other _ _ _ _ h2 h1, hW q h2]

/-- Unless `processFile` returns `true`, its source file is as before. -/
theorem processFile_src (dry : Bool) (ft : ProcFaults) (st : State) (src s r : Bytes)
    (h : (processFile dry ft st src s r).2 ≠ some true) :
    (processFile dry ft st src s r).1.fs src = st.fs src := by
  cases dry with
  | true => rw [processFile_dry_fs]
  | false =>
    cases hs : st.fs src with
    | none => rw [processFile_missing _ _ _ _ _ _ hs]; exact hs
    | some sf =>
      have hne := ne_tempFileName src ft.tempRnd
      rcases processFile_cases ft st src s r sf hs with h1 | ⟨_, fsx, hW, h1⟩ |
        ⟨_, _, _, _, fsx, hW, h1⟩ | ⟨_, _, _, _, fsx, hW, _, h1⟩
      · rw [h1]; exact hs
      · rw [h1]; simp only; rw [osRemove_other _ _ _ _ hne, hW _ hne, hs]
      · rw [h1]; simp only; rw [osRemove_other _ _ _ _ hne, hW _ hne, hs]
      · rw [h1] at h; simp at h

/-- When removal works, `processFile` leaves no file where none was. -/
theorem processFile_none (dry : Bool) (ft : ProcFaults) (st : State) (src s r : Bytes)
    (hrm : ft.removeFail = false) (q : Path) (hq : st.fs q = none) :
    (processFile dry ft st src s r).1.fs q = none := by
  cases dry with
  | true => rw [processFile_dry_fs]; exact hq
  | false =>
    cases hs : st.fs src with
    | none => rw [processFile_missing _ _ _ _ _ _ hs]; exact hq
    | some sf =>
      have hqs : q ≠ src := by
        intro e; rw [e, hs] at hq; cases hq
      by_cases hqt : q = tempFileNameOf src ft.tempRnd
      · have hne := ne_tempFileName src ft.tempRnd
        rcases processFile_cases ft st src s r sf hs with h1 | ⟨_, fsx, hW, h1⟩ |
          ⟨_, _, _, _, fsx, hW, h1⟩ | ⟨_, _, _, _, fsx, hW, hx, h1⟩
        · rw [h1]; exact hq
        · rw [h1, hqt, hrm]; exact osRemove_same _ _
        · rw [h1, hqt, hrm]; exact osRemove_same _ _
        · rw [h1, hqt]; exact osRename_old _ _ _ _ hx (Ne.symm hne)
      · rw [processFile_other false ft st src s r q hqs hqt]; exact hq

/-- The counters `processFile` leaves: `filesModified` and `totalFiles` are
untouched; a file is counted exactly when no error is returned, as a match
or not according to the result. -/
theorem processFile_cnt (dry : Bool) (ft : ProcFaults) (st : State) (src s r : Bytes) :
    (processFile dry ft st src s r).1.cnt.filesModified = st.cnt.filesModified ∧
    (processFile dry ft st src s r).1.cnt.totalFiles = st.cnt.totalFiles ∧
    (processFile dry ft st src s r).1.cnt.filesWithMatches =
      st.cnt.filesWithMatches +
        (if (processFile dry ft st src s r).2 = some true then 1 else 0) ∧
    (processFile dry ft st src s r).1.cnt.filesWithoutMatches =
      st.cnt.filesWithoutMatches +
        (if (processFile dry ft st src s r).2 = some false then 1 else 0) := by
  cases dry with
  | true =>
    rw [processFile_dry]
    cases st.fs src with
    | none => simp
    | some sf =>
      dsimp only
      by_cases h : ft.openFail = true ∨ (procScan ft sf).2 = true
      · rw [if_pos h]; simp
      · rw [if_neg h]
        cases (procScan ft sf).1.any (fun l => Contains l s) <;> simp [countFile]
  | false =>
    cases hs : st.fs src with
    | none => rw [processFile_missing _ _ _ _ _ _ hs]; simp
    | some sf =>
      rcases processFile_cases ft st src s r sf hs with h1 | ⟨_, fsx, hW, h1⟩ |
        ⟨_, _, _, _, fsx, hW, h1⟩ | ⟨_, _, _, _, fsx, hW, hx, h1⟩
      · rw [h1]; simp
      · rw [h1]; simp [procCnt]
      · rw [h1]; simp [procCnt, countFile]
      · rw [h1]; simp [procCnt, countFile]

/-- When the loop runs to its end in normal mode, every line has been
written in order and the matching ones counted. -/
theorem processLines_done_out (s r : Bytes) (wf : Option Nat) (lines : List Bytes)
    (st : Loop) (h : (processLines false s r wf lines st).2 = true) :
    (processLines false s r wf lines st).1.out = st.out ++ lines.flatMap (lineOut s r) ∧
    (processLines false s r wf lines st).1.lines =
      st.lines + lines.countP (fun l => Contains l s) := by
  induction lines generalizing st with
  | nil => simp [processLines]
  | cons l rest ih =>
    unfold processLines at h ⊢
    by_cases hc : Contains l s = true
    · by_cases hw : wf = some st.writes
      · simp [hc, hw] at h
      · simp only [hc, hw] at h ⊢
        simp at h ⊢
        obtain ⟨i1, i2⟩ := ih _ h
        rw [i1, i2]
        simp [lineOut, hc, List.flatMap_cons, Nat.add_assoc, Nat.add_comm 1]
    · by_cases hw : wf = some st.writes
      · simp [hc, hw] at h
      · simp only [hc, hw] at h ⊢
        simp at h ⊢
        obtain ⟨i1, i2⟩ := ih _ h
        rw [i1, i2]
        simp [lineOut, hc, List.flatMap_cons]

/-- A result without error tells whether some scanned line contains the
search text; the scanner has reported no error. -/
theorem processFile_result (dry : Bool) (ft : ProcFaults) (st : State) (src s r : Bytes)
    (m : Bool) (h : (processFile dry ft st src s r).2 = some m) :
    ∃ sf, st.fs src = some sf ∧ (procScan ft sf).2 = false ∧
      m = (procScan ft sf).1.any (fun l => Contains l s) := by
  cases hs : st.fs src with
  | none => rw [processFile_missing _ _ _ _ _ _ hs] at h; cases h
  | some sf =>
    refine ⟨sf, rfl, ?_⟩
    cases dry with
    | true =>
      rw [processFile_dry, hs] at h
      dsimp only at h
      by_cases c : ft.openFail = true ∨ (procScan ft sf).2 = true
      · rw [if_pos c] at h; cases h
      · rw [if_neg c] at h
        have hm : (procScan ft sf).1.any (fun l => Contains l s) = m := by simpa using h
        refine ⟨?_, hm.symm⟩
        cases hsc : (procScan ft sf).2 with
        | false => rfl
        | true => exact absurd (Or.inr hsc) c
    | false =>
      rcases processFile_cases ft st src s r sf hs with h1 | ⟨_, fsx, hW, h1⟩ |
        ⟨_, hl, hsc, hf, fsx, hW, h1⟩ | ⟨_, hl, hsc, hf, fsx, hW, hx, h1⟩
      · rw [h1] at h; cases h
      · rw [h1] at h; cases h
      · rw [h1] at h
        have hm : false = m := by simpa using h
        have := processLines_done_found false s r ft.writeFail (procScan ft sf).1 _ hl
        unfold procLoop at hf
        rw [hf] at this
        refine ⟨hsc, ?_⟩
        rw [← hm]; simpa using this
      · rw [h1] at h
        have hm : true = m := by simpa using h
        have := processLines_done_found false s r ft.writeFail (procScan ft sf).1 _ hl
        unfold procLoop at hf
        rw [hf] at this
        refine ⟨hsc, ?_⟩
        rw [← hm]; simpa using this

/-- In normal mode, when `processFile` returns `true` its source holds the
rewritten lines, with the mode of the old source when `os.Stat` worked. -/
theorem processFile_true_fs (ft : ProcFaults) (st : State) (src s r : Bytes)
    (h : (processFile false ft st src s r).2 = some true) :
    ∃ sf, st.fs src = some sf ∧
      (processFile false ft st src s r).1.fs src =
        some { data := (procScan ft sf).1.flatMap (lineOut s r),
               mode := if ft.statFail then 0o600 else sf.mode } ∧
      (processFile false ft st src s r).1.cnt.linesModified =
        st.cnt.linesModified + (procScan ft sf).1.countP (fun l => Contains l s) := by
  cases hs : st.fs src with
  | none => rw [processFile_missing _ _ _ _ _ _ hs] at h; cases h
  | some sf =>
    refine ⟨sf, rfl, ?_⟩
    rcases processFile_cases ft st src s r sf hs with h1 | ⟨_, fsx, hW, h1⟩ |
      ⟨_, hl, hsc, hf, fsx, hW, h1⟩ | ⟨_, hl, hsc, hf, fsx, hW, hx, h1⟩
    · rw [h1] at h; cases h
    · rw [h1] at h; cases h
    · rw [h1] at h; cases h
    · rw [h1]
      obtain ⟨o1, o2⟩ := processLines_done_out s r ft.writeFail (procScan ft sf).1 _ hl
      constructor
      · simp only
        rw [osRename_new _ _ _ _ hx]
        unfold procLoop
        rw [o1]; simp
      · simp only [countFile, procCnt, procLoop, if_true]
        rw [o2]

/-- With the normal-mode calls all succeeding and the temporary name free,
`processFile` returns in normal mode what it returns in dry-run mode. -/
theorem processFile_agree (ft : ProcFaults) (st st' : State) (src s r : Bytes)
    (hq : ft.writeQuiet) (hfresh : st.fs (tempFileNameOf src ft.tempRnd) = none)
    (hsame : st'.fs src = st.fs src) :
    (processFile false ft st src s r).2 = (processFile true ft st' src s r).2 := by
  obtain ⟨q1, q2, q3, q4, q5, q6⟩ := hq
  rw [processFile_dry, hsame]
  cases hs : st.fs src with
  | none => rw [processFile_missing _ _ _ _ _ _ hs]
  | some sf =>
    dsimp only
    have hl := processLines_write s r (procScan ft sf).1
      { out := [], writes := 0, found := false, lines := st.cnt.linesModified }
    unfold processFile
    rw [hs]
    dsimp only
    rw [q2]
    unfold procScan at hl ⊢
    rw [hl]
    generalize scanLines maxTokenSize ft.readFail sf.data = sc
    simp only [Bool.false_or]
    generalize sc.1.any (fun l => Contains l s) = b
    by_cases c1 : ft.openFail = true
    · simp [c1]
    · by_cases c4 : sc.2 = true
      · simp [c1, c4, q1, hfresh]
      · cases b <;> simp [c1, c4, q1, q3, q4, q5, q6, hfresh]

/-! ## Lemmas: the codec stages -/

theorem copyFile_other (ft : StageFaults) (m : Nat) (fs : FS) (src dst q : Path)
    (h : q ≠ dst) : (copyFile ft m fs src dst).1 q = fs q := by
  unfold copyFile
  cases hs : fs src with
  | none => rfl
  | some sf =>
    dsimp only
    by_cases c1 : ft.openFail = true
    · rw [if_pos c1]
    rw [if_neg c1]
    by_cases c2 : ft.createFail = true
    · rw [if_pos c2]
    rw [if_neg c2]
    cases ft.copyFail with
    | some b => dsimp only; rw [osWrite_other _ _ _ _ h, osCreate_other _ _ _ _ h]
    | none =>
      dsimp only
      by_cases c3 : ft.statFail = true
      · rw [if_pos c3]; dsimp only; rw [osWrite_other _ _ _ _ h, osCreate_other _ _ _ _ h]
      rw [if_neg c3]
      by_cases c4 : ft.chmodFail = true
      · rw [if_pos c4]; dsimp only; rw [osWrite_other _ _ _ _ h, osCreate_other _ _ _ _ h]
      rw [if_neg c4]; dsimp only
      rw [osChmod_other _ _ _ _ h, osWrite_other _ _ _ _ h, osCreate_other _ _ _ _ h]

theorem copyFile_ok (ft : StageFaults) (m : Nat) (fs : FS) (src dst : Path)
    (h : (copyFile ft m fs src dst).2 = true) :
    ∃ sf, fs src = some sf ∧
      (copyFile ft m fs src dst).1 dst =
        some { data := sf.data,
               mode := if ft.statFail then createdMode m fs dst else sf.mode } := by
  unfold copyFile at h ⊢
  cases hs : fs src with
  | none => rw [hs] at h; cases h
  | some sf =>
    rw [hs] at h
    refine ⟨sf, rfl, ?_⟩
    dsimp only at h ⊢
    by_cases c1 : ft.openFail = true
    · rw [if_pos c1] at h; cases h
    rw [if_neg c1] at h ⊢
    by_cases c2 : ft.createFail = true
    · rw [if_pos c2] at h; cases h
    rw [if_neg c2] at h ⊢
    cases hc : ft.copyFail with
    | some b => rw [hc] at h; cases h
    | none =>
      rw [hc] at h
      dsimp only at h ⊢
      by_cases c3 : ft.statFail = true
      · rw [if_pos c3]; dsimp only
        rw [osWrite_same, osCreate_same]
        simp [c3]
      rw [if_neg c3] at h ⊢
      by_cases c4 : ft.chmodFail = true
      · rw [if_pos c4] at h; cases h
      rw [if_neg c4]; dsimp only
      rw [osChmod_same, osWrite_same, osCreate_same]
      simp [c3]

theorem decompressGzipFile_other (cd : Codec) (ft : StageFaults) (m : Nat) (fs : FS)
    (src dst q : Path) (h : q ≠ dst) :
    (decompressGzipFile cd ft m fs src dst).1 q = fs q := by
  unfold decompressGzipFile
  cases hs : fs src with
  | none => rfl
  | some sf =>
    dsimp only
    by_cases c1 : ft.openFail = true
    · rw [if_pos c1]
    rw [if_neg c1]
    cases cd.decompress sf.data with
    | badHeader => rfl
    | corrupt delivered =>
      dsimp only
      by_cases c2 : ft.createFail = true
      · rw [if_pos c2]
      rw [if_neg c2]
      cases ft.copyFail with
      | some b => dsimp only; rw [osWrite_other _ _ _ _ h, osCreate_other _ _ _ _ h]
      | none => dsimp only; rw [osWrite_other _ _ _ _ h, osCreate_other _ _ _ _ h]
    | ok payload =>
      dsimp only
      by_cases c2 : ft.createFail = true
      · rw [if_pos c2]
      rw [if_neg c2]
      cases ft.copyFail with
      | some b => dsimp only; rw [osWrite_other _ _ _ _ h, osCreate_other _ _ _ _ h]
      | none =>
        dsimp only
        by_cases c3 : ft.statFail = true
        · rw [if_pos c3]; dsimp only; rw [osWrite_other _ _ _ _ h, osCreate_other _ _ _ _ h]
        rw [if_neg c3]
        by_cases c4 : ft.chmodFail = true
        · rw [if_pos c4]; dsimp only; rw [osWrite_other _ _ _ _ h, osCreate_other _ _ _ _ h]
        rw [if_neg c4]; dsimp only
        rw [osChmod_other _ _ _ _ h, osWrite_other _ _ _ _ h, osCreate_other _ _ _ _ h]

theorem decompressGzipFile_ok (cd : Codec) (ft : StageFaults) (m : Nat) (fs : FS)
    (src dst : Path) (h : (decompressGzipFile cd ft m fs src dst).2 = true) :
    ∃ sf payload, fs src = some sf ∧ cd.decompress sf.data = .ok payload ∧
      (decompressGzipFile cd ft m fs src dst).1 dst =
        some { data := payload,
               mode := if ft.statFail then createdMode m fs dst else sf.mode } := by
  unfold decompressGzipFile at h ⊢
  cases hs : fs src with
  | none => rw [hs] at h; cases h
  | some sf =>
    rw [hs] at h
    dsimp only at h ⊢
    by_cases c1 : ft.openFail = true
    · rw [if_pos c1] at h; cases h
    rw [if_neg c1] at h ⊢
    cases hd : cd.decompress sf.data with
    | badHeader => rw [hd] at h; cases h
    | corrupt delivered =>
      rw [hd] at h
      dsimp only at h
      by_cases c2 : ft.createFail = true
      · rw [if_pos c2] at h; cases h
      rw [if_neg c2] at h
      cases hc : ft.copyFail with
      | some b => rw [hc] at h; cases h
      | none => rw [hc] at h; cases h
    | ok payload =>
      rw [hd] at h
      refine ⟨sf, payload, rfl, hd, ?_⟩
      dsimp only at h ⊢
      by_cases c2 : ft.createFail = true
      · rw [if_pos c2] at h; cases h
      rw [if_neg c2] at h ⊢
      cases hc : ft.copyFail with
      | some b => rw [hc] at h; cases h
      | none =>
        rw [hc] at h
        dsimp only at h ⊢
        by_cases c3 : ft.statFail = true
        · rw [if_pos c3]; dsimp only
          rw [osWrite_same, osCreate_same]
          simp [c3]
        rw [if_neg c3] at h ⊢
        by_cases c4 : ft.chmodFail = true
        · rw [if_pos c4] at h; cases h
        rw [if_neg c4]; dsimp only
        rw [osChmod_same, osWrite_same, osCreate_same]
        simp [c3]

theorem compressGzipFile_other (cd : Codec) (ft : StageFaults) (gz : Option Bytes) (m : Nat)
    (fs : FS) (src dst q : Path) (h : q ≠ dst) :
    (compressGzipFile cd ft gz m fs src dst).1 q = fs q := by
  unfold compressGzipFile
  cases hs : fs src with
  | none => rfl
  | some sf =>
    dsimp only
    by_cases c1 : ft.openFail = true
    · rw [if_pos c1]
    rw [if_neg c1]
    by_cases c2 : ft.createFail = true
    · rw [if_pos c2]
    rw [if_neg c2]
    cases ft.copyFail with
    | some b => dsimp only; rw [osWrite_other _ _ _ _ h, osCreate_other _ _ _ _ h]
    | none =>
      dsimp only
      by_cases c3 : ft.statFail = true
      · rw [if_pos c3]; dsimp only; rw [osWrite_other _ _ _ _ h, osCreate_other _ _ _ _ h]
      rw [if_neg c3]
      by_cases c4 : ft.chmodFail = true
      · rw [if_pos c4]; dsimp only; rw [osWrite_other _ _ _ _ h, osCreate_other _ _ _ _ h]
      rw [if_neg c4]; dsimp only
      rw [osChmod_other _ _ _ _ h, osWrite_other _ _ _ _ h, osCreate_other _ _ _ _ h]

theorem compressGzipFile_ok (cd : Codec) (ft : StageFaults) (gz : Option Bytes) (m : Nat)
    (fs : FS) (src dst : Path) (h : (compressGzipFile cd ft gz m fs src dst).2 = true) :
    ∃ sf, fs src = some sf ∧
      (compressGzipFile cd ft gz m fs src dst).1 dst =
        some { data := gzOutput cd gz sf.data,
               mode := if ft.statFail then createdMode m fs dst else sf.mode } := by
  unfold compressGzipFile at h ⊢
  cases hs : fs src with
  | none => rw [hs] at h; cases h
  | some sf =>
    rw [hs] at h
    refine ⟨sf, rfl, ?_⟩
    dsimp only at h ⊢
    by_cases c1 : ft.openFail = true
    · rw [if_pos c1] at h; cases h
    rw [if_neg c1] at h ⊢
    by_cases c2 : ft.createFail = true
    · rw [if_pos c2] at h; cases h
    rw [if_neg c2] at h ⊢
    cases hc : ft.copyFail with
    | some b => rw [hc] at h; cases h
    | none =>
      rw [hc] at h
      dsimp only at h ⊢
      by_cases c3 : ft.statFail = true
      · rw [if_pos c3]; dsimp only
        rw [osWrite_same, osCreate_same]
        simp [c3]
      rw [if_neg c3] at h ⊢
      by_cases c4 : ft.chmodFail = true
      · rw [if_pos c4] at h; cases h
      rw [if_neg c4]; dsimp only
      rw [osChmod_same, osWrite_same, osCreate_same]
      simp [c3]

/-! ## Lemmas: the callback of `migrateRun` -/

/-- The callback body, stage by stage. -/
theorem migrateBody_eq (cfg : Config) (ft : Faults) (st : State) (path : Path) :
    migrateBody cfg ft st path =
      if (afterCopy cfg ft st path).2 = false then
        ({ fs := (afterCopy cfg ft st path).1, cnt := st.cnt }, .copyError)
      else if (afterDecompress cfg ft st path).2 = false then
        ({ fs := (afterDecompress cfg ft st path).1, cnt := st.cnt }, .decompressError)
      else match (afterProcess cfg ft st path).2 with
        | none => ((afterProcess cfg ft st path).1, .processError)
        | some hadMatches =>
          if cfg.dryRun = false ∧ hadMatches = true then
            if (afterCompress cfg ft st path).2 = false then
              ({ fs := (afterCompress cfg ft st path).1,
                 cnt := (afterProcess cfg ft st path).1.cnt }, .compressError)
            else if ft.renameFail = true then
              ({ fs := (afterCompress cfg ft st path).1,
                 cnt := (afterProcess cfg ft st path).1.cnt }, .renameError)
            else
              ({ fs := osRename (afterCompress cfg ft st path).1 (tempGzOf path) path,
                 cnt := { (afterProcess cfg ft st path).1.cnt with
                   filesModified := (afterProcess cfg ft st path).1.cnt.filesModified + 1 } },
               .updated)
          else ((afterProcess cfg ft st path).1, .unchanged hadMatches) := by
  unfold afterCompress afterProcess afterDecompress afterCopy migrateBody
  dsimp only
  rcases copyFile ft.copy cfg.createMode st.fs path (tempGzOf path) with ⟨fs1, b1⟩
  cases b1 with
  | false => simp
  | true =>
    dsimp only
    rcases decompressGzipFile cfg.codec ft.decompress cfg.createMode fs1 (tempGzOf path)
      (tempXmlOf path) with ⟨fs2, b2⟩
    cases b2 with
    | false => simp
    | true =>
      dsimp only
      rcases processFile cfg.dryRun ft.proc { fs := fs2, cnt := st.cnt } (tempXmlOf path)
        cfg.replaceVal cfg.withVal with ⟨st3, r3⟩
      cases r3 with
      | none => simp
      | some m =>
        dsimp only
        by_cases hc : cfg.dryRun = false ∧ m = true
        · have hc' : (!cfg.dryRun && m) = true := by simp [hc.1, hc.2]
          simp only [Bool.true_eq_false, if_false]
          rw [if_pos hc', if_pos hc]
          rcases compressGzipFile cfg.codec ft.compress ft.gzCloseFail cfg.createMode st3.fs
            (tempXmlOf path) (tempGzOf path) with ⟨fs4, b4⟩
          cases b4 with
          | false => simp
          | true => simp
        · have hc' : ¬ (!cfg.dryRun && m) = true := by
            intro h; apply hc; simpa using h
          simp only [Bool.true_eq_false, if_false]
          rw [if_neg hc', if_neg hc]

/-- The seven ways the callback body ends. -/
theorem migrateBody_cases (cfg : Config) (ft : Faults) (st : State) (path : Path) :
    ((afterCopy cfg ft st path).2 = false ∧
      migrateBody cfg ft st path =
        ({ fs := (afterCopy cfg ft st path).1, cnt := st.cnt }, .copyError)) ∨
    ((afterCopy cfg ft st path).2 = true ∧ (afterDecompress cfg ft st path).2 = false ∧
      migrateBody cfg ft st path =
        ({ fs := (afterDecompress cfg ft st path).1, cnt := st.cnt }, .decompressError)) ∨
    ((afterCopy cfg ft st path).2 = true ∧ (afterDecompress cfg ft st path).2 = true ∧
      (afterProcess cfg ft st path).2 = none ∧
      migrateBody cfg ft st path = ((afterProcess cfg ft st path).1, .processError)) ∨
    ((afterCopy cfg ft st path).2 = true ∧ (afterDecompress cfg ft st path).2 = true ∧
      ∃ m, (afterProcess cfg ft st path).2 = some m ∧ (cfg.dryRun = true ∨ m = false) ∧
        migrateBody cfg ft st path = ((afterProcess cfg ft st path).1, .unchanged m)) ∨
    ((afterCopy cfg ft st path).2 = true ∧ (afterDecompress cfg ft st path).2 = true ∧
      (afterProcess cfg ft st path).2 = some true ∧ cfg.dryRun = false ∧
      (afterCompress cfg ft st path).2 = false ∧
      migrateBody cfg ft st path =
        ({ fs := (afterCompress cfg ft st path).1,
           cnt := (afterProcess cfg ft st path).1.cnt }, .compressError)) ∨
    ((afterCopy cfg ft st path).2 = true ∧ (afterDecompress cfg ft st path).2 = true ∧
      (afterProcess cfg ft st path).2 = some true ∧ cfg.dryRun = false ∧
      (afterCompress cfg ft st path).2 = true ∧ ft.renameFail = true ∧
      migrateBody cfg ft st path =
        ({ fs := (afterCompress cfg ft st path).1,
           cnt := (afterProcess cfg ft st path).1.cnt }, .renameError)) ∨
    ((afterCopy cfg ft st path).2 = true ∧ (afterDecompress cfg ft st path).2 = true ∧
      (afterProcess cfg ft st path).2 = some true ∧ cfg.dryRun = false ∧
      (afterCompress cfg ft st path).2 = true ∧ ft.renameFail = false ∧
      migrateBody cfg ft st path =
        ({ fs := osRename (afterCompress cfg ft st path).1 (tempGzOf path) path,
           cnt := { (afterProcess cfg ft st path).1.cnt with
             filesModified := (afterProcess cfg ft st path).1.cnt.filesModified + 1 } },
         .updated)) := by
  rw [migrateBody_eq]
  by_cases h1 : (afterCopy cfg ft st path).2 = false
  · rw [if_pos h1]; exact Or.inl ⟨h1, rfl⟩
  rw [if_neg h1]
  have h1' : (afterCopy cfg ft st path).2 = true := by simpa using h1
  by_cases h2 : (afterDecompress cfg ft st path).2 = false
  · rw [if_pos h2]; exact Or.inr (Or.inl ⟨h1', h2, rfl⟩)
  rw [if_neg h2]
  have h2' : (afterDecompress cfg ft st path).2 = true := by simpa using h2
  cases h3 : (afterProcess cfg ft st path).2 with
  | none => exact Or.inr (Or.inr (Or.inl ⟨h1', h2', rfl, rfl⟩))
  | some m =>
    dsimp only
    by_cases hc : cfg.dryRun = false ∧ m = true
    · rw [if_pos hc]
      obtain ⟨hd, hm⟩ := hc
      subst hm
      by_cases h4 : (afterCompress cfg ft st path).2 = false
      · rw [if_pos h4]
        exact Or.inr (Or.inr (Or.inr (Or.inr (Or.inl ⟨h1', h2', rfl, hd, h4, rfl⟩))))
      rw [if_neg h4]
      have h4' : (afterCompress cfg ft st path).2 = true := by simpa using h4
      by_cases h5 : ft.renameFail = true
      · rw [if_pos h5]
        exact Or.inr (Or.inr (Or.inr (Or.inr (Or.inr (Or.inl ⟨h1', h2', rfl, hd, h4', h5, rfl⟩)))))
      · rw [if_neg h5]
        have h5' : ft.renameFail = false := by simpa using h5
        exact Or.inr (Or.inr (Or.inr (Or.inr (Or.inr (Or.inr
          ⟨h1', h2', rfl, hd, h4', h5', rfl⟩)))))
    · rw [if_neg hc]
      refine Or.inr (Or.inr (Or.inr (Or.inl ⟨h1', h2', m, rfl, ?_, rfl⟩)))
      by_cases hd : cfg.dryRun = true
      · exact Or.inl hd
      · right
        have hd' : cfg.dryRun = false := by simpa using hd
        cases m with
        | false => rfl
        | true => exact absurd ⟨hd', rfl⟩ hc

/-- None of the four stages touches a path other than the three temporaries. -/
theorem stages_frame (cfg : Config) (ft : Faults) (st : State) (path q : Path)
    (hg : q ≠ tempGzOf path) (hx : q ≠ tempXmlOf path)
    (ht : q ≠ tempFileNameOf (tempXmlOf path) ft.proc.tempRnd) :
    (afterCopy cfg ft st path).1 q = st.fs q ∧
    (afterDecompress cfg ft st path).1 q = st.fs q ∧
    (afterProcess cfg ft st path).1.fs q = st.fs q ∧
    (afterCompress cfg ft st path).1 q = st.fs q := by
  have e1 : (afterCopy cfg ft st path).1 q = st.fs q := copyFile_other _ _ _ _ _ _ hg
  have e2 : (afterDecompress cfg ft st path).1 q = st.fs q := by
    unfold afterDecompress
    rw [decompressGzipFile_other _ _ _ _ _ _ _ hx]; exact e1
  have e3 : (afterProcess cfg ft st path).1.fs q = st.fs q := by
    unfold afterProcess
    rw [processFile_other _ _ _ _ _ _ _ hx ht]; exact e2
  refine ⟨e1, e2, e3, ?_⟩
  unfold afterCompress
  rw [compressGzipFile_other _ _ _ _ _ _ _ _ hg]; exact e3

/-- The original path is not touched by any of the four stages. -/
theorem stages_path (cfg : Config) (ft : Faults) (st : State) (path : Path) :
    (afterCopy cfg ft st path).1 path = st.fs path ∧
    (afterDecompress cfg ft st path).1 path = st.fs path ∧
    (afterProcess cfg ft st path).1.fs path = st.fs path ∧
    (afterCompress cfg ft st path).1 path = st.fs path :=
  stages_frame cfg ft st path path (path_ne_tempGz path) (path_ne_tempXml path)
    (path_ne_tempFileName path _)

theorem migrateFile_fs (cfg : Config) (ft : Faults) (st : State) (path : Path) :
    (migrateFile cfg ft st path).1.fs =
      osRemove ft.removeXmlFail
        (osRemove ft.removeGzFail (migrateBody cfg ft st path).1.fs (tempGzOf path))
        (tempXmlOf path) := rfl

theorem migrateFile_cnt (cfg : Config) (ft : Faults) (st : State) (path : Path) :
    (migrateFile cfg ft st path).1.cnt = (migrateBody cfg ft st path).1.cnt := rfl

theorem migrateFile_outcome (cfg : Config) (ft : Faults) (st : State) (path : Path) :
    (migrateFile cfg ft st path).2 = (migrateBody cfg ft st path).2 := rfl

/-- A path that is neither the candidate nor one of its three temporaries
is not touched by the callback. -/
theorem migrateFile_frame (cfg : Config) (ft : Faults) (st : State) (path q : Path)
    (hp : q ≠ path) (hg : q ≠ tempGzOf path) (hx : q ≠ tempXmlOf path)
    (ht : q ≠ tempFileNameOf (tempXmlOf path) ft.proc.tempRnd) :
    (migrateFile cfg ft st path).1.fs q = st.fs q := by
  rw [migrateFile_fs, osRemove_other _ _ _ _ hx, osRemove_other _ _ _ _ hg]
  obtain ⟨e1, e2, e3, e4⟩ := stages_frame cfg ft st path q hg hx ht
  rcases migrateBody_cases cfg ft st path with ⟨_, h⟩ | ⟨_, _, h⟩ | ⟨_, _, _, h⟩ |
    ⟨_, _, m, _, _, h⟩ | ⟨_, _, _, _, _, h⟩ | ⟨_, _, _, _, _, _, h⟩ | ⟨_, _, _, _, _, _, h⟩
  · rw [h]; exact e1
  · rw [h]; exact e2
  · rw [h]; exact e3
  · rw [h]; exact e3
  · rw [h]; exact e4
  · rw [h]; exact e4
  · rw [h]; simp only; rw [osRename_other _ _ _ _ hg hp]; exact e4

/-- Unless the callback ends in `updated`, the candidate is as before. -/
theorem migrateFile_path (cfg : Config) (ft : Faults) (st : State) (path : Path)
    (h : (migrateFile cfg ft st path).2 ≠ .updated) :
    (migrateFile cfg ft st path).1.fs path = st.fs path := by
  rw [migrateFile_fs, osRemove_other _ _ _ _ (path_ne_tempXml path),
    osRemove_other _ _ _ _ (path_ne_tempGz path)]
  rw [migrateFile_outcome] at h
  obtain ⟨e1, e2, e3, e4⟩ := stages_path cfg ft st path
  rcases migrateBody_cases cfg ft st path with ⟨_, h'⟩ | ⟨_, _, h'⟩ | ⟨_, _, _, h'⟩ |
    ⟨_, _, m, _, _, h'⟩ | ⟨_, _, _, _, _, h'⟩ | ⟨_, _, _, _, _, _, h'⟩ | ⟨_, _, _, _, _, _, h'⟩
  · rw [h']; exact e1
  · rw [h']; exact e2
  · rw [h']; exact e3
  · rw [h']; exact e3
  · rw [h']; exact e4
  · rw [h']; exact e4
  · rw [h'] at h; exact absurd rfl h

/-- When the callback ends in `updated`, the candidate is the file that
`compressGzipFile` left under the compressed temporary. -/
theorem migrateFile_updated (cfg : Config) (ft : Faults) (st : State) (path : Path)
    (h : (migrateFile cfg ft st path).2 = .updated) :
    (afterCopy cfg ft st path).2 = true ∧ (afterDecompress cfg ft st path).2 = true ∧
    (afterProcess cfg ft st path).2 = some true ∧ cfg.dryRun = false ∧
    (afterCompress cfg ft st path).2 = true ∧ ft.renameFail = false ∧
    ∃ f, (afterCompress cfg ft st path).1 (tempGzOf path) = some f ∧
      (migrateFile cfg ft st path).1.fs path = some f := by
  rw [migrateFile_outcome] at h
  rw [migrateFile_fs, osRemove_other _ _ _ _ (path_ne_tempXml path),
    osRemove_other _ _ _ _ (path_ne_tempGz path)]
  rcases migrateBody_cases cfg ft st path with ⟨_, h'⟩ | ⟨_, _, h'⟩ | ⟨_, _, _, h'⟩ |
    ⟨_, _, m, _, _, h'⟩ | ⟨_, _, _, _, _, h'⟩ | ⟨_, _, _, _, _, _, h'⟩ |
    ⟨a1, a2, a3, a4, a5, a6, h'⟩
  · rw [h'] at h; cases h
  · rw [h'] at h; cases h
  · rw [h'] at h; cases h
  · rw [h'] at h; cases h
  · rw [h'] at h; cases h
  · rw [h'] at h; cases h
  · refine ⟨a1, a2, a3, a4, a5, a6, ?_⟩
    obtain ⟨sf, _, hdst⟩ := compressGzipFile_ok _ _ _ _ _ _ _ a5
    refine ⟨_, hdst, ?_⟩
    rw [h']
    exact osRename_new _ _ _ _ hdst

/-- The counter updates of one candidate, by outcome. -/
theorem migrateFile_counters (cfg : Config) (ft : Faults) (st : State) (path : Path) :
    (migrateFile cfg ft st path).1.cnt.filesWithMatches =
      st.cnt.filesWithMatches +
        (if counted (migrateFile cfg ft st path).2 = some true then 1 else 0) ∧
    (migrateFile cfg ft st path).1.cnt.filesWithoutMatches =
      st.cnt.filesWithoutMatches +
        (if counted (migrateFile cfg ft st path).2 = some false then 1 else 0) ∧
    (migrateFile cfg ft st path).1.cnt.filesModified =
      st.cnt.filesModified + (if (migrateFile cfg ft st path).2 = .updated then 1 else 0) ∧
    (migrateFile cfg ft st path).1.cnt.totalFiles = st.cnt.totalFiles := by
  rw [migrateFile_cnt, migrateFile_outcome]
  have hp := processFile_cnt cfg.dryRun ft.proc
    { fs := (afterDecompress cfg ft st path).1, cnt := st.cnt } (tempXmlOf path)
    cfg.replaceVal cfg.withVal
  change (afterProcess cfg ft st path).1.cnt.filesModified = st.cnt.filesModified ∧
    (afterProcess cfg ft st path).1.cnt.totalFiles = st.cnt.totalFiles ∧
    (afterProcess cfg ft st path).1.cnt.filesWithMatches =
      st.cnt.filesWithMatches + (if (afterProcess cfg ft st path).2 = some true then 1 else 0) ∧
    (afterProcess cfg ft st path).1.cnt.filesWithoutMatches =
      st.cnt.filesWithoutMatches +
        (if (afterProcess cfg ft st path).2 = some false then 1 else 0) at hp
  obtain ⟨p1, p2, p3, p4⟩ := hp
  rcases migrateBody_cases cfg ft st path with ⟨_, h'⟩ | ⟨_, _, h'⟩ | ⟨_, _, a3, h'⟩ |
    ⟨_, _, m, a3, _, h'⟩ | ⟨_, _, a3, _, _, h'⟩ | ⟨_, _, a3, _, _, _, h'⟩ |
    ⟨_, _, a3, _, _, _, h'⟩
  · rw [h']; simp [counted]
  · rw [h']; simp [counted]
  · rw [h']; rw [a3] at p3 p4; simp [counted, p1, p2, p3, p4]
  · rw [h']; rw [a3] at p3 p4
    cases m <;> simp [counted, p1, p2, p3, p4]
  · rw [h']; rw [a3] at p3 p4; simp [counted, p1, p2, p3, p4]
  · rw [h']; rw [a3] at p3 p4; simp [counted, p1, p2, p3, p4]
  · rw [h']; rw [a3] at p3 p4; simp [counted, p1, p2, p3, p4]

/-- When removals work, the callback body leaves no file where none was,
the two named temporaries apart. -/
theorem migrateBody_none (cfg : Config) (ft : Faults) (st : State) (path q : Path)
    (hrm : ft.proc.removeFail = false) (hq : st.fs q = none)
    (hg : q ≠ tempGzOf path) (hx : q ≠ tempXmlOf path) :
    (migrateBody cfg ft st path).1.fs q = none := by
  have e1 : (afterCopy cfg ft st path).1 q = none := by
    unfold afterCopy; rw [copyFile_other _ _ _ _ _ _ hg]; exact hq
  have e2 : (afterDecompress cfg ft st path).1 q = none := by
    unfold afterDecompress
    rw [decompressGzipFile_other _ _ _ _ _ _ _ hx]; exact e1
  have e3 : (afterProcess cfg ft st path).1.fs q = none := by
    unfold afterProcess
    exact processFile_none _ _ _ _ _ _ hrm q e2
  have e4 : (afterCompress cfg ft st path).1 q = none := by
    unfold afterCompress
    rw [compressGzipFile_other _ _ _ _ _ _ _ _ hg]; exact e3
  rcases migrateBody_cases cfg ft st path with ⟨_, h⟩ | ⟨_, _, h⟩ | ⟨_, _, _, h⟩ |
    ⟨_, _, m, _, _, h⟩ | ⟨_, _, _, _, _, h⟩ | ⟨_, _, _, _, _, _, h⟩ | ⟨a1, _, _, _, _, _, h⟩
  · rw [h]; exact e1
  · rw [h]; exact e2
  · rw [h]; exact e3
  · rw [h]; exact e3
  · rw [h]; exact e4
  · rw [h]; exact e4
  · rw [h]
    have hp : q ≠ path := by
      intro e
      obtain ⟨sf, hsf, _⟩ := copyFile_ok _ _ _ _ _ a1
      rw [e, hsf] at hq; cases hq
    simp only
    rw [osRename_other _ _ _ _ hg hp]; exact e4

/-- When every removal works, the callback leaves none of its temporaries
and no file where none was. -/
theorem migrateFile_clean (cfg : Config) (ft : Faults) (st : State) (path : Path)
    (h1 : ft.removeGzFail = false) (h2 : ft.removeXmlFail = false)
    (h3 : ft.proc.removeFail = false) :
    (migrateFile cfg ft st path).1.fs (tempGzOf path) = none ∧
    (migrateFile cfg ft st path).1.fs (tempXmlOf path) = none ∧
    ∀ q, st.fs q = none → (migrateFile cfg ft st path).1.fs q = none := by
  rw [migrateFile_fs, h1, h2]
  refine ⟨?_, osRemove_same _ _, ?_⟩
  · rw [osRemove_other _ _ _ _ (tempGz_ne_tempXml path)]
    exact osRemove_same _ _
  · intro q hq
    by_cases hx : q = tempXmlOf path
    · rw [hx]; exact osRemove_same _ _
    rw [osRemove_other _ _ _ _ hx]
    by_cases hg : q = tempGzOf path
    · rw [hg]; exact osRemove_same _ _
    rw [osRemove_other _ _ _ _ hg]
    exact migrateBody_none cfg ft st path q h3 hq hg hx

/-- Over a run in which every removal works, no file appears where none
was. -/
theorem migrateAll_none (cfg : Config) (cands : List (Path × Faults)) (st : State)
    (h : ∀ c ∈ cands, c.2.removeGzFail = false ∧ c.2.removeXmlFail = false ∧
      c.2.proc.removeFail = false) (q : Path) (hq : st.fs q = none) :
    (migrateAll cfg cands st).fs q = none := by
  induction cands generalizing st with
  | nil => exact hq
  | cons c rest ih =>
    obtain ⟨p, ft⟩ := c
    unfold migrateAll
    apply ih
    · intro c hc; exact h c (List.mem_cons_of_mem _ hc)
    · obtain ⟨h1, h2, h3⟩ := h (p, ft) (List.mem_cons_self _ _)
      exact (migrateFile_clean cfg ft st p h1 h2 h3).2.2 q hq

/-- Over a run in which every removal works, the two named temporaries of
every candidate are gone at the end. -/
theorem migrateAll_temps (cfg : Config) (cands : List (Path × Faults)) (st : State)
    (h : ∀ c ∈ cands, c.2.removeGzFail = false ∧ c.2.removeXmlFail = false ∧
      c.2.proc.removeFail = false) :
    ∀ c ∈ cands, (migrateAll cfg cands st).fs (tempGzOf c.1) = none ∧
      (migrateAll cfg cands st).fs (tempXmlOf c.1) = none := by
  induction cands generalizing st with
  | nil => intro c hc; cases hc
  | cons c0 rest ih =>
    obtain ⟨p, ft⟩ := c0
    have hrest : ∀ c ∈ rest, c.2.removeGzFail = false ∧ c.2.removeXmlFail = false ∧
        c.2.proc.removeFail = false := fun c hc => h c (List.mem_cons_of_mem _ hc)
    intro c hc
    unfold migrateAll
    rcases List.mem_cons.mp hc with e | hc'
    · subst e
      obtain ⟨h1, h2, h3⟩ := h (p, ft) (List.mem_cons_self _ _)
      obtain ⟨g1, g2, _⟩ := migrateFile_clean cfg ft st p h1 h2 h3
      exact ⟨migrateAll_none cfg rest _ hrest _ g1, migrateAll_none cfg rest _ hrest _ g2⟩
    · exact ih _ hrest c hc'

/-- The counter bounds kept by every step of a run. -/
theorem migrateAll_counters (cfg : Config) (cands : List (Path × Faults)) (st : State) :
    (migrateAll cfg cands st).cnt.filesModified + st.cnt.filesWithMatches ≤
      (migrateAll cfg cands st).cnt.filesWithMatches + st.cnt.filesModified ∧
    (migrateAll cfg cands st).cnt.filesWithMatches +
        (migrateAll cfg cands st).cnt.filesWithoutMatches ≤
      st.cnt.filesWithMatches + st.cnt.filesWithoutMatches + cands.length := by
  induction cands generalizing st with
  | nil => simp only [migrateAll, List.length_nil]; omega
  | cons c rest ih =>
    obtain ⟨p, ft⟩ := c
    unfold migrateAll
    obtain ⟨i1, i2⟩ := ih (migrateFile cfg ft st p).1
    obtain ⟨c1, c2, c3, _⟩ := migrateFile_counters cfg ft st p
    generalize (migrateFile cfg ft st p).2 = o at c1 c2 c3
    simp only [List.length_cons]
    cases o with
    | unchanged m => cases m <;> simp [counted] at c1 c2 c3 <;> omega
    | _ => simp [counted] at c1 c2 c3; omega

/-- Whether `processFile` returns an error or a flag depends on the bytes of
its source only, in dry-run mode. -/
theorem processFile_dry_data (ft : ProcFaults) (st st' : State) (src s r : Bytes)
    (h : (st'.fs src).map File.data = (st.fs src).map File.data) :
    (processFile true ft st' src s r).2 = (processFile true ft st src s r).2 := by
  rw [processFile_dry, processFile_dry]
  cases hs : st.fs src with
  | none =>
    rw [hs] at h
    cases hs' : st'.fs src with
    | none => rfl
    | some sf' => rw [hs'] at h; cases h
  | some sf =>
    rw [hs] at h
    cases hs' : st'.fs src with
    | none => rw [hs'] at h; cases h
    | some sf' =>
      rw [hs'] at h
      have hd : sf'.data = sf.data := by simpa using h
      dsimp only
      unfold procScan
      rw [hd]
      by_cases c : ft.openFail = true ∨ (scanLines maxTokenSize ft.readFail sf.data).2 = true
      · rw [if_pos c, if_pos c]
      · rw [if_neg c, if_neg c]

/-- Whether `copyFile` succeeds, from the faults and the presence of the
source. -/
theorem copyFile_snd (ft : StageFaults) (m : Nat) (fs : FS) (src dst : Path) :
    (copyFile ft m fs src dst).2 =
      ((fs src).isSome && !ft.openFail && !ft.createFail && ft.copyFail.isNone &&
        (ft.statFail || !ft.chmodFail)) := by
  unfold copyFile
  cases fs src with
  | none => rfl
  | some sf =>
    dsimp only
    rcases ft with ⟨o, c, cp, s, ch⟩
    cases o <;> cases c <;> cases cp <;> cases s <;> cases ch <;> rfl

/-- Whether `decompressGzipFile` succeeds, from the faults and the bytes of
the source. -/
theorem decompressGzipFile_snd (cd : Codec) (ft : StageFaults) (m : Nat) (fs : FS)
    (src dst : Path) :
    (decompressGzipFile cd ft m fs src dst).2 =
      match (fs src).map File.data with
      | none => false
      | some d =>
        (match cd.decompress d with
          | .ok _ => true
          | _ => false) &&
        !ft.openFail && !ft.createFail && ft.copyFail.isNone &&
          (ft.statFail || !ft.chmodFail) := by
  unfold decompressGzipFile
  cases fs src with
  | none => rfl
  | some sf =>
    dsimp only [Option.map]
    rcases ft with ⟨o, c, cp, s, ch⟩
    cases cd.decompress sf.data <;>
      cases o <;> cases c <;> cases cp <;> cases s <;> cases ch <;> rfl

/-- Which counter a candidate adds to, from the results of the stages. -/
theorem counted_eq (cfg : Config) (ft : Faults) (st : State) (path : Path) :
    counted (migrateFile cfg ft st path).2 =
      if (afterCopy cfg ft st path).2 = true ∧ (afterDecompress cfg ft st path).2 = true then
        (afterProcess cfg ft st path).2
      else none := by
  rw [migrateFile_outcome]
  rcases migrateBody_cases cfg ft st path with ⟨a1, h⟩ | ⟨a1, a2, h⟩ | ⟨a1, a2, a3, h⟩ |
    ⟨a1, a2, m, a3, _, h⟩ | ⟨a1, a2, a3, _, _, h⟩ | ⟨a1, a2, a3, _, _, _, h⟩ |
    ⟨a1, a2, a3, _, _, _, h⟩ <;>
  · rw [h]; simp [counted, *]

theorem tempFileName_ne_tempGz (p rnd : Bytes) :
    tempFileNameOf (tempXmlOf p) rnd ≠ tempGzOf p :=
  fun e => tempGz_ne_tempFileName p rnd e.symm

theorem tempFileName_ne_tempXml (p rnd : Bytes) :
    tempFileNameOf (tempXmlOf p) rnd ≠ tempXmlOf p :=
  fun e => ne_tempFileName (tempXmlOf p) rnd e.symm

/-- A candidate is counted in a dry run as it is in a normal run, when the
calls made in normal mode only succeed and the temporary name is free. -/
theorem counted_agree (cfg : Config) (ft : Faults) (stD stN : State) (path : Path)
    (hdata : (stD.fs path).map File.data = (stN.fs path).map File.data)
    (hq : ft.proc.writeQuiet)
    (hfresh : stN.fs (tempFileNameOf (tempXmlOf path) ft.proc.tempRnd) = none) :
    counted (migrateFile (cfg.dry true) ft stD path).2 =
      counted (migrateFile (cfg.dry false) ft stN path).2 := by
  rw [counted_eq, counted_eq]
  have h1 : (afterCopy (cfg.dry true) ft stD path).2 = (afterCopy (cfg.dry false) ft stN path).2 := by
    unfold afterCopy
    rw [copyFile_snd, copyFile_snd]
    have : (stD.fs path).isSome = (stN.fs path).isSome := by
      have := congrArg Option.isSome hdata
      simpa using this
    rw [this]
  by_cases c1 : (afterCopy (cfg.dry false) ft stN path).2 = true
  swap
  · have c1' : ¬ (afterCopy (cfg.dry true) ft stD path).2 = true := by rw [h1]; exact c1
    simp [c1, c1']
  have c1' : (afterCopy (cfg.dry true) ft stD path).2 = true := by rw [h1]; exact c1
  obtain ⟨sfN, hsN, hgN⟩ := copyFile_ok _ _ _ _ _ c1
  obtain ⟨sfD, hsD, hgD⟩ := copyFile_ok _ _ _ _ _ c1'
  have hsf : sfD.data = sfN.data := by
    rw [hsN, hsD] at hdata; simpa using hdata
  have h2 : (afterDecompress (cfg.dry true) ft stD path).2 =
      (afterDecompress (cfg.dry false) ft stN path).2 := by
    unfold afterDecompress
    rw [decompressGzipFile_snd, decompressGzipFile_snd]
    unfold afterCopy
    rw [hgN, hgD]
    simp [hsf, Config.dry]
  by_cases c2 : (afterDecompress (cfg.dry false) ft stN path).2 = true
  swap
  · have c2' : ¬ (afterDecompress (cfg.dry true) ft stD path).2 = true := by rw [h2]; exact c2
    simp [c2, c2']
  have c2' : (afterDecompress (cfg.dry true) ft stD path).2 = true := by rw [h2]; exact c2
  rw [if_pos ⟨c1', c2'⟩, if_pos ⟨c1, c2⟩]
  obtain ⟨gN, pN, hgN', hpN, hxN⟩ := decompressGzipFile_ok _ _ _ _ _ _ c2
  obtain ⟨gD, pD, hgD', hpD, hxD⟩ := decompressGzipFile_ok _ _ _ _ _ _ c2'
  have hgN2 : gN.data = sfN.data := by
    have := hgN'.symm.trans hgN; simpa using congrArg File.data (Option.some.inj this)
  have hgD2 : gD.data = sfD.data := by
    have := hgD'.symm.trans hgD; simpa using congrArg File.data (Option.some.inj this)
  have hpay : pD = pN := by
    have e : cfg.codec.decompress gD.data = cfg.codec.decompress gN.data := by
      rw [hgD2, hgN2, hsf]
    have hpD' : cfg.codec.decompress gD.data = .ok pD := hpD
    have hpN' : cfg.codec.decompress gN.data = .ok pN := hpN
    rw [hpD', hpN'] at e
    exact Gunzip.ok.inj e
  have hfreshN : (afterDecompress (cfg.dry false) ft stN path).1
      (tempFileNameOf (tempXmlOf path) ft.proc.tempRnd) = none := by
    unfold afterDecompress afterCopy
    rw [decompressGzipFile_other _ _ _ _ _ _ _ (tempFileName_ne_tempXml _ _),
      copyFile_other _ _ _ _ _ _ (tempFileName_ne_tempGz _ _)]
    exact hfresh
  unfold afterProcess
  have e1 := processFile_agree ft.proc
    { fs := (afterDecompress (cfg.dry false) ft stN path).1, cnt := stN.cnt }
    { fs := (afterDecompress (cfg.dry false) ft stN path).1, cnt := stN.cnt }
    (tempXmlOf path) cfg.replaceVal cfg.withVal hq hfreshN rfl
  have e2 := processFile_dry_data ft.proc
    { fs := (afterDecompress (cfg.dry false) ft stN path).1, cnt := stN.cnt }
    { fs := (afterDecompress (cfg.dry true) ft stD path).1, cnt := stD.cnt }
    (tempXmlOf path) cfg.replaceVal cfg.withVal (by
      show Option.map File.data ((afterDecompress (cfg.dry true) ft stD path).1 (tempXmlOf path))
        = Option.map File.data ((afterDecompress (cfg.dry false) ft stN path).1 (tempXmlOf path))
      rw [show (afterDecompress (cfg.dry false) ft stN path).1 (tempXmlOf path) = _ from hxN,
        show (afterDecompress (cfg.dry true) ft stD path).1 (tempXmlOf path) = _ from hxD]
      simp [hpay])
  show (processFile true _ _ _ _ _).2 = (processFile false _ _ _ _ _).2
  exact e2.trans e1.symm

/-- In a dry run the callback never ends in `updated`, and touches the two
named temporaries only. -/
theorem migrateFile_dry (cfg : Config) (ft : Faults) (st : State) (path : Path)
    (hd : cfg.dryRun = true) :
    (migrateFile cfg ft st path).2 ≠ .updated ∧
    ∀ q, q ≠ tempGzOf path → q ≠ tempXmlOf path →
      (migrateFile cfg ft st path).1.fs q = st.fs q := by
  have e1 : ∀ q, q ≠ tempGzOf path → (afterCopy cfg ft st path).1 q = st.fs q :=
    fun q hg => copyFile_other _ _ _ _ _ _ hg
  have e2 : ∀ q, q ≠ tempGzOf path → q ≠ tempXmlOf path →
      (afterDecompress cfg ft st path).1 q = st.fs q := by
    intro q hg hx
    unfold afterDecompress
    rw [decompressGzipFile_other _ _ _ _ _ _ _ hx]; exact e1 q hg
  have e3 : (afterProcess cfg ft st path).1.fs = (afterDecompress cfg ft st path).1 := by
    unfold afterProcess
    rw [hd]
    exact processFile_dry_fs _ _ _ _ _
  rw [migrateFile_outcome]
  rcases migrateBody_cases cfg ft st path with ⟨_, h⟩ | ⟨_, _, h⟩ | ⟨_, _, _, h⟩ |
    ⟨_, _, m, _, _, h⟩ | ⟨_, _, _, a4, _, h⟩ | ⟨_, _, _, a4, _, _, h⟩ |
    ⟨_, _, _, a4, _, _, h⟩
  · refine ⟨by rw [h]; simp, fun q hg hx => ?_⟩
    rw [migrateFile_fs, osRemove_other _ _ _ _ hx, osRemove_other _ _ _ _ hg, h]
    exact e1 q hg
  · refine ⟨by rw [h]; simp, fun q hg hx => ?_⟩
    rw [migrateFile_fs, osRemove_other _ _ _ _ hx, osRemove_other _ _ _ _ hg, h]
    exact e2 q hg hx
  · refine ⟨by rw [h]; simp, fun q hg hx => ?_⟩
    rw [migrateFile_fs, osRemove_other _ _ _ _ hx, osRemove_other _ _ _ _ hg, h]
    simp only
    rw [e3]; exact e2 q hg hx
  · refine ⟨by rw [h]; simp, fun q hg hx => ?_⟩
    rw [migrateFile_fs, osRemove_other _ _ _ _ hx, osRemove_other _ _ _ _ hg, h]
    simp only
    rw [e3]; exact e2 q hg hx
  · rw [hd] at a4; cases a4
  · rw [hd] at a4; cases a4
  · rw [hd] at a4; cases a4

/-- A dry run leaves every path that is not a named temporary of one of the
candidates as it was, and `filesModified` as it was. -/
theorem migrateAll_dry (cfg : Config) (hd : cfg.dryRun = true)
    (cands : List (Path × Faults)) (st : State) :
    (migrateAll cfg cands st).cnt.filesModified = st.cnt.filesModified ∧
    ∀ q, (∀ c ∈ cands, q ≠ tempGzOf c.1 ∧ q ≠ tempXmlOf c.1) →
      (migrateAll cfg cands st).fs q = st.fs q := by
  induction cands generalizing st with
  | nil => exact ⟨rfl, fun _ _ => rfl⟩
  | cons c rest ih =>
    obtain ⟨p, ft⟩ := c
    unfold migrateAll
    obtain ⟨i1, i2⟩ := ih (migrateFile cfg ft st p).1
    obtain ⟨d1, d2⟩ := migrateFile_dry cfg ft st p hd
    obtain ⟨_, _, c3, _⟩ := migrateFile_counters cfg ft st p
    constructor
    · rw [i1, c3, if_neg d1]; rfl
    · intro q hq
      rw [i2 q (fun c hc => hq c (List.mem_cons_of_mem _ hc))]
      obtain ⟨g, x⟩ := hq (p, ft) (List.mem_cons_self _ _)
      exact d2 q g x

/-- Dry and normal runs over the same candidates count the same files with
and without matches, from states that agree on the candidates. -/
theorem migrateAll_agree (cfg : Config) (cands : List (Path × Faults)) (stD stN : State)
    (hsep : Separated cands)
    (hquiet : ∀ c ∈ cands, c.2.proc.writeQuiet)
    (hfs : ∀ c ∈ cands, stD.fs c.1 = stN.fs c.1 ∧ stN.fs (procTempOf c) = none)
    (hw : stD.cnt.filesWithMatches = stN.cnt.filesWithMatches)
    (hwo : stD.cnt.filesWithoutMatches = stN.cnt.filesWithoutMatches) :
    (migrateAll (cfg.dry true) cands stD).cnt.filesWithMatches =
      (migrateAll (cfg.dry false) cands stN).cnt.filesWithMatches ∧
    (migrateAll (cfg.dry true) cands stD).cnt.filesWithoutMatches =
      (migrateAll (cfg.dry false) cands stN).cnt.filesWithoutMatches := by
  induction cands generalizing stD stN with
  | nil => exact ⟨hw, hwo⟩
  | cons c rest ih =>
    obtain ⟨p, ft⟩ := c
    obtain ⟨hnd, hs1, hs2⟩ := hsep
    unfold migrateAll
    have hmem : (p, ft) ∈ (p, ft) :: rest := List.mem_cons_self _ _
    obtain ⟨hf1, hf2⟩ := hfs (p, ft) hmem
    have hcount := counted_agree cfg ft stD stN p (by rw [hf1]) (hquiet _ hmem) hf2
    obtain ⟨cD1, cD2, _, _⟩ := migrateFile_counters (cfg.dry true) ft stD p
    obtain ⟨cN1, cN2, _, _⟩ := migrateFile_counters (cfg.dry false) ft stN p
    have hnd' : (rest.map Prod.fst).Nodup := (List.nodup_cons.mp hnd).2
    have hp : ∀ d ∈ rest, d.1 ≠ p := by
      intro d hd e
      exact (List.nodup_cons.mp hnd).1 (List.mem_map.mpr ⟨d, hd, e⟩)
    apply ih
    · exact ⟨hnd', fun c hc d hd => hs1 c (List.mem_cons_of_mem _ hc) d (List.mem_cons_of_mem _ hd),
        fun c hc d hd => hs2 c (List.mem_cons_of_mem _ hc) d (List.mem_cons_of_mem _ hd)⟩
    · intro c hc; exact hquiet c (List.mem_cons_of_mem _ hc)
    · intro d hd
      have hdm : d ∈ (p, ft) :: rest := List.mem_cons_of_mem _ hd
      obtain ⟨s1, s2, s3⟩ := hs1 (p, ft) hmem d hdm
      obtain ⟨t1, t2, t3⟩ := hs2 (p, ft) hmem d hdm (fun e => hp d hd e.symm)
      obtain ⟨_, _, s3'⟩ := hs1 d hdm (p, ft) hmem
      obtain ⟨g1, g2⟩ := hfs d hdm
      constructor
      · rw [migrateFile_frame _ _ _ _ _ (hp d hd) s1 s2 s3,
          migrateFile_frame _ _ _ _ _ (hp d hd) s1 s2 s3]
        exact g1
      · rw [migrateFile_frame _ _ _ _ _ (fun e => s3' e.symm) t1 t2 t3]
        exact g2
    · rw [cD1, cN1, hcount, hw]
    · rw [cD2, cN2, hcount, hwo]

/-! ### Candidates and temporaries do not collide -/

theorem extScan_append (w q acc : Bytes) (hw : ∀ b ∈ w, b ≠ dot ∧ b ≠ pathSeparator) :
    extScan (w ++ dot :: q) acc = dot :: (w.reverse ++ acc) := by
  induction w generalizing acc with
  | nil => simp [extScan, dot, pathSeparator]
  | cons c w ih =>
    obtain ⟨h1, h2⟩ := hw c (List.mem_cons_self _ _)
    rw [List.cons_append, extScan, if_neg h2, if_neg h1,
      ih (c :: acc) (fun b hb => hw b (List.mem_cons_of_mem _ hb))]
    simp

/-- The extension of a path that ends in a dot and a word free of dots and
separators is that dot and word. -/
theorem Ext_append (p w : Bytes) (hw : ∀ b ∈ w, b ≠ dot ∧ b ≠ pathSeparator) :
    Ext (p ++ dot :: w) = dot :: w := by
  unfold Ext
  rw [List.reverse_append, List.reverse_cons, List.append_assoc, List.singleton_append,
    extScan_append w.reverse p.reverse [] (fun b hb => hw b (List.mem_reverse.mp hb))]
  simp

theorem Ext_tempGz (p : Path) : Ext (tempGzOf p) = ascii ".gz" := by
  have e : tempGzOf p = (p ++ ascii ".tmp") ++ dot :: ascii "gz" := by
    unfold tempGzOf
    rw [List.append_assoc]
    rfl
  rw [e, Ext_append _ _ (by decide)]
  rfl

theorem Ext_tempXml (p : Path) : Ext (tempXmlOf p) = ascii ".xml" := by
  have e : tempXmlOf p = (p ++ ascii ".tmp") ++ dot :: ascii "xml" := by
    unfold tempXmlOf
    rw [List.append_assoc]
    rfl
  rw [e, Ext_append _ _ (by decide)]
  rfl

theorem Ext_procTemp (p rnd : Bytes) (hrnd : ∀ b ∈ rnd, 48 ≤ b ∧ b ≤ 57) :
    Ext (tempFileNameOf (tempXmlOf p) rnd) = dot :: (ascii "tmp-" ++ rnd) := by
  have e : tempFileNameOf (tempXmlOf p) rnd = (tempXmlOf p) ++ dot :: (ascii "tmp-" ++ rnd) := by
    unfold tempFileNameOf
    rw [List.append_assoc]
    rfl
  rw [e]
  apply Ext_append
  intro b hb
  rcases List.mem_append.mp hb with h | h
  · have hall : ∀ x ∈ ascii "tmp-", x ≠ dot ∧ x ≠ pathSeparator := by decide
    exact hall b h
  · obtain ⟨h1, h2⟩ := hrnd b h
    unfold dot pathSeparator
    omega

theorem not_project_tempGz (uf : Bytes → Bytes → Bool) (p : Path) :
    isProjectFile uf (tempGzOf p) = false := by
  unfold isProjectFile
  rw [Ext_tempGz]
  rfl

theorem not_project_tempXml (uf : Bytes → Bytes → Bool) (p : Path) :
    isProjectFile uf (tempXmlOf p) = false := by
  unfold isProjectFile
  rw [Ext_tempXml]
  rfl

theorem not_project_procTemp (uf : Bytes → Bytes → Bool) (p rnd : Bytes)
    (hrnd : ∀ b ∈ rnd, 48 ≤ b ∧ b ≤ 57) :
    isProjectFile uf (tempFileNameOf (tempXmlOf p) rnd) = false := by
  unfold isProjectFile
  rw [Ext_procTemp p rnd hrnd]
  rfl

/-- Distinct paths that pass the extension test of the walk, processed with
decimal random suffixes, are separated. -/
theorem separated_of_walk (uf : Bytes → Bytes → Bool) (cands : List (Path × Faults))
    (hdistinct : (cands.map Prod.fst).Nodup)
    (hfilter : ∀ c ∈ cands, isProjectFile uf c.1 = true)
    (hrnd : ∀ c ∈ cands, ∀ b ∈ c.2.proc.tempRnd, 48 ≤ b ∧ b ≤ 57) :
    Separated cands := by
  refine ⟨hdistinct, fun c hc d hd => ⟨?_, ?_, ?_⟩, fun c hc d hd hne => ⟨?_, ?_, ?_⟩⟩
  · intro e
    have := hfilter d hd
    rw [e, not_project_tempGz] at this
    cases this
  · intro e
    have := hfilter d hd
    rw [e, not_project_tempXml] at this
    cases this
  · intro e
    have := hfilter d hd
    unfold procTempOf at e
    rw [e, not_project_procTemp uf _ _ (hrnd c hc)] at this
    cases this
  · intro e
    have := congrArg Ext e
    unfold procTempOf at this
    rw [Ext_procTemp _ _ (hrnd d hd), Ext_tempGz] at this
    revert this
    simp [dot, ascii]
  · intro e
    have := congrArg Ext e
    unfold procTempOf at this
    rw [Ext_procTemp _ _ (hrnd d hd), Ext_tempXml] at this
    revert this
    simp [dot, ascii]
  · intro e
    have h := congrArg Ext e
    unfold procTempOf at h e
    rw [Ext_procTemp _ _ (hrnd d hd), Ext_procTemp _ _ (hrnd c hc)] at h
    have hr : d.2.proc.tempRnd = c.2.proc.tempRnd :=
      List.append_cancel_left (List.cons.inj h).2
    unfold tempFileNameOf tempXmlOf at e
    rw [hr] at e
    have := List.append_cancel_right (List.append_cancel_right (List.append_cancel_right e))
    exact hne this.symm

/-! ## Lemmas: what a candidate ends up holding -/

/-- In normal mode, when `processFile` returns without error, `linesModified`
has grown by the number of scanned lines that contain the search text. -/
theorem processFile_some_lines (ft : ProcFaults) (st : State) (src s r : Bytes) (m : Bool)
    (sf : File) (hs : st.fs src = some sf)
    (h : (processFile false ft st src s r).2 = some m) :
    (processFile false ft st src s r).1.cnt.linesModified =
      st.cnt.linesModified + (procScan ft sf).1.countP (fun l => Contains l s) := by
  rcases processFile_cases ft st src s r sf hs with h1 | ⟨_, fsx, hW, h1⟩ |
    ⟨_, hl, hsc, hf, fsx, hW, h1⟩ | ⟨_, hl, hsc, hf, fsx, hW, hx, h1⟩
  · rw [h1] at h; cases h
  · rw [h1] at h; cases h
  · rw [h1]
    obtain ⟨_, o2⟩ := processLines_done_out s r ft.writeFail (procScan ft sf).1 _ hl
    simp only [countFile, procCnt, procLoop, Bool.false_eq_true, if_false]
    rw [o2]
  · rw [h1]
    obtain ⟨_, o2⟩ := processLines_done_out s r ft.writeFail (procScan ft sf).1 _ hl
    simp only [countFile, procCnt, procLoop, if_true]
    rw [o2]

/-- A second `processFile` over lines none of which contains the search
text never reports a match, whatever its mode and its faults. -/
theorem processFile_no_match (dry : Bool) (ft : ProcFaults) (st : State) (src s r : Bytes)
    (hs : s ≠ []) (xs : List Bytes) (hxs : ∀ x ∈ xs, Contains x s = false)
    (hdata : (st.fs src).map File.data = some (xs.flatMap (fun x => x ++ [LF]))) :
    (processFile dry ft st src s r).2 ≠ some true := by
  intro h
  obtain ⟨sf, hsf, _, hany⟩ := processFile_result dry ft st src s r true h
  rw [hsf] at hdata
  have hd : sf.data = xs.flatMap (fun x => x ++ [LF]) := by simpa using hdata
  have := hany.symm
  rw [List.any_eq_true] at this
  obtain ⟨t, ht, hc⟩ := this
  unfold procScan at ht
  obtain ⟨t1, t2⟩ := scanLines_token _ _ _ _ ht
  rw [hd] at t2
  rw [Contains_iff] at hc
  rcases infix_lines (fun x => x) xs t t1 t2 with e | ⟨x, hx, e⟩
  · rw [e] at hc
    exact hs (List.infix_nil.mp hc)
  · have := hxs x hx
    rw [Contains_false_iff] at this
    exact this (hc.trans e)

/-- When search text and replacement do not overlap, no line that
`processFile` writes contains the search text. -/
theorem lineOut_free (s r : Bytes) (h : overlapFree s r = true) (l : Bytes) :
    Contains (if Contains l s then ReplaceAll l s r else l) s = false := by
  by_cases hc : Contains l s = true
  · rw [if_pos hc]; exact ReplaceAll_free s r h l
  · rw [if_neg hc]; simpa using hc

/-- The lines `processFile` writes, as LF-terminated pieces. -/
theorem flatMap_lineOut (s r : Bytes) (lines : List Bytes) :
    lines.flatMap (lineOut s r) =
      (lines.map (fun l => if Contains l s then ReplaceAll l s r else l)).flatMap
        (fun x => x ++ [LF]) := by
  induction lines with
  | nil => rfl
  | cons l rest ih => simp [List.flatMap_cons, lineOut, ih]

/-- When the callback ends in `updated`, the candidate holds the compressed
rewritten payload, and the mode of the old candidate if every `os.Stat`
worked. -/
theorem migrateFile_updated_file (cfg : Config) (ft : Faults) (st : State) (path : Path)
    (h : (migrateFile cfg ft st path).2 = .updated) :
    ∃ sf payload f, st.fs path = some sf ∧ cfg.codec.decompress sf.data = .ok payload ∧
      (scanLines maxTokenSize ft.proc.readFail payload).2 = false ∧
      (migrateFile cfg ft st path).1.fs path = some f ∧
      f.data = gzOutput cfg.codec ft.gzCloseFail
        ((scanLines maxTokenSize ft.proc.readFail payload).1.flatMap
          (lineOut cfg.replaceVal cfg.withVal)) ∧
      (ft.copy.statFail = false →
        (ft.compress.statFail = false →
          ft.decompress.statFail = false ∧ ft.proc.statFail = false) → f.mode = sf.mode) := by
  obtain ⟨a1, a2, a3, a4, a5, _, f, hf, hfinal⟩ := migrateFile_updated cfg ft st path h
  obtain ⟨sf, hsf, hg⟩ := copyFile_ok _ _ _ _ _ a1
  obtain ⟨g, payload, hg', hpay, hx⟩ := decompressGzipFile_ok _ _ _ _ _ _ a2
  have hgeq : g = File.mk sf.data
      (if ft.copy.statFail then createdMode cfg.createMode st.fs (tempGzOf path)
        else sf.mode) := Option.some.inj (hg'.symm.trans hg)
  have a3' : (processFile false ft.proc
      { fs := (afterDecompress cfg ft st path).1, cnt := st.cnt } (tempXmlOf path)
      cfg.replaceVal cfg.withVal).2 = some true := by
    have := a3
    unfold afterProcess at this
    rw [a4] at this
    exact this
  obtain ⟨sf2, hsf2, hx3, _⟩ := processFile_true_fs _ _ _ _ _ a3'
  obtain ⟨sf2', hsf2', hscan, _⟩ := processFile_result _ _ _ _ _ _ _ a3'
  have hsf2eq : sf2 = File.mk payload
      (if ft.decompress.statFail then
          createdMode cfg.createMode (afterCopy cfg ft st path).1 (tempXmlOf path)
        else g.mode) := Option.some.inj (hsf2.symm.trans hx)
  have hsame : sf2' = sf2 := Option.some.inj (hsf2'.symm.trans hsf2)
  obtain ⟨sf3, hsf3, hz⟩ := compressGzipFile_ok _ _ _ _ _ _ _ a5
  have hsf3eq : sf3 = File.mk
      ((procScan ft.proc sf2).1.flatMap (lineOut cfg.replaceVal cfg.withVal))
      (if ft.proc.statFail then 0o600 else sf2.mode) := by
    have e : (afterProcess cfg ft st path).1.fs (tempXmlOf path) = some sf3 := hsf3
    unfold afterProcess at e
    rw [a4, hx3] at e
    exact (Option.some.inj e).symm
  have hfeq : f = File.mk (gzOutput cfg.codec ft.gzCloseFail sf3.data)
      (if ft.compress.statFail then
          createdMode cfg.createMode (afterProcess cfg ft st path).1.fs (tempGzOf path)
        else sf3.mode) := by
    have e : (afterCompress cfg ft st path).1 (tempGzOf path) = some f := hf
    unfold afterCompress at e
    rw [hz] at e
    exact (Option.some.inj e).symm
  refine ⟨sf, payload, f, hsf, ?_, ?_, hfinal, ?_, ?_⟩
  · rw [hgeq] at hpay; exact hpay
  · rw [hsame, hsf2eq] at hscan; exact hscan
  · rw [hfeq, hsf3eq, hsf2eq]; rfl
  · intro s1 s234
    cases s4 : ft.compress.statFail with
    | false =>
      obtain ⟨s2, s3⟩ := s234 s4
      rw [hfeq, hsf3eq, hsf2eq, hgeq]
      simp [s1, s2, s3, s4]
    | true =>
      have hgz : (afterProcess cfg ft st path).1.fs (tempGzOf path) = some g := by
        unfold afterProcess
        rw [processFile_other _ _ _ _ _ _ _ (tempGz_ne_tempXml path)
          (tempGz_ne_tempFileName path _)]
        show (afterDecompress cfg ft st path).1 (tempGzOf path) = some g
        unfold afterDecompress
        rw [decompressGzipFile_other _ _ _ _ _ _ _ (tempGz_ne_tempXml path)]
        exact hg'
      rw [hfeq]
      simp only [s4, if_true]
      unfold createdMode
      rw [hgz, hgeq]
      simp [s1]

/-- In normal mode, when the calls succeed, `linesModified` has grown by the
number of delivered lines that contain the search text, also when the scanner
ends on an error. -/
theorem processFile_quiet_lines (ft : ProcFaults) (st : State) (src s r : Bytes) (sf : File)
    (hsrc : st.fs src = some sf) (hopen : ft.openFail = false) (hq : ft.writeQuiet)
    (hfresh : st.fs (tempFileNameOf src ft.tempRnd) = none) :
    (processFile false ft st src s r).1.cnt.linesModified =
      st.cnt.linesModified + (procScan ft sf).1.countP (fun l => Contains l s) ∧
    (processFile false ft st src s r).2 =
      if (procScan ft sf).2 = true then none
      else some ((procScan ft sf).1.any (fun l => Contains l s)) := by
  obtain ⟨q1, q2, q3, q4, q5, q6⟩ := hq
  have hl := processLines_write s r (procScan ft sf).1
    { out := [], writes := 0, found := false, lines := st.cnt.linesModified }
  unfold processFile
  rw [hsrc]
  dsimp only
  rw [q2]
  unfold procScan at hl ⊢
  rw [hl]
  generalize scanLines maxTokenSize ft.readFail sf.data = sc
  simp only [Bool.false_or]
  generalize sc.1.any (fun l => Contains l s) = b
  by_cases c4 : sc.2 = true
  · simp [hopen, c4, q1, hfresh]
  · cases b <;> simp [hopen, c4, q1, q3, q4, q5, q6, hfresh, countFile]

/-! ## Lemmas: symbolic links among the candidates -/

/-- Following links depends only on the links under the paths looked at. -/
theorem followLinks_congr (l l1 : Path → Option Path) : ∀ (n : Nat) (p : Path),
    (∀ q ∈ linkPath l n p, l1 q = l q) → followLinks l1 n p = followLinks l n p := by
  intro n
  induction n with
  | zero =>
    intro p h
    have hp : l1 p = l p := h p (by simp [linkPath])
    simp only [followLinks, hp]
  | succ n ih =>
    intro p h
    have hp : l1 p = l p := by
      apply h
      unfold linkPath
      cases l p <;> simp
    unfold followLinks
    rw [hp]
    cases ht : l p with
    | none => rfl
    | some t =>
      simp only
      apply ih
      intro q hq
      apply h
      unfold linkPath
      rw [ht]
      exact List.mem_cons_of_mem _ hq

/-- The path that the links lead to is one of the paths looked at. -/
theorem followLinks_mem (l : Path → Option Path) : ∀ (n : Nat) (p q : Path),
    followLinks l n p = some q → q ∈ linkPath l n p := by
  intro n
  induction n with
  | zero =>
    intro p q h
    unfold followLinks at h
    cases ht : l p with
    | none => rw [ht] at h; cases h; simp [linkPath]
    | some t => rw [ht] at h; cases h
  | succ n ih =>
    intro p q h
    unfold followLinks at h
    unfold linkPath
    cases ht : l p with
    | none => rw [ht] at h; cases h; simp
    | some t =>
      rw [ht] at h
      exact List.mem_cons_of_mem _ (ih t q h)

/-- Where no link is under `p`, `os.Open(p)` finds what is under `p`. -/
theorem opened_regular (st : LinkState) (path : Path) (h : st.links path = none) :
    st.opened path = st.fs path := by
  unfold LinkState.opened
  have e : followLinks st.links maxSymlinks path = some path := by
    unfold maxSymlinks followLinks
    rw [h]
  rw [e]
  simp only
  cases hf : st.fs path with
  | none => rfl
  | some f => simp only; rw [if_neg (path_ne_tempGz path)]

/-- Two trees that have the same links and the same files under the paths
looked at from `path` give `os.Open(path)` the same file. -/
theorem opened_congr (l : Path → Option Path) (stD stN : LinkState) (path : Path)
    (h : ∀ q ∈ linkPath l maxSymlinks path,
      stD.links q = l q ∧ stN.links q = l q ∧ stD.fs q = stN.fs q) :
    stD.opened path = stN.opened path := by
  have eD := followLinks_congr l stD.links maxSymlinks path (fun q hq => (h q hq).1)
  have eN := followLinks_congr l stN.links maxSymlinks path (fun q hq => (h q hq).2.1)
  unfold LinkState.opened
  rw [eD, eN]
  cases hq : followLinks l maxSymlinks path with
  | none => rfl
  | some q =>
    simp only
    rw [(h q (followLinks_mem l _ _ _ hq)).2.2]

theorem seen_path (st : LinkState) (path : Path) : st.seen path path = st.opened path := by
  unfold LinkState.seen
  rw [if_pos rfl]

theorem seen_other (st : LinkState) (path q : Path) (h : q ≠ path) :
    st.seen path q = st.fs q := by
  unfold LinkState.seen
  rw [if_neg h]

theorem seen_regular (st : LinkState) (path : Path) (h : st.links path = none) :
    st.seen path = st.fs := by
  funext q
  by_cases e : q = path
  · rw [e, seen_path, opened_regular st path h]
  · exact seen_other st path q e

theorem linked_outcome (cfg : Config) (ft : Faults) (st : LinkState) (path : Path) :
    (Links.migrateFile cfg ft st path).2 =
      (migrateFile cfg ft { fs := st.seen path, cnt := st.cnt } path).2 := by
  unfold Links.migrateFile
  simp only
  split <;> rfl

theorem linked_cnt (cfg : Config) (ft : Faults) (st : LinkState) (path : Path) :
    (Links.migrateFile cfg ft st path).1.cnt =
      (migrateFile cfg ft { fs := st.seen path, cnt := st.cnt } path).1.cnt := by
  unfold Links.migrateFile
  simp only
  split <;> rfl

/-- The callback changes no link but, when it ends in `updated`, the one
under the candidate path. -/
theorem linked_links (cfg : Config) (ft : Faults) (st : LinkState) (path : Path) :
    (∀ q, q ≠ path → (Links.migrateFile cfg ft st path).1.links q = st.links q) ∧
    ((Links.migrateFile cfg ft st path).2 ≠ .updated →
      (Links.migrateFile cfg ft st path).1.links = st.links) := by
  unfold Links.migrateFile
  simp only
  split
  · rename_i hu
    exact ⟨fun q hq => by simp only; rw [if_neg hq], fun hn => absurd hu hn⟩
  · exact ⟨fun _ _ => rfl, fun _ => rfl⟩

/-- What the callback leaves under a path other than the candidate is what
the callback on the regular files leaves there. -/
theorem linked_fs_other (cfg : Config) (ft : Faults) (st : LinkState) (path q : Path)
    (hq : q ≠ path) :
    (Links.migrateFile cfg ft st path).1.fs q =
      (migrateFile cfg ft { fs := st.seen path, cnt := st.cnt } path).1.fs q := by
  unfold Links.migrateFile
  simp only
  split
  · rfl
  · simp only; rw [if_neg hq]

/-- When the callback does not end in `updated`, what is under the candidate
path stays. -/
theorem linked_fs_path (cfg : Config) (ft : Faults) (st : LinkState) (path : Path)
    (h : (Links.migrateFile cfg ft st path).2 ≠ .updated) :
    (Links.migrateFile cfg ft st path).1.fs path = st.fs path := by
  rw [linked_outcome] at h
  unfold Links.migrateFile
  simp only
  rw [if_neg h]
  simp

/-- A path that is neither the candidate nor one of its three temporaries
is not touched by the callback. -/
theorem linked_frame (cfg : Config) (ft : Faults) (st : LinkState) (path q : Path)
    (hp : q ≠ path) (hg : q ≠ tempGzOf path) (hx : q ≠ tempXmlOf path)
    (ht : q ≠ tempFileNameOf (tempXmlOf path) ft.proc.tempRnd) :
    (Links.migrateFile cfg ft st path).1.fs q = st.fs q := by
  rw [linked_fs_other _ _ _ _ _ hp, migrateFile_frame _ _ _ _ _ hp hg hx ht]
  exact seen_other st path q hp

/-- In a dry run the callback never ends in `updated`, changes no link, and
touches the two named temporaries only. -/
theorem linked_dry (cfg : Config) (ft : Faults) (st : LinkState) (path : Path)
    (hd : cfg.dryRun = true) :
    (Links.migrateFile cfg ft st path).2 ≠ .updated ∧
    (Links.migrateFile cfg ft st path).1.links = st.links ∧
    ∀ q, q ≠ tempGzOf path → q ≠ tempXmlOf path →
      (Links.migrateFile cfg ft st path).1.fs q = st.fs q := by
  obtain ⟨d1, d2⟩ := migrateFile_dry cfg ft { fs := st.seen path, cnt := st.cnt } path hd
  have hu : (Links.migrateFile cfg ft st path).2 ≠ .updated := by
    rw [linked_outcome]; exact d1
  refine ⟨hu, (linked_links cfg ft st path).2 hu, fun q hg hx => ?_⟩
  by_cases e : q = path
  · rw [e]; exact linked_fs_path cfg ft st path hu
  · rw [linked_fs_other _ _ _ _ _ e, d2 q hg hx]
    exact seen_other st path q e

/-- The counters after the callback. -/
theorem linked_counters (cfg : Config) (ft : Faults) (st : LinkState) (path : Path) :
    (Links.migrateFile cfg ft st path).1.cnt.filesWithMatches =
      st.cnt.filesWithMatches +
        (if counted (Links.migrateFile cfg ft st path).2 = some true then 1 else 0) ∧
    (Links.migrateFile cfg ft st path).1.cnt.filesWithoutMatches =
      st.cnt.filesWithoutMatches +
        (if counted (Links.migrateFile cfg ft st path).2 = some false then 1 else 0) ∧
    (Links.migrateFile cfg ft st path).1.cnt.filesModified =
      st.cnt.filesModified +
        (if (Links.migrateFile cfg ft st path).2 = .updated then 1 else 0) := by
  rw [linked_cnt, linked_outcome]
  obtain ⟨c1, c2, c3, _⟩ :=
    migrateFile_counters cfg ft { fs := st.seen path, cnt := st.cnt } path
  exact ⟨c1, c2, c3⟩

/-- A dry run leaves every path that is not a named temporary of one of the
candidates as it was, every link as it was, and `filesModified` as it was. -/
theorem linked_all_dry (cfg : Config) (hd : cfg.dryRun = true)
    (cands : List (Path × Faults)) (st : LinkState) :
    (Links.migrateAll cfg cands st).cnt.filesModified = st.cnt.filesModified ∧
    (Links.migrateAll cfg cands st).links = st.links ∧
    ∀ q, (∀ c ∈ cands, q ≠ tempGzOf c.1 ∧ q ≠ tempXmlOf c.1) →
      (Links.migrateAll cfg cands st).fs q = st.fs q := by
  induction cands generalizing st with
  | nil => exact ⟨rfl, rfl, fun _ _ => rfl⟩
  | cons c rest ih =>
    obtain ⟨p, ft⟩ := c
    unfold Links.migrateAll
    obtain ⟨i1, i2, i3⟩ := ih (Links.migrateFile cfg ft st p).1
    obtain ⟨d1, d2, d3⟩ := linked_dry cfg ft st p hd
    obtain ⟨_, _, c3⟩ := linked_counters cfg ft st p
    refine ⟨?_, ?_, ?_⟩
    · rw [i1, c3, if_neg d1]; rfl
    · rw [i2, d2]
    · intro q hq
      rw [i3 q (fun c hc => hq c (List.mem_cons_of_mem _ hc))]
      obtain ⟨g, x⟩ := hq (p, ft) (List.mem_cons_self _ _)
      exact d3 q g x

/-- The dry and the normal callback count a candidate alike, from trees in
which `os.Open` finds the same file under the candidate. -/
theorem linked_counted_agree (cfg : Config) (ft : Faults) (stD stN : LinkState) (path : Path)
    (hopen : stD.opened path = stN.opened path)
    (hq : ft.proc.writeQuiet)
    (hfresh : stN.fs (tempFileNameOf (tempXmlOf path) ft.proc.tempRnd) = none) :
    counted (Links.migrateFile (cfg.dry true) ft stD path).2 =
      counted (Links.migrateFile (cfg.dry false) ft stN path).2 := by
  rw [linked_outcome, linked_outcome]
  apply counted_agree cfg ft { fs := stD.seen path, cnt := stD.cnt }
    { fs := stN.seen path, cnt := stN.cnt } path
  · show Option.map File.data (stD.seen path path) = Option.map File.data (stN.seen path path)
    rw [seen_path, seen_path, hopen]
  · exact hq
  · show stN.seen path _ = none
    rw [seen_other _ _ _ (fun e => path_ne_tempFileName path _ e.symm)]
    exact hfresh

/-- Dry and normal runs over the same candidates count the same files with
and without matches, when no candidate is a link that leads to a candidate
visited before it or to a temporary of one. -/
theorem linked_all_agree (cfg : Config) (l : Path → Option Path)
    (cands : List (Path × Faults)) (stD stN : LinkState)
    (hsep : Separated cands)
    (hquiet : ∀ c ∈ cands, c.2.proc.writeQuiet)
    (hapart : LinksApart l cands)
    (hinv : ∀ c ∈ cands,
      (∀ q ∈ linkPath l maxSymlinks c.1,
        stD.links q = l q ∧ stN.links q = l q ∧ stD.fs q = stN.fs q) ∧
      stN.fs (procTempOf c) = none)
    (hw : stD.cnt.filesWithMatches = stN.cnt.filesWithMatches)
    (hwo : stD.cnt.filesWithoutMatches = stN.cnt.filesWithoutMatches) :
    (Links.migrateAll (cfg.dry true) cands stD).cnt.filesWithMatches =
      (Links.migrateAll (cfg.dry false) cands stN).cnt.filesWithMatches ∧
    (Links.migrateAll (cfg.dry true) cands stD).cnt.filesWithoutMatches =
      (Links.migrateAll (cfg.dry false) cands stN).cnt.filesWithoutMatches := by
  induction cands generalizing stD stN with
  | nil => exact ⟨hw, hwo⟩
  | cons c rest ih =>
    obtain ⟨p, ft⟩ := c
    obtain ⟨hnd, hs1, hs2⟩ := hsep
    unfold Links.migrateAll
    have hmem : (p, ft) ∈ (p, ft) :: rest := List.mem_cons_self _ _
    obtain ⟨hf1, hf2⟩ := hinv (p, ft) hmem
    have hcount := linked_counted_agree cfg ft stD stN p (opened_congr l stD stN p hf1)
      (hquiet _ hmem) hf2
    obtain ⟨cD1, cD2, _⟩ := linked_counters (cfg.dry true) ft stD p
    obtain ⟨cN1, cN2, _⟩ := linked_counters (cfg.dry false) ft stN p
    have hnd1 : (rest.map Prod.fst).Nodup := (List.nodup_cons.mp hnd).2
    have hp : ∀ d ∈ rest, d.1 ≠ p := by
      intro d hd e
      exact (List.nodup_cons.mp hnd).1 (List.mem_map.mpr ⟨d, hd, e⟩)
    apply ih
    · exact ⟨hnd1, fun c hc d hd => hs1 c (List.mem_cons_of_mem _ hc) d (List.mem_cons_of_mem _ hd),
        fun c hc d hd => hs2 c (List.mem_cons_of_mem _ hc) d (List.mem_cons_of_mem _ hd)⟩
    · intro c hc; exact hquiet c (List.mem_cons_of_mem _ hc)
    · exact (List.pairwise_cons.mp hapart).2
    · intro d hd
      have hdm : d ∈ (p, ft) :: rest := List.mem_cons_of_mem _ hd
      obtain ⟨g1, g2⟩ := hinv d hdm
      constructor
      · intro q hq
        obtain ⟨a1, a2, a3, a4⟩ := (List.pairwise_cons.mp hapart).1 d hd q hq
        obtain ⟨b1, b2, b3⟩ := g1 q hq
        refine ⟨?_, ?_, ?_⟩
        · rw [(linked_links _ _ _ _).1 q a1]; exact b1
        · rw [(linked_links _ _ _ _).1 q a1]; exact b2
        · rw [linked_frame _ _ _ _ _ a1 a2 a3 a4, linked_frame _ _ _ _ _ a1 a2 a3 a4]
          exact b3
      · obtain ⟨t1, t2, t3⟩ := hs2 (p, ft) hmem d hdm (fun e => hp d hd e.symm)
        obtain ⟨_, _, s3⟩ := hs1 d hdm (p, ft) hmem
        rw [linked_frame _ _ _ _ _ (fun e => s3 e.symm) t1 t2 t3]
        exact g2
    · rw [cD1, cN1, hcount, hw]
    · rw [cD2, cN2, hcount, hwo]

/-- On a tree without symbolic links the callback is `migrateFile`. -/
theorem linked_regular (cfg : Config) (ft : Faults) (st : LinkState) (path : Path)
    (h : st.links = noLinks) :
    (Links.migrateFile cfg ft st path).1.fs =
      (migrateFile cfg ft { fs := st.fs, cnt := st.cnt } path).1.fs ∧
    (Links.migrateFile cfg ft st path).1.cnt =
      (migrateFile cfg ft { fs := st.fs, cnt := st.cnt } path).1.cnt ∧
    (Links.migrateFile cfg ft st path).1.links = noLinks ∧
    (Links.migrateFile cfg ft st path).2 =
      (migrateFile cfg ft { fs := st.fs, cnt := st.cnt } path).2 := by
  have hs : st.seen path = st.fs := seen_regular st path (by rw [h]; rfl)
  have ho := linked_outcome cfg ft st path
  have hc := linked_cnt cfg ft st path
  rw [hs] at ho hc
  refine ⟨?_, hc, ?_, ho⟩
  · funext q
    by_cases e : q = path
    · by_cases hu : (Links.migrateFile cfg ft st path).2 = .updated
      · have hu1 : (migrateFile cfg ft { fs := st.seen path, cnt := st.cnt } path).2 = .updated := by
          rw [← linked_outcome]; exact hu
        rw [e]
        unfold Links.migrateFile
        simp only
        rw [if_pos hu1, hs]
      · rw [e, linked_fs_path _ _ _ _ hu]
        rw [ho] at hu
        exact (migrateFile_path cfg ft { fs := st.fs, cnt := st.cnt } path hu).symm
    · rw [linked_fs_other _ _ _ _ _ e, hs]
  · funext q
    by_cases e : q = path
    · by_cases hu : (Links.migrateFile cfg ft st path).2 = .updated
      · have hu1 : (migrateFile cfg ft { fs := st.seen path, cnt := st.cnt } path).2 = .updated := by
          rw [← linked_outcome]; exact hu
        unfold Links.migrateFile
        simp only
        rw [if_pos hu1]
        simp only
        rw [if_pos e]
        rfl
      · rw [(linked_links _ _ _ _).2 hu, h]
    · rw [(linked_links _ _ _ _).1 q e, h]

/-- On a tree without symbolic links the run is `migrateAll`. -/
theorem linked_all_regular (cfg : Config) (cands : List (Path × Faults)) (st : LinkState)
    (h : st.links = noLinks) :
    (Links.migrateAll cfg cands st).fs =
      (migrateAll cfg cands { fs := st.fs, cnt := st.cnt }).fs ∧
    (Links.migrateAll cfg cands st).cnt =
      (migrateAll cfg cands { fs := st.fs, cnt := st.cnt }).cnt ∧
    (Links.migrateAll cfg cands st).links = noLinks := by
  induction cands generalizing st with
  | nil => exact ⟨rfl, rfl, h⟩
  | cons c rest ih =>
    obtain ⟨p, ft⟩ := c
    unfold Links.migrateAll migrateAll
    obtain ⟨r1, r2, r3, _⟩ := linked_regular cfg ft st p h
    obtain ⟨i1, i2, i3⟩ := ih (Links.migrateFile cfg ft st p).1 r3
    rw [r1, r2] at i1 i2
    exact ⟨i1, i2, i3⟩

/-! ## Lemmas: `cleanUpTempFiles` -/

/-- The callback attempts a removal exactly on the temporary names. -/
theorem removalAttempted_eq (name : Bytes) : removalAttempted name = isTempName name := by
  unfold removalAttempted isTempName patterns
  cases h1 : HasSuffix name tmpGzSuffix <;> cases h2 : HasSuffix name tmpXmlSuffix <;>
    simp [h1, h2]

mutual
theorem sweepNode_coop : ∀ (n : Node) (found : Bool), n.cooperative = true →
    (sweepNode n found).1 = pruneNode n
  | .file name content removable, found, h => by
    have hr : removable = true := by simpa [Node.cooperative] using h
    rw [sweepNode, pruneNode, removalAttempted_eq, hr]
    cases isTempName name <;> simp
  | .dir name readable entries, found, h => by
    have hr : readable = true ∧ entries.cooperative = true := by
      simpa [Node.cooperative] using h
    rw [sweepNode, pruneNode, hr.1]
    simp only [if_true]
    rw [sweepForest_coop entries found hr.2]
theorem sweepForest_coop : ∀ (f : Forest) (found : Bool), f.cooperative = true →
    (sweepForest f found).1 = pruneForest f
  | .nil, found, _ => by rw [sweepForest, pruneForest]
  | .cons n rest, found, h => by
    have hr : n.cooperative = true ∧ rest.cooperative = true := by
      simpa [Forest.cooperative] using h
    rw [sweepForest, pruneForest]
    simp only
    rw [sweepNode_coop n found hr.1, sweepForest_coop rest _ hr.2]
end

mutual
theorem sweepNode_pruned : ∀ (n n1 : Node) (found : Bool), pruneNode n = some n1 →
    sweepNode n1 found = (some n1, found)
  | .file name content removable, n1, found, h => by
    rw [pruneNode] at h
    by_cases ht : isTempName name = true
    · rw [if_pos ht] at h; cases h
    · rw [if_neg ht] at h
      cases h
      rw [sweepNode, removalAttempted_eq, if_neg ht]
  | .dir name readable entries, n1, found, h => by
    rw [pruneNode] at h
    cases h
    rw [sweepNode]
    cases readable with
    | false => rfl
    | true =>
      simp only [if_true]
      rw [sweepForest_pruned entries found]
theorem sweepForest_pruned : ∀ (f : Forest) (found : Bool),
    sweepForest (pruneForest f) found = (pruneForest f, found)
  | .nil, found => by rw [pruneForest, sweepForest]
  | .cons n rest, found => by
    rw [pruneForest]
    cases hn : pruneNode n with
    | none => exact sweepForest_pruned rest found
    | some n1 =>
      simp only [Forest.consOpt]
      rw [sweepForest, sweepNode_pruned n n1 found hn]
      simp only [Forest.consOpt]
      rw [sweepForest_pruned rest found]
end

theorem getLast_path (dir : List Bytes) (name : Bytes) :
    (dir ++ [name]).getLast?.getD [] = name := by simp

theorem consOpt_listing (n : Option Node) (rest : Forest) (dir : List Bytes) :
    (Forest.consOpt n rest).listing dir = listingOf dir n ++ rest.listing dir := by
  cases n with
  | none => simp [Forest.consOpt, listingOf]
  | some n1 => simp [Forest.consOpt, listingOf, Forest.listing]

mutual
/-- Pruning keeps exactly the entries that are to be kept. -/
theorem pruneNode_listing : ∀ (n : Node) (dir : List Bytes),
    listingOf dir (pruneNode n) = (n.listing dir).filter Entry.kept
  | .file name content removable, dir => by
    rw [pruneNode, Node.listing]
    cases ht : isTempName name <;>
      simp [listingOf, Node.listing, Entry.kept, ht]
  | .dir name readable entries, dir => by
    rw [pruneNode, Node.listing]
    simp only [listingOf]
    rw [Node.listing, pruneForest_listing entries (dir ++ [name])]
    simp [Entry.kept]
theorem pruneForest_listing : ∀ (f : Forest) (dir : List Bytes),
    (pruneForest f).listing dir = (f.listing dir).filter Entry.kept
  | .nil, dir => by rw [pruneForest, Forest.listing]; rfl
  | .cons n rest, dir => by
    rw [pruneForest, Forest.listing, List.filter_append, ← pruneNode_listing n dir,
      ← pruneForest_listing rest dir, consOpt_listing]
end

mutual
/-- Whatever fails, the walk adds and changes nothing, and keeps every entry
that is to be kept. -/
theorem sweepNode_frame : ∀ (n : Node) (found : Bool) (dir : List Bytes),
    (listingOf dir (sweepNode n found).1).Sublist (n.listing dir) ∧
    ∀ e ∈ n.listing dir, e.kept = true → e ∈ listingOf dir (sweepNode n found).1
  | .file name content removable, found, dir => by
    rw [sweepNode, removalAttempted_eq, Node.listing]
    cases ht : isTempName name with
    | false =>
      simp only [Bool.false_eq_true, if_false, listingOf, Node.listing]
      exact ⟨List.Sublist.refl _, fun e he _ => he⟩
    | true =>
      simp only [if_true]
      cases removable with
      | false =>
        simp only [Bool.false_eq_true, if_false, listingOf, Node.listing]
        exact ⟨List.Sublist.refl _, fun e he _ => he⟩
      | true =>
        simp only [if_true, listingOf]
        refine ⟨List.nil_sublist _, fun e he hk => ?_⟩
        rw [List.mem_singleton] at he
        rw [he] at hk
        simp [Entry.kept, ht] at hk
  | .dir name readable entries, found, dir => by
    rw [sweepNode, Node.listing]
    cases readable with
    | false =>
      simp only [Bool.false_eq_true, if_false, listingOf, Node.listing]
      exact ⟨List.Sublist.refl _, fun e he _ => he⟩
    | true =>
      simp only [if_true, listingOf, Node.listing]
      obtain ⟨i1, i2⟩ := sweepForest_frame entries found (dir ++ [name])
      refine ⟨i1.cons₂ _, fun e he hk => ?_⟩
      rcases List.mem_cons.mp he with e0 | e0
      · rw [e0]; exact List.mem_cons_self _ _
      · exact List.mem_cons_of_mem _ (i2 e e0 hk)
theorem sweepForest_frame : ∀ (f : Forest) (found : Bool) (dir : List Bytes),
    ((sweepForest f found).1.listing dir).Sublist (f.listing dir) ∧
    ∀ e ∈ f.listing dir, e.kept = true → e ∈ (sweepForest f found).1.listing dir
  | .nil, found, dir => by
    rw [sweepForest, Forest.listing]
    exact ⟨List.Sublist.refl _, fun e he _ => he⟩
  | .cons n rest, found, dir => by
    rw [sweepForest, Forest.listing]
    obtain ⟨n1, n2⟩ := sweepNode_frame n found dir
    obtain ⟨r1, r2⟩ := sweepForest_frame rest (sweepNode n found).2 dir
    simp only
    rw [consOpt_listing]
    refine ⟨n1.append r1, fun x hx hk => ?_⟩
    rcases List.mem_append.mp hx with h | h
    · exact List.mem_append_left _ (n2 x h hk)
    · exact List.mem_append_right _ (r2 x h hk)
end

mutual
/-- When the removals succeed, a second walk over what the first has left
finds nothing and changes nothing. -/
theorem sweepNode_again : ∀ (n : Node) (found : Bool), n.removalsSucceed = true →
    ∀ n1, (sweepNode n found).1 = some n1 → ∀ found2, sweepNode n1 found2 = (some n1, found2)
  | .file name content removable, found, h, n1, h1, found2 => by
    have hr : removable = true := by simpa [Node.removalsSucceed] using h
    rw [sweepNode, hr] at h1
    by_cases ht : removalAttempted name = true
    · rw [if_pos ht] at h1
      simp at h1
    · rw [if_neg ht] at h1
      have e : n1 = .file name content true := (Option.some.inj h1).symm
      rw [e, sweepNode, if_neg ht]
  | .dir name readable entries, found, h, n1, h1, found2 => by
    have hr : entries.removalsSucceed = true := by simpa [Node.removalsSucceed] using h
    rw [sweepNode] at h1
    cases readable with
    | false =>
      simp only [Bool.false_eq_true, if_false] at h1
      have e : n1 = .dir name false entries := (Option.some.inj h1).symm
      rw [e, sweepNode]
      simp
    | true =>
      simp only [if_true] at h1
      have e : n1 = .dir name true (sweepForest entries found).1 := (Option.some.inj h1).symm
      rw [e, sweepNode]
      simp only [if_true]
      rw [sweepForest_again entries found hr found2]
theorem sweepForest_again : ∀ (f : Forest) (found : Bool), f.removalsSucceed = true →
    ∀ found2, sweepForest (sweepForest f found).1 found2 = ((sweepForest f found).1, found2)
  | .nil, found, _, found2 => by
    rw [sweepForest, sweepForest]
  | .cons n rest, found, h, found2 => by
    have hr : n.removalsSucceed = true ∧ rest.removalsSucceed = true := by
      simpa [Forest.removalsSucceed] using h
    rw [sweepForest]
    simp only
    have ihr := sweepForest_again rest (sweepNode n found).2 hr.2 found2
    cases hn : (sweepNode n found).1 with
    | none => simp only [Forest.consOpt]; exact ihr
    | some n1 =>
      have ihn := sweepNode_again n found hr.1 n1 hn found2
      simp only [Forest.consOpt]
      rw [sweepForest, ihn]
      simp only [Forest.consOpt]
      rw [ihr]
end

/-! ## Main results -/

/-- C1: in normal mode, when the calls of `processFile` succeed, for every
content of the source and every search text `s` and replacement `r`:
`linesModified` grows by exactly the number of lines the scanner delivers that
contain `s` (one per line, however many occurrences it holds); the result is
an error when the scanner ends on one and otherwise tells whether some line
contains `s`; and when it is `true` the source holds every line in order,
each line that contains `s` as `strings.ReplaceAll(line, s, r)` and every
other line as it was, each followed by a line feed. Otherwise the source is
as before. -/
theorem processFile_replaces_every_occurrence (ft : ProcFaults) (st : State)
    (src s r : Bytes) (sf : File)
    (hsrc : st.fs src = some sf) (hopen : ft.openFail = false) (hread : ft.readFail = none)
    (hquiet : ft.writeQuiet) (hfresh : st.fs (tempFileNameOf src ft.tempRnd) = none) :
    (processFile false ft st src s r).1.cnt.linesModified =
      st.cnt.linesModified +
        (scanFrom maxTokenSize [] sf.data).1.countP (fun l => Contains l s) ∧
    (processFile false ft st src s r).2 =
      (if (scanFrom maxTokenSize [] sf.data).2 = true then none
       else some ((scanFrom maxTokenSize [] sf.data).1.any (fun l => Contains l s))) ∧
    ((processFile false ft st src s r).2 = some true →
      ((processFile false ft st src s r).1.fs src).map File.data =
        some ((scanFrom maxTokenSize [] sf.data).1.flatMap
          (fun l => (if Contains l s then ReplaceAll l s r else l) ++ [LF]))) ∧
    ((processFile false ft st src s r).2 ≠ some true →
      (processFile false ft st src s r).1.fs src = st.fs src) := by
  have hsc : procScan ft sf = scanFrom maxTokenSize [] sf.data := by
    unfold procScan scanLines
    rw [hread]
  obtain ⟨e1, e2⟩ := processFile_quiet_lines ft st src s r sf hsrc hopen hquiet hfresh
  rw [hsc] at e1 e2
  refine ⟨e1, e2, ?_, fun h => processFile_src false ft st src s r h⟩
  intro htrue
  obtain ⟨sf1, hsf1, hfs, _⟩ := processFile_true_fs ft st src s r htrue
  have : sf1 = sf := Option.some.inj (hsf1.symm.trans hsrc)
  rw [this, hsc] at hfs
  rw [hfs]
  rfl

/-- C1, at two inputs: a line holding the search text three times, replaced
by the empty string, loses all three occurrences and counts as one modified
line; the line `<Path>C:\old\track.wav</Path>` becomes
`<Path>D:\new\track.wav</Path>`. -/
theorem processFile_replaces_every_occurrence_witness :
    (((processFile false (ProcFaults.none (ascii "1"))
        { fs := oneFile (ascii "f.xml") (ascii "ab-ab-ab\nkeep\n") 0o644,
          cnt := Counters.reset 1 }
        (ascii "f.xml") (ascii "ab") []).1.fs (ascii "f.xml")).map File.data
      = some (ascii "--\nkeep\n") ∧
     (processFile false (ProcFaults.none (ascii "1"))
        { fs := oneFile (ascii "f.xml") (ascii "ab-ab-ab\nkeep\n") 0o644,
          cnt := Counters.reset 1 }
        (ascii "f.xml") (ascii "ab") []).1.cnt.linesModified = 1) ∧
    ((processFile false (ProcFaults.none (ascii "1"))
        { fs := oneFile (ascii "f.xml") (ascii "<Path>C:\\old\\track.wav</Path>\n") 0o644,
          cnt := Counters.reset 1 }
        (ascii "f.xml") (ascii "C:\\old") (ascii "D:\\new")).1.fs (ascii "f.xml")).map File.data
      = some (ascii "<Path>D:\\new\\track.wav</Path>\n") := by
  have h1 := processFile_replaces_every_occurrence (ProcFaults.none (ascii "1"))
    { fs := oneFile (ascii "f.xml") (ascii "ab-ab-ab\nkeep\n") 0o644, cnt := Counters.reset 1 }
    (ascii "f.xml") (ascii "ab") [] { data := ascii "ab-ab-ab\nkeep\n", mode := 0o644 }
    (by decide) (by decide) (by decide) (by decide) (by decide)
  have h2 := processFile_replaces_every_occurrence (ProcFaults.none (ascii "1"))
    { fs := oneFile (ascii "f.xml") (ascii "<Path>C:\\old\\track.wav</Path>\n") 0o644,
      cnt := Counters.reset 1 }
    (ascii "f.xml") (ascii "C:\\old") (ascii "D:\\new")
    { data := ascii "<Path>C:\\old\\track.wav</Path>\n", mode := 0o644 }
    (by decide) (by decide) (by decide) (by decide) (by decide)
  refine ⟨⟨(h1.2.2.1 (by decide)).trans (by decide), h1.1.trans (by decide)⟩,
    (h2.2.2.1 (by decide)).trans (by decide)⟩

/-- C2, as stated, fails: a CRLF-terminated matching line and a last line
without terminator are both written LF-terminated (`a\r\nb` with `a` replaced
by `x` becomes `x\nb\n`, not `x\r\nb`). -/
theorem processFile_terminators_counterexample :
    ((processFile false (ProcFaults.none (ascii "1"))
        { fs := oneFile (ascii "f.xml") (ascii "a\r\nb") 0o644, cnt := Counters.reset 1 }
        (ascii "f.xml") (ascii "a") (ascii "x")).1.fs (ascii "f.xml")).map File.data
      = some (ascii "x\nb\n") ∧
    ascii "x\nb\n" ≠ ascii "x\r\nb" := by
  decide

/-- C2, amended: for a payload of lines with LF or CRLF terminators and
possibly a last line without terminator, of which some line contains the
search text, the payload that `processFile` renames over its source is the
texts of the lines in order, each followed by a single line feed, the matching
ones rewritten by `ReplaceAll` and the others unchanged. -/
theorem processFile_writes_lines_LF_terminated (ft : ProcFaults) (st : State)
    (src s r : Bytes) (ls : List RawLine) (last : Option RawLine) (mode : Nat)
    (hls : ∀ l ∈ ls, l.wf maxTokenSize)
    (hlast : ∀ l, last = some l → l.wf maxTokenSize ∧ l.bytes ≠ [])
    (hsrc : st.fs src = some { data := fileBytes ls last, mode := mode })
    (hopen : ft.openFail = false) (hread : ft.readFail = none) (hquiet : ft.writeQuiet)
    (hfresh : st.fs (tempFileNameOf src ft.tempRnd) = none)
    (hmatch : (fileTexts ls last).any (fun l => Contains l s) = true) :
    (processFile false ft st src s r).2 = some true ∧
    ((processFile false ft st src s r).1.fs src).map File.data =
      some ((fileTexts ls last).flatMap
        (fun l => (if Contains l s then ReplaceAll l s r else l) ++ [LF])) := by
  have hscan := scanFrom_fileBytes maxTokenSize ls last hls hlast
  have hsc : procScan ft { data := fileBytes ls last, mode := mode } =
      (fileTexts ls last, false) := by
    unfold procScan scanLines
    rw [hread]
    exact hscan
  have hres : (processFile false ft st src s r).2 = some true := by
    rw [processFile_agree ft st st src s r hquiet hfresh rfl, processFile_dry, hsrc]
    dsimp only
    rw [hsc, hopen, hmatch]
    simp
  refine ⟨hres, ?_⟩
  obtain ⟨sf', hsf', hfs, _⟩ := processFile_true_fs ft st src s r hres
  have : sf' = { data := fileBytes ls last, mode := mode } :=
    Option.some.inj (hsf'.symm.trans hsrc)
  rw [this, hsc] at hfs
  rw [hfs]
  rfl

/-- C2, amended, at an input: a file of a CRLF line, an LF line and a last
line without terminator comes out with three LF-terminated lines. -/
theorem processFile_writes_lines_LF_terminated_witness :
    ((processFile false (ProcFaults.none (ascii "1"))
        { fs := oneFile (ascii "f.xml") (ascii "one a\r\ntwo\nthree a") 0o644,
          cnt := Counters.reset 1 }
        (ascii "f.xml") (ascii "a") (ascii "x")).1.fs (ascii "f.xml")).map File.data
      = some (ascii "one x\ntwo\nthree x\n") := by
  have h := processFile_writes_lines_LF_terminated (ProcFaults.none (ascii "1"))
    { fs := oneFile (ascii "f.xml") (ascii "one a\r\ntwo\nthree a") 0o644,
      cnt := Counters.reset 1 }
    (ascii "f.xml") (ascii "a") (ascii "x")
    [{ text := ascii "one a", crlf := true }, { text := ascii "two", crlf := false }]
    (some { text := ascii "three a", crlf := false }) 0o644
    (by decide) (by decide) (by decide) (by decide) (by decide) (by decide) (by decide)
    (by decide)
  exact h.2.trans (by decide)

/-- C3: when no line that the scanner delivers from the decompressed payload
contains the search text, the callback leaves the candidate as it was, bytes
and mode: it ends before or at `processFile`, or with `processFile` returning
`false`; `processFile` does not rename over its source; `filesModified` is as
before. -/
theorem no_match_leaves_candidate_untouched (cfg : Config) (ft : Faults) (st : State)
    (path : Path)
    (hno : ∀ sf payload, st.fs path = some sf → cfg.codec.decompress sf.data = .ok payload →
      ∀ l ∈ (scanLines maxTokenSize ft.proc.readFail payload).1,
        Contains l cfg.replaceVal = false) :
    (migrateFile cfg ft st path).1.fs path = st.fs path ∧
    ((migrateFile cfg ft st path).2 = .copyError ∨
      (migrateFile cfg ft st path).2 = .decompressError ∨
      (migrateFile cfg ft st path).2 = .processError ∨
      (migrateFile cfg ft st path).2 = .unchanged false) ∧
    ((afterCopy cfg ft st path).2 = true → (afterDecompress cfg ft st path).2 = true →
      (afterProcess cfg ft st path).2 ≠ some true ∧
      (afterProcess cfg ft st path).1.fs (tempXmlOf path) =
        (afterDecompress cfg ft st path).1 (tempXmlOf path)) ∧
    (migrateFile cfg ft st path).1.cnt.filesModified = st.cnt.filesModified := by
  have hproc : (afterCopy cfg ft st path).2 = true → (afterDecompress cfg ft st path).2 = true →
      (afterProcess cfg ft st path).2 ≠ some true := by
    intro a1 a2 a3
    obtain ⟨sf, hsf, hg⟩ := copyFile_ok _ _ _ _ _ a1
    obtain ⟨g, payload, hg', hpay, hx⟩ := decompressGzipFile_ok _ _ _ _ _ _ a2
    have hgd : g.data = sf.data := by
      have := Option.some.inj (hg'.symm.trans hg)
      rw [this]
    rw [hgd] at hpay
    obtain ⟨sf2, hsf2, _, hany⟩ := processFile_result _ _ _ _ _ _ _ a3
    have hsf2d : sf2.data = payload := by
      have := Option.some.inj (hsf2.symm.trans hx)
      rw [this]
    have := hany.symm
    rw [List.any_eq_true] at this
    obtain ⟨l, hl, hc⟩ := this
    unfold procScan at hl
    rw [hsf2d] at hl
    have := hno sf payload hsf hpay l hl
    rw [this] at hc
    cases hc
  have hout : (migrateFile cfg ft st path).2 = .copyError ∨
      (migrateFile cfg ft st path).2 = .decompressError ∨
      (migrateFile cfg ft st path).2 = .processError ∨
      (migrateFile cfg ft st path).2 = .unchanged false := by
    rw [migrateFile_outcome]
    rcases migrateBody_cases cfg ft st path with ⟨_, h⟩ | ⟨_, _, h⟩ | ⟨_, _, _, h⟩ |
      ⟨a1, a2, m, a3, _, h⟩ | ⟨a1, a2, a3, _, _, h⟩ | ⟨a1, a2, a3, _, _, _, h⟩ |
      ⟨a1, a2, a3, _, _, _, h⟩
    · rw [h]; simp
    · rw [h]; simp
    · rw [h]; simp
    · rw [h]
      cases m with
      | false => simp
      | true => exact absurd a3 (hproc a1 a2)
    · exact absurd a3 (hproc a1 a2)
    · exact absurd a3 (hproc a1 a2)
    · exact absurd a3 (hproc a1 a2)
  have hne : (migrateFile cfg ft st path).2 ≠ .updated := by
    rcases hout with h | h | h | h <;> rw [h] <;> simp
  refine ⟨migrateFile_path cfg ft st path hne, hout, ?_, ?_⟩
  · intro a1 a2
    refine ⟨hproc a1 a2, ?_⟩
    exact processFile_src _ _ _ _ _ _ (hproc a1 a2)
  · rw [(migrateFile_counters cfg ft st path).2.2.1, if_neg hne]
    rfl

/-- C3 at an input: an archive whose payload does not hold the search text
is the same file after the callback, which ends with `processFile` returning
`false`. -/
theorem no_match_leaves_candidate_untouched_witness :
    (migrateFile (demoConfig false (ascii "C:\\old") (ascii "D:\\new")) (Faults.none (ascii "7"))
        { fs := demoTree (ascii "<Path>E:\\other\\track.wav</Path>\n") 0o600,
          cnt := Counters.reset 1 } (ascii "A.als")).1.fs (ascii "A.als") =
      some { data := demoCodec.compress (ascii "<Path>E:\\other\\track.wav</Path>\n"),
             mode := 0o600 } ∧
    (migrateFile (demoConfig false (ascii "C:\\old") (ascii "D:\\new")) (Faults.none (ascii "7"))
        { fs := demoTree (ascii "<Path>E:\\other\\track.wav</Path>\n") 0o600,
          cnt := Counters.reset 1 } (ascii "A.als")).2 = .unchanged false := by
  have h := no_match_leaves_candidate_untouched
    (demoConfig false (ascii "C:\\old") (ascii "D:\\new")) (Faults.none (ascii "7"))
    { fs := demoTree (ascii "<Path>E:\\other\\track.wav</Path>\n") 0o600,
      cnt := Counters.reset 1 } (ascii "A.als")
    (by
      intro sf payload hsf hpay
      have e : sf = File.mk (demoCodec.compress (ascii "<Path>E:\\other\\track.wav</Path>\n"))
          0o600 := (Option.some.inj hsf).symm
      rw [e] at hpay
      have e2 : payload = ascii "<Path>E:\\other\\track.wav</Path>\n" :=
        (Gunzip.ok.inj hpay).symm
      rw [e2]
      decide)
  exact ⟨h.1.trans (by decide), by decide⟩

/-- Every failure that a stage reports (copy, decompress, `processFile`,
compress, or the final rename) leaves the file under the candidate path as it
was and `filesModified` as it was; in every case the candidate path holds
either the file it held or, whole, the file that `compressGzipFile` left
under the compressed temporary. -/
theorem reported_failure_leaves_original (cfg : Config) (ft : Faults) (st : State)
    (path : Path) :
    (((migrateFile cfg ft st path).2 = .copyError ∨
      (migrateFile cfg ft st path).2 = .decompressError ∨
      (migrateFile cfg ft st path).2 = .processError ∨
      (migrateFile cfg ft st path).2 = .compressError ∨
      (migrateFile cfg ft st path).2 = .renameError) →
      (migrateFile cfg ft st path).1.fs path = st.fs path ∧
      (migrateFile cfg ft st path).1.cnt.filesModified = st.cnt.filesModified) ∧
    ((migrateFile cfg ft st path).1.fs path = st.fs path ∨
      ((migrateFile cfg ft st path).2 = .updated ∧
        (migrateFile cfg ft st path).1.fs path =
          (afterCompress cfg ft st path).1 (tempGzOf path))) := by
  constructor
  · intro h
    have hne : (migrateFile cfg ft st path).2 ≠ .updated := by
      rcases h with h | h | h | h | h <;> rw [h] <;> simp
    refine ⟨migrateFile_path cfg ft st path hne, ?_⟩
    rw [(migrateFile_counters cfg ft st path).2.2.1, if_neg hne]
    rfl
  · by_cases hu : (migrateFile cfg ft st path).2 = .updated
    · right
      obtain ⟨_, _, _, _, _, _, f, hf, hfinal⟩ := migrateFile_updated cfg ft st path hu
      exact ⟨hu, hfinal.trans hf.symm⟩
    · exact Or.inl (migrateFile_path cfg ft st path hu)

/-- With the creation of the compressed file failing, and with the final
rename failing, after a match, the archive is the same file as before and
`filesModified` stays 0. -/
theorem reported_failure_leaves_original_example :
    ((migrateFile (demoConfig false (ascii "a") (ascii "b"))
        { Faults.none (ascii "7") with
          compress := { StageFaults.none with createFail := true } }
        { fs := demoTree (ascii "a\n") 0o600, cnt := Counters.reset 1 } (ascii "A.als")).1.fs
        (ascii "A.als") = demoTree (ascii "a\n") 0o600 (ascii "A.als") ∧
      (migrateFile (demoConfig false (ascii "a") (ascii "b"))
        { Faults.none (ascii "7") with
          compress := { StageFaults.none with createFail := true } }
        { fs := demoTree (ascii "a\n") 0o600, cnt := Counters.reset 1 }
        (ascii "A.als")).1.cnt.filesModified = 0) ∧
    ((migrateFile (demoConfig false (ascii "a") (ascii "b"))
        { Faults.none (ascii "7") with renameFail := true }
        { fs := demoTree (ascii "a\n") 0o600, cnt := Counters.reset 1 } (ascii "A.als")).1.fs
        (ascii "A.als") = demoTree (ascii "a\n") 0o600 (ascii "A.als") ∧
      (migrateFile (demoConfig false (ascii "a") (ascii "b"))
        { Faults.none (ascii "7") with renameFail := true }
        { fs := demoTree (ascii "a\n") 0o600, cnt := Counters.reset 1 }
        (ascii "A.als")).1.cnt.filesModified = 0) :=
  ⟨(reported_failure_leaves_original (demoConfig false (ascii "a") (ascii "b"))
      { Faults.none (ascii "7") with compress := { StageFaults.none with createFail := true } }
      { fs := demoTree (ascii "a\n") 0o600, cnt := Counters.reset 1 } (ascii "A.als")).1
      (by decide),
   (reported_failure_leaves_original (demoConfig false (ascii "a") (ascii "b"))
      { Faults.none (ascii "7") with renameFail := true }
      { fs := demoTree (ascii "a\n") 0o600, cnt := Counters.reset 1 } (ascii "A.als")).1
      (by decide)⟩

/-- C5, at the failing input: the compression stage fails in the deferred
`gzipWriter.Close()`, whose error `compressGzipFile` drops; the stage returns
no error, the rename goes ahead, and the candidate, which held the whole
archive, now holds the truncated stream, which no longer decodes, while
`filesModified` is incremented. -/
theorem compression_failure_at_close_is_committed :
    (migrateFile (demoConfig false (ascii "a") (ascii "b"))
        { Faults.none (ascii "7") with gzCloseFail := some [31] }
        { fs := demoTree (ascii "a\n") 0o600, cnt := Counters.reset 1 } (ascii "A.als")).2
      = .updated ∧
    demoTree (ascii "a\n") 0o600 (ascii "A.als") =
      some { data := demoCodec.compress (ascii "a\n"), mode := 0o600 } ∧
    (migrateFile (demoConfig false (ascii "a") (ascii "b"))
        { Faults.none (ascii "7") with gzCloseFail := some [31] }
        { fs := demoTree (ascii "a\n") 0o600, cnt := Counters.reset 1 } (ascii "A.als")).1.fs
        (ascii "A.als") = some { data := [31], mode := 0o600 } ∧
    demoCodec.decompress [31] = .badHeader ∧
    (migrateFile (demoConfig false (ascii "a") (ascii "b"))
        { Faults.none (ascii "7") with gzCloseFail := some [31] }
        { fs := demoTree (ascii "a\n") 0o600, cnt := Counters.reset 1 }
        (ascii "A.als")).1.cnt.filesModified = 1 := by
  decide

/-- C6, as stated, fails: with search text `a` and replacement `aa` the
first run rewrites the archive and the second run, on the result, matches
and rewrites it again. -/
theorem second_run_matches_again_counterexample :
    (migrateFile (demoConfig false (ascii "a") (ascii "aa")) (Faults.none (ascii "7"))
        { fs := demoTree (ascii "a\n") 0o600, cnt := Counters.reset 1 } (ascii "A.als")).2
      = .updated ∧
    (migrateFile (demoConfig false (ascii "a") (ascii "aa")) (Faults.none (ascii "7"))
        { fs := (migrateFile (demoConfig false (ascii "a") (ascii "aa"))
            (Faults.none (ascii "7"))
            { fs := demoTree (ascii "a\n") 0o600, cnt := Counters.reset 1 }
            (ascii "A.als")).1.fs,
          cnt := Counters.reset 1 } (ascii "A.als")).2
      = .updated := by
  decide

/-- C6, amended: when search text and replacement do not overlap (neither
occurs in the other, no non-empty suffix of the replacement is a prefix of
the search text and no non-empty prefix of it a suffix), no line of
`ReplaceAll(line, s, r)` contains `s`, and a candidate that a first run has
rewritten (its gzip stream written whole, the codec decoding what it
encodes) is not counted as a match by a second run in either mode, whatever
fails, and is left as the first run wrote it. -/
theorem second_run_finds_no_match (cfg : Config) (ft1 : Faults) (st : State) (path : Path)
    (hfree : overlapFree cfg.replaceVal cfg.withVal = true)
    (hcodec : ∀ b, cfg.codec.decompress (cfg.codec.compress b) = .ok b)
    (hgz : ft1.gzCloseFail = none)
    (hfirst : (migrateFile cfg ft1 st path).2 = .updated) :
    (∀ line, Contains (ReplaceAll line cfg.replaceVal cfg.withVal) cfg.replaceVal = false) ∧
    ∀ (dry2 : Bool) (ft2 : Faults) (cnt2 : Counters),
      counted (migrateFile (cfg.dry dry2) ft2
        { fs := (migrateFile cfg ft1 st path).1.fs, cnt := cnt2 } path).2 ≠ some true ∧
      (migrateFile (cfg.dry dry2) ft2
        { fs := (migrateFile cfg ft1 st path).1.fs, cnt := cnt2 } path).1.fs path =
        (migrateFile cfg ft1 st path).1.fs path := by
  refine ⟨ReplaceAll_free _ _ hfree, ?_⟩
  intro dry2 ft2 cnt2
  obtain ⟨sf, payload, f, _, _, _, hf, hfd, _⟩ := migrateFile_updated_file cfg ft1 st path hfirst
  rw [hgz] at hfd
  have hcount : counted (migrateFile (cfg.dry dry2) ft2
      { fs := (migrateFile cfg ft1 st path).1.fs, cnt := cnt2 } path).2 ≠ some true := by
    rw [counted_eq]
    by_cases hc : (afterCopy (cfg.dry dry2) ft2
        { fs := (migrateFile cfg ft1 st path).1.fs, cnt := cnt2 } path).2 = true ∧
      (afterDecompress (cfg.dry dry2) ft2
        { fs := (migrateFile cfg ft1 st path).1.fs, cnt := cnt2 } path).2 = true
    swap
    · rw [if_neg hc]; simp
    rw [if_pos hc]
    obtain ⟨a1, a2⟩ := hc
    obtain ⟨sf2, hsf2, hg⟩ := copyFile_ok _ _ _ _ _ a1
    obtain ⟨g, payload2, hg', hpay2, hx⟩ := decompressGzipFile_ok _ _ _ _ _ _ a2
    have hsf2f : sf2 = f := Option.some.inj (hsf2.symm.trans hf)
    have hgd : g.data = sf2.data := by
      have := Option.some.inj (hg'.symm.trans hg)
      rw [this]
    have hp2 : payload2 = (scanLines maxTokenSize ft1.proc.readFail payload).1.flatMap
        (lineOut cfg.replaceVal cfg.withVal) := by
      have e : cfg.codec.decompress g.data = .ok payload2 := hpay2
      rw [hgd, hsf2f, hfd] at e
      have e' := hcodec ((scanLines maxTokenSize ft1.proc.readFail payload).1.flatMap
        (lineOut cfg.replaceVal cfg.withVal))
      unfold gzOutput at e
      rw [e'] at e
      exact (Gunzip.ok.inj e).symm
    unfold afterProcess
    apply processFile_no_match _ _ _ _ _ _ (overlapFree_ne_nil _ _ hfree).1
      ((scanLines maxTokenSize ft1.proc.readFail payload).1.map
        (fun l => if Contains l cfg.replaceVal then ReplaceAll l cfg.replaceVal cfg.withVal
          else l))
    · intro x hx'
      obtain ⟨l, _, hl⟩ := List.mem_map.mp hx'
      rw [← hl]
      exact lineOut_free _ _ hfree l
    · show Option.map File.data ((afterDecompress (cfg.dry dry2) ft2
        { fs := (migrateFile cfg ft1 st path).1.fs, cnt := cnt2 } path).1 (tempXmlOf path)) = _
      rw [show (afterDecompress (cfg.dry dry2) ft2
        { fs := (migrateFile cfg ft1 st path).1.fs, cnt := cnt2 } path).1 (tempXmlOf path) = _
        from hx]
      simp only [Option.map_some']
      rw [hp2, flatMap_lineOut]
  refine ⟨hcount, ?_⟩
  apply migrateFile_path
  intro hu
  rw [hu] at hcount
  exact hcount rfl

/-- C6, amended, at an input: after `C:\old` has been replaced by `D:\new`,
a second run leaves the archive as the first wrote it and counts no match. -/
theorem second_run_finds_no_match_witness :
    (migrateFile ((demoConfig false (ascii "C:\\old") (ascii "D:\\new")).dry false)
        (Faults.none (ascii "8"))
        { fs := (migrateFile (demoConfig false (ascii "C:\\old") (ascii "D:\\new"))
            (Faults.none (ascii "7"))
            { fs := demoTree (ascii "<Path>C:\\old\\track.wav</Path>\n") 0o600,
              cnt := Counters.reset 1 } (ascii "A.als")).1.fs,
          cnt := Counters.reset 1 } (ascii "A.als")).1.fs (ascii "A.als") =
      some { data := demoCodec.compress (ascii "<Path>D:\\new\\track.wav</Path>\n"),
             mode := 0o600 } := by
  have h := (second_run_finds_no_match (demoConfig false (ascii "C:\\old") (ascii "D:\\new"))
    (Faults.none (ascii "7"))
    { fs := demoTree (ascii "<Path>C:\\old\\track.wav</Path>\n") 0o600,
      cnt := Counters.reset 1 } (ascii "A.als")
    (by decide)
    (by intro b; rfl)
    (by decide) (by decide)).2 false (Faults.none (ascii "8")) (Counters.reset 1)
  exact h.2.trans (by decide)

/-- C7, as stated, fails: a stage whose `os.Stat` fails still succeeds,
without copying the mode. When the call fails inside `copyFile`, the
committed file carries the creation mode (0644) instead of the candidate's
(0600); so it does when the call fails inside `decompressGzipFile`; when it
fails inside `processFile`, a candidate of mode 0644 is committed with the
mode 0600 of `os.CreateTemp`. -/
theorem committed_mode_counterexample :
    (migrateFile (demoConfig false (ascii "a") (ascii "b"))
        { Faults.none (ascii "7") with copy := { StageFaults.none with statFail := true } }
        { fs := demoTree (ascii "a\n") 0o600, cnt := Counters.reset 1 } (ascii "A.als")).2
      = .updated ∧
    ((migrateFile (demoConfig false (ascii "a") (ascii "b"))
        { Faults.none (ascii "7") with copy := { StageFaults.none with statFail := true } }
        { fs := demoTree (ascii "a\n") 0o600, cnt := Counters.reset 1 } (ascii "A.als")).1.fs
        (ascii "A.als")).map File.mode = some 0o644 ∧
    (demoTree (ascii "a\n") 0o600 (ascii "A.als")).map File.mode = some 0o600 ∧
    (migrateFile (demoConfig false (ascii "a") (ascii "b"))
        { Faults.none (ascii "7") with
          decompress := { StageFaults.none with statFail := true } }
        { fs := demoTree (ascii "a\n") 0o600, cnt := Counters.reset 1 } (ascii "A.als")).2
      = .updated ∧
    ((migrateFile (demoConfig false (ascii "a") (ascii "b"))
        { Faults.none (ascii "7") with
          decompress := { StageFaults.none with statFail := true } }
        { fs := demoTree (ascii "a\n") 0o600, cnt := Counters.reset 1 } (ascii "A.als")).1.fs
        (ascii "A.als")).map File.mode = some 0o644 ∧
    (migrateFile (demoConfig false (ascii "a") (ascii "b"))
        { Faults.none (ascii "7") with
          proc := { ProcFaults.none (ascii "7") with statFail := true } }
        { fs := demoTree (ascii "a\n") 0o644, cnt := Counters.reset 1 } (ascii "A.als")).2
      = .updated ∧
    ((migrateFile (demoConfig false (ascii "a") (ascii "b"))
        { Faults.none (ascii "7") with
          proc := { ProcFaults.none (ascii "7") with statFail := true } }
        { fs := demoTree (ascii "a\n") 0o644, cnt := Counters.reset 1 } (ascii "A.als")).1.fs
        (ascii "A.als")).map File.mode = some 0o600 := by
  decide

/-- C7, amended: when the callback ends in `updated`, the `os.Stat` call of
`copyFile` has succeeded and, in case that of `compressGzipFile` has
succeeded, those of `decompressGzipFile` and `processFile` have succeeded
too, the file under the candidate path has the mode the candidate had; the
candidate path is the only path changed apart from the three temporaries.
When `os.Stat` fails inside `compressGzipFile`, the compressed temporary
keeps the mode that `copyFile` gave it, since `os.Create` truncates the
file that is there. -/
theorem committed_file_keeps_mode (cfg : Config) (ft : Faults) (st : State) (path : Path)
    (hup : (migrateFile cfg ft st path).2 = .updated)
    (h1 : ft.copy.statFail = false)
    (h2 : ft.compress.statFail = false →
      ft.decompress.statFail = false ∧ ft.proc.statFail = false) :
    (∃ sf f, st.fs path = some sf ∧ (migrateFile cfg ft st path).1.fs path = some f ∧
      f.mode = sf.mode) ∧
    ∀ q, q ≠ path → q ≠ tempGzOf path → q ≠ tempXmlOf path →
      q ≠ tempFileNameOf (tempXmlOf path) ft.proc.tempRnd →
      (migrateFile cfg ft st path).1.fs q = st.fs q := by
  obtain ⟨sf, payload, f, hsf, _, _, hf, _, hmode⟩ := migrateFile_updated_file cfg ft st path hup
  exact ⟨⟨sf, f, hsf, hf, hmode h1 h2⟩,
    fun q a b c d => migrateFile_frame cfg ft st path q a b c d⟩

/-- C7, amended, at two inputs: a committed archive keeps its mode 0600 when
no call fails, and also when `os.Stat` fails inside `compressGzipFile`, and
there even if it fails inside `decompressGzipFile` and `processFile` as
well. -/
theorem committed_file_keeps_mode_witness :
    (∃ sf f, demoTree (ascii "a\n") 0o600 (ascii "A.als") = some sf ∧
      (migrateFile (demoConfig false (ascii "a") (ascii "b")) (Faults.none (ascii "7"))
        { fs := demoTree (ascii "a\n") 0o600, cnt := Counters.reset 1 } (ascii "A.als")).1.fs
        (ascii "A.als") = some f ∧ f.mode = sf.mode) ∧
    (∃ sf f, demoTree (ascii "a\n") 0o600 (ascii "A.als") = some sf ∧
      (migrateFile (demoConfig false (ascii "a") (ascii "b"))
        { Faults.none (ascii "7") with
          decompress := { StageFaults.none with statFail := true }
          proc := { ProcFaults.none (ascii "7") with statFail := true }
          compress := { StageFaults.none with statFail := true } }
        { fs := demoTree (ascii "a\n") 0o600, cnt := Counters.reset 1 } (ascii "A.als")).1.fs
        (ascii "A.als") = some f ∧ f.mode = sf.mode) :=
  ⟨(committed_file_keeps_mode (demoConfig false (ascii "a") (ascii "b"))
      (Faults.none (ascii "7"))
      { fs := demoTree (ascii "a\n") 0o600, cnt := Counters.reset 1 } (ascii "A.als")
      (by decide) (by decide) (by decide)).1,
   (committed_file_keeps_mode (demoConfig false (ascii "a") (ascii "b"))
      { Faults.none (ascii "7") with
        decompress := { StageFaults.none with statFail := true }
        proc := { ProcFaults.none (ascii "7") with statFail := true }
        compress := { StageFaults.none with statFail := true } }
      { fs := demoTree (ascii "a\n") 0o600, cnt := Counters.reset 1 } (ascii "A.als")
      (by decide) (by decide) (by decide)).1⟩

/-- C9: when the removals succeed, after the callback for a candidate
neither `path.tmp.gz` nor `path.tmp.xml` exists, the temporary that
`processFile` creates does not exist, and no file exists that did not exist
before; after a whole run in which the removals succeed, the same holds of
the temporaries of every candidate. -/
theorem temporaries_are_removed (cfg : Config) :
    (∀ (ft : Faults) (st : State) (path : Path), ft.removalsWork →
      (migrateFile cfg ft st path).1.fs (tempGzOf path) = none ∧
      (migrateFile cfg ft st path).1.fs (tempXmlOf path) = none ∧
      (st.fs (tempFileNameOf (tempXmlOf path) ft.proc.tempRnd) = none →
        (migrateFile cfg ft st path).1.fs
          (tempFileNameOf (tempXmlOf path) ft.proc.tempRnd) = none) ∧
      ∀ q, st.fs q = none → (migrateFile cfg ft st path).1.fs q = none) ∧
    (∀ (cands : List (Path × Faults)) (fs : FS), (∀ c ∈ cands, c.2.removalsWork) →
      (∀ c ∈ cands, (migrateRun cfg cands fs).fs (tempGzOf c.1) = none ∧
        (migrateRun cfg cands fs).fs (tempXmlOf c.1) = none ∧
        (fs (procTempOf c) = none → (migrateRun cfg cands fs).fs (procTempOf c) = none)) ∧
      ∀ q, fs q = none → (migrateRun cfg cands fs).fs q = none) := by
  constructor
  · intro ft st path h
    obtain ⟨h1, h2, h3⟩ := h
    obtain ⟨g1, g2, g3⟩ := migrateFile_clean cfg ft st path h1 h2 h3
    exact ⟨g1, g2, fun hf => g3 _ hf, g3⟩
  · intro cands fs h
    have hnone := migrateAll_none cfg cands
      { fs := fs, cnt := Counters.reset cands.length } h
    refine ⟨fun c hc => ?_, fun q hq => hnone q hq⟩
    obtain ⟨t1, t2⟩ := migrateAll_temps cfg cands
      { fs := fs, cnt := Counters.reset cands.length } h c hc
    exact ⟨t1, t2, fun hf => hnone _ hf⟩

/-- C9 at an input: after a run over two archives, one with a match and
one without, none of their temporaries exists. -/
theorem temporaries_are_removed_witness :
    ∀ c ∈ twoCandidates,
      (migrateRun (demoConfig false (ascii "a") (ascii "b")) twoCandidates
        (twoArchives (ascii "a\n") (ascii "c\n"))).fs (tempGzOf c.1) = none ∧
      (migrateRun (demoConfig false (ascii "a") (ascii "b")) twoCandidates
        (twoArchives (ascii "a\n") (ascii "c\n"))).fs (tempXmlOf c.1) = none ∧
      (twoArchives (ascii "a\n") (ascii "c\n") (procTempOf c) = none →
        (migrateRun (demoConfig false (ascii "a") (ascii "b")) twoCandidates
          (twoArchives (ascii "a\n") (ascii "c\n"))).fs (procTempOf c) = none) :=
  ((temporaries_are_removed (demoConfig false (ascii "a") (ascii "b"))).2 twoCandidates
    (twoArchives (ascii "a\n") (ascii "c\n")) (by decide)).1

/-- C10: the callback adds 1 to `filesWithMatches` exactly when the
substitution stage completed with a match, 1 to `filesWithoutMatches` exactly
when it completed without one, to neither when copy, decompress or
`processFile` failed, and 1 to `filesModified` exactly when the final rename
succeeded; so at the end of a run `filesModified <= filesWithMatches` and
`filesWithMatches + filesWithoutMatches` is at most the number of candidates.
The counters are Go `int`s, far from overflow at one increment per file. -/
theorem counter_discipline (cfg : Config) :
    (∀ (ft : Faults) (st : State) (path : Path),
      (migrateFile cfg ft st path).1.cnt.filesWithMatches =
        st.cnt.filesWithMatches +
          (if counted (migrateFile cfg ft st path).2 = some true then 1 else 0) ∧
      (migrateFile cfg ft st path).1.cnt.filesWithoutMatches =
        st.cnt.filesWithoutMatches +
          (if counted (migrateFile cfg ft st path).2 = some false then 1 else 0) ∧
      (migrateFile cfg ft st path).1.cnt.filesModified =
        st.cnt.filesModified +
          (if (migrateFile cfg ft st path).2 = .updated then 1 else 0) ∧
      (counted (migrateFile cfg ft st path).2 =
        if (afterCopy cfg ft st path).2 = true ∧ (afterDecompress cfg ft st path).2 = true then
          (afterProcess cfg ft st path).2
        else none)) ∧
    (∀ (cands : List (Path × Faults)) (fs : FS),
      (migrateRun cfg cands fs).cnt.filesModified ≤
        (migrateRun cfg cands fs).cnt.filesWithMatches ∧
      (migrateRun cfg cands fs).cnt.filesWithMatches +
        (migrateRun cfg cands fs).cnt.filesWithoutMatches ≤ cands.length) := by
  constructor
  · intro ft st path
    obtain ⟨c1, c2, c3, _⟩ := migrateFile_counters cfg ft st path
    exact ⟨c1, c2, c3, counted_eq cfg ft st path⟩
  · intro cands fs
    obtain ⟨i1, i2⟩ := migrateAll_counters cfg cands
      { fs := fs, cnt := Counters.reset cands.length }
    have z1 : (Counters.reset cands.length).filesWithMatches = 0 := rfl
    have z2 : (Counters.reset cands.length).filesWithoutMatches = 0 := rfl
    have z3 : (Counters.reset cands.length).filesModified = 0 := rfl
    simp only [z1, z2, z3] at i1 i2
    unfold migrateRun
    constructor <;> omega

/-- A candidate that is a symbolic link to a temporary of a candidate visited
before it is counted differently by the two runs when the removal of that temporary
fails: a link to `A.als.tmp.gz`, which the dry run leaves behind and the
normal run has renamed; a link to `A.als.tmp.xml`, which holds the payload
as it was after the dry run and rewritten after the normal run (the payload
being an archive itself); a link to the file of `os.CreateTemp`, which only
the normal run makes. -/
theorem link_to_temporary_counts_differ :
    ((Links.migrateRun ((demoConfig false (ascii "a") (ascii "b")).dry true)
        (linkCandidates { Faults.none (ascii "11") with removeGzFail := true })
        (demoTree (ascii "a\n") 0o644) (linkS (ascii "A.als.tmp.gz"))).cnt.filesWithMatches = 2 ∧
     (Links.migrateRun ((demoConfig false (ascii "a") (ascii "b")).dry false)
        (linkCandidates { Faults.none (ascii "11") with removeGzFail := true })
        (demoTree (ascii "a\n") 0o644) (linkS (ascii "A.als.tmp.gz"))).cnt.filesWithMatches = 1) ∧
    ((Links.migrateRun ((demoConfig false (ascii "a") (ascii "b")).dry true)
        (linkCandidates { Faults.none (ascii "11") with removeXmlFail := true })
        (demoTree (demoCodec.compress (ascii "a\n")) 0o644)
        (linkS (ascii "A.als.tmp.xml"))).cnt.filesWithoutMatches = 0 ∧
     (Links.migrateRun ((demoConfig false (ascii "a") (ascii "b")).dry false)
        (linkCandidates { Faults.none (ascii "11") with removeXmlFail := true })
        (demoTree (demoCodec.compress (ascii "a\n")) 0o644)
        (linkS (ascii "A.als.tmp.xml"))).cnt.filesWithoutMatches = 1) ∧
    ((Links.migrateRun ((demoConfig false (ascii "a") (ascii "b")).dry true)
        (linkCandidates { Faults.none (ascii "11") with
            proc := { ProcFaults.none (ascii "11") with removeFail := true } })
        (demoTree (demoCodec.compress (ascii "c\n")) 0o644)
        (linkS (ascii "A.als.tmp.xml.tmp-11"))).cnt.filesWithoutMatches = 1 ∧
     (Links.migrateRun ((demoConfig false (ascii "a") (ascii "b")).dry false)
        (linkCandidates { Faults.none (ascii "11") with
            proc := { ProcFaults.none (ascii "11") with removeFail := true } })
        (demoTree (demoCodec.compress (ascii "c\n")) 0o644)
        (linkS (ascii "A.als.tmp.xml.tmp-11"))).cnt.filesWithoutMatches = 2) := by
  decide

/-- C8: `cleanUpTempFiles` attempts a removal on a non-directory exactly
when its name ends with `.tmp.gz`, ends with `.tmp.xml` or contains `.tmp-`.
Whatever fails, the entries left are entries of the tree, unchanged and in
order, and among them every directory and every non-directory without such a
name. When every removal succeeds, a second sweep of what is left finds
nothing and changes nothing. When moreover every directory can be listed,
what is left is exactly the tree without the non-directories of such a
name. -/
theorem cleanUpTempFiles_removes_exactly_temporaries (baseDir : Node) :
    (∀ name, removalAttempted name =
      (HasSuffix name (ascii ".tmp.gz") || HasSuffix name (ascii ".tmp.xml") ||
        Contains name (ascii ".tmp-"))) ∧
    (listingOf [] (cleanUpTempFiles baseDir).1).Sublist (baseDir.listing []) ∧
    (∀ e ∈ baseDir.listing [], e.kept = true → e ∈ listingOf [] (cleanUpTempFiles baseDir).1) ∧
    (baseDir.removalsSucceed = true →
      ∀ left, (cleanUpTempFiles baseDir).1 = some left →
        cleanUpTempFiles left = (some left, false)) ∧
    (baseDir.cooperative = true →
      (cleanUpTempFiles baseDir).1 = pruneNode baseDir ∧
      listingOf [] (cleanUpTempFiles baseDir).1 = (baseDir.listing []).filter Entry.kept) := by
  obtain ⟨f1, f2⟩ := sweepNode_frame baseDir false []
  refine ⟨fun name => removalAttempted_eq name, f1, f2, fun hr left hl => ?_, fun hc => ?_⟩
  · exact sweepNode_again baseDir false hr left hl false
  · have hp : (cleanUpTempFiles baseDir).1 = pruneNode baseDir :=
      sweepNode_coop baseDir false hc
    refine ⟨hp, ?_⟩
    rw [hp]
    exact pruneNode_listing baseDir []

/-- C8 at an input: of a directory with the leftovers of two project
files, the sweep keeps `A.als`, `sub` and `sub/notes.tmp.txt` and removes the
three temporaries; a second sweep changes nothing. -/
theorem cleanUpTempFiles_removes_exactly_temporaries_witness :
    (listingOf [] (cleanUpTempFiles demoDir).1).map Prod.fst =
      [[ascii "."], [ascii ".", ascii "A.als"], [ascii ".", ascii "sub"],
       [ascii ".", ascii "sub", ascii "notes.tmp.txt"]] ∧
    ∀ left, (cleanUpTempFiles demoDir).1 = some left →
      cleanUpTempFiles left = (some left, false) := by
  have h := cleanUpTempFiles_removes_exactly_temporaries demoDir
  exact ⟨by rw [(h.2.2.2.2 (by decide)).2]; decide, h.2.2.2.1 (by decide)⟩

end AbletonCLI
